import Mathlib

/-!
Page table of the VM simulator (`PageTable.c`).

A shallow embedding of `initPageTable`, `requestPage` and `showPageTableStatus`.

* The module's static variables (`PageTable`, `fifoQueue`, `nPages`, `replacePolicy`,
  `fifoLast`) are the first five fields of `State`.
* A `PTE *` always points into the `PageTable` array, so a pointer is the index of the entry it
  points to (`some i` for `&PageTable[i]`, `none` for `NULL`).
* `exit(EXIT_FAILURE)` and the dereference of a null or wild pointer end the run: the embedding
  returns `Except.error`.
* An `int` is a 32-bit two's-complement integer. The fields hold values of type `Int`; the only
  arithmetic of the module is the `++` of the two counters, which wraps from `INT_MAX` to
  `INT_MIN` as the compiled program does (`wrapInt`). Every other field is only assigned.
* Text written to `stdout` / `stderr` by `requestPage` is not part of the state.
-/

namespace VMSim

/-! ## Constants -/

/-- Status value `NOT_USED` (`#define NOT_USED 0`). -/
def NOT_USED : Int := 0

/-- Status value `IN_MEMORY` (`#define IN_MEMORY 1`). -/
def IN_MEMORY : Int := 1

/-- Status value `ON_DISK` (`#define ON_DISK 2`). -/
def ON_DISK : Int := 2

/-- Modelled from the spec: the sentinel `NONE` ("none" for a frame or a time, and the value
`findFreeFrame` returns when memory is full) is a macro of `Memory.h`, which is not part of the
sources at hand. It is a value that is no frame index and no clock tick; we take `-1`. -/
def NONE : Int := -1

/-- Modelled from the spec: the policy selector for least-recently-used, a macro of
`PageTable.h`, which is not part of the sources at hand. -/
def REPL_LRU : Int := 0

/-- Modelled from the spec: the policy selector for first-in-first-out, a macro of
`PageTable.h`, which is not part of the sources at hand. Only `REPL_FIFO ≠ REPL_LRU` matters. -/
def REPL_FIFO : Int := 1

/-! ## Data model -/

/-- The ways a call can end the process. -/
inductive Err where
  /-- `exit` after "Invalid page reference". -/
  | invalidPageReference
  /-- `exit` after "Invalid page status". -/
  | invalidPageStatus
  /-- A `NULL` pointer is dereferenced. -/
  | nullPointer
  /-- A pointer or an array index outside the page table is dereferenced. -/
  | badAddress
  deriving DecidableEq, Repr

/-- One call of a collaborator (`Memory.h`, `Stats.h`), as recorded in the effect log. -/
inductive Effect where
  | findFreeFrame
  | saveFrame (fno : Int)
  | loadFrame (fno pno time : Int)
  | countPageFault
  | countPageHit
  deriving DecidableEq, Repr

/-- Page table entry (`struct PTE`). -/
structure PTE where
  status : Int
  modified : Int
  frame : Int
  accessTime : Int
  loadTime : Int
  nPeeks : Int
  nPokes : Int
  pageNo : Int
  prev : Option Nat
  next : Option Nat
  deriving DecidableEq, Repr

/-- The static variables of `PageTable.c`, together with the state of the collaborators:
`memory` holds, for every frame, the page it contains or `NONE`; `effects` is the log of
collaborator calls, oldest first. -/
structure State where
  PageTable : List PTE
  fifoQueue : Option Nat
  nPages : Int
  replacePolicy : Int
  fifoLast : Int
  memory : List Int
  effects : List Effect
  deriving DecidableEq, Repr

/-- One request of the trace: `requestPage(pno, mode, time)`. -/
structure Req where
  pno : Int
  mode : Char
  time : Int
  deriving DecidableEq, Repr

/-! ## Collaborators -/

/-- Modelled from the spec: `initMemory` of `Memory.c` (not part of the sources at hand): a memory
of `nf` frames, none of which holds a page. -/
def initMemory (nf : Nat) : List Int := List.replicate nf NONE

/-- Scan of the frames for `findFreeFrame`, `i` being the index of the first frame of the list. -/
def findFreeFrameFrom : List Int → Nat → Int
  | [], _ => NONE
  | w :: rest, i => if w = NONE then (i : Int) else findFreeFrameFrom rest (i + 1)

/-- Modelled from the spec: `findFreeFrame` of `Memory.c` (not part of the sources at hand)
"returns an unused physical frame, or a sentinel indicating memory is full": the first frame that
holds no page, or `NONE`. -/
def findFreeFrame (s : State) : State × Int :=
  ({ s with effects := s.effects ++ [Effect.findFreeFrame] }, findFreeFrameFrom s.memory 0)

/-- Modelled from the spec: `loadFrame` of `Memory.c` (not part of the sources at hand) "loads
page `pageNumber`'s contents into `frame`": the frame now holds the page. -/
def loadFrame (s : State) (fno pno time : Int) : State :=
  { s with
    memory := if 0 ≤ fno then s.memory.set fno.toNat pno else s.memory
    effects := s.effects ++ [Effect.loadFrame fno pno time] }

/-- Modelled from the spec: `saveFrame` of `Memory.c` (not part of the sources at hand) "flushes
the modified contents of `frame` to backing storage"; the page stays in the frame. -/
def saveFrame (s : State) (fno : Int) : State :=
  { s with effects := s.effects ++ [Effect.saveFrame fno] }

/-- Modelled from the spec: `countPageFault` of `Stats.c`, "purely observational". -/
def countPageFault (s : State) : State :=
  { s with effects := s.effects ++ [Effect.countPageFault] }

/-- Modelled from the spec: `countPageHit` of `Stats.c`, "purely observational". -/
def countPageHit (s : State) : State :=
  { s with effects := s.effects ++ [Effect.countPageHit] }

/-! ## Access to the page table -/

/-- Read through a pointer into the page table. -/
def deref (t : List PTE) (i : Nat) : Except Err PTE :=
  match t[i]? with
  | some e => Except.ok e
  | none => Except.error Err.badAddress

/-- The table with entry `i` replaced by `f` of it (unchanged when there is no entry `i`). -/
def upd (t : List PTE) (i : Nat) (f : PTE → PTE) : List PTE :=
  match t[i]? with
  | some e => t.set i (f e)
  | none => t

/-- Write through a pointer into the page table. -/
def store (t : List PTE) (i : Nat) (f : PTE → PTE) : Except Err (List PTE) :=
  match t[i]? with
  | some _ => Except.ok (upd t i f)
  | none => Except.error Err.badAddress

/-! ## `initPageTable` -/

/-- The entry written by the loop body of `initPageTable` for page `i`. -/
def initPTE (i : Nat) : PTE :=
  { status := NOT_USED, modified := 0, frame := NONE, accessTime := NONE, loadTime := NONE,
    nPeeks := 0, nPokes := 0, pageNo := i, prev := none, next := none }

/-- `initPageTable(policy, np)`, called when the collaborators are in the state given by `memory`
and `effects` (the `malloc` is assumed to succeed). -/
def initPageTable (policy np : Int) (memory : List Int) (effects : List Effect) : State :=
  { PageTable := (List.range np.toNat).map initPTE
    fifoQueue := none
    nPages := np
    replacePolicy := policy
    fifoLast := -1
    memory := memory
    effects := effects }

/-- The simulator at start-up: `initMemory(nf)`, then `initPageTable(policy, np)`. -/
def initState (policy np : Int) (nf : Nat) : State :=
  initPageTable policy np (initMemory nf) []

/-! ## `requestPage` -/

/-- Assignment `e->prev = v`. -/
def setPrev (v : Option Nat) (e : PTE) : PTE := { e with prev := v }

/-- Assignment `e->next = v`. -/
def setNext (v : Option Nat) (e : PTE) : PTE := { e with next := v }

/-- Lines 108-114: `victim->next = NULL` and the reset of the victim. -/
def resetVictim (e : PTE) : PTE :=
  { e with next := none, status := ON_DISK, modified := 0, frame := NONE,
           accessTime := NONE, loadTime := NONE }

/-- Lines 129-133: the fields of a page that has just been loaded into frame `fno`. -/
def setLoaded (fno time : Int) (e : PTE) : PTE :=
  { e with status := IN_MEMORY, modified := 0, frame := fno, accessTime := time,
           loadTime := time }

/-- The value of type `int` (32 bits, two's complement) that an integer wraps to: the integer
of `[-2147483648, 2147483647]` equal to `x` modulo `2^32`. -/
def wrapInt (x : Int) : Int := (x + 2147483648) % 4294967296 - 2147483648

/-- Line 168: `p->nPeeks++`, on an `int`. -/
def countPeek (e : PTE) : PTE := { e with nPeeks := wrapInt (e.nPeeks + 1) }

/-- Lines 170-171: `p->nPokes++; p->modified = 1`, the counter being an `int`. -/
def countPoke (e : PTE) : PTE := { e with nPokes := wrapInt (e.nPokes + 1), modified := 1 }

/-- Line 175: `p->accessTime = time`. -/
def setAccessTime (time : Int) (e : PTE) : PTE := { e with accessTime := time }

/-- Lines 95-114 of `requestPage`: the queue head is the victim; it is saved when modified, taken
out of the queue and reset. Returns the frame it held. -/
def evictVictim (s : State) : Except Err (State × Int) :=
  match s.fifoQueue with
  | none => Except.error Err.nullPointer
  | some v => do
    let victim ← deref s.PageTable v
    let s1 := if victim.modified ≠ 0 then saveFrame s victim.frame else s
    let fno := victim.frame
    -- `if (victim->next != NULL) victim->next->prev = NULL;`
    let t1 ← match victim.next with
      | some n => store s1.PageTable n (setPrev none)
      | none => pure s1.PageTable
    -- `fifoQueue = victim->next;` (the store above wrote a `prev` field only)
    let head := victim.next
    let t2 ← store t1 v resetVictim
    pure ({ s1 with PageTable := t2, fifoQueue := head }, fno)

/-- Lines 118-136 of `requestPage`: page `pno` is loaded into frame `fno`, linked at the tail of
the queue and initialised. -/
def loadPage (s : State) (pno : Nat) (fno time : Int) : Except Err State := do
  let s1 := loadFrame s fno pno time
  let t1 ← store s1.PageTable pno (setNext none)
  let (t2, head) ←
    if 0 ≤ s1.fifoLast then do
      let t ← store t1 s1.fifoLast.toNat (setNext (some pno))
      let t ← store t pno (setPrev (some s1.fifoLast.toNat))
      pure (t, s1.fifoQueue)
    else
      pure (t1, some pno)
  let t3 ← store t2 pno (setLoaded fno time)
  pure (countPageFault { s1 with PageTable := t3, fifoQueue := head, fifoLast := pno })

/-- Lines 142-161 of `requestPage`: under LRU a page that is hit and is not the last of the queue
is moved to its end. -/
def touchPage (s : State) (pno : Nat) : Except Err State := do
  let p ← deref s.PageTable pno
  if s.replacePolicy = REPL_LRU then
    match p.next with
    | none => pure s
    | some n =>
      -- `if (p->prev != NULL) p->prev->next = p->next;`
      let t1 ← match p.prev with
        | some b => store s.PageTable b (setNext (some n))
        | none => pure s.PageTable
      -- `if (p->next != NULL) p->next->prev = p->prev;` (`p->next`, `p->prev` are as read above:
      -- a store into `p` itself would have written the value the field already had)
      let t2 ← store t1 n (setPrev p.prev)
      -- `PageTable[fifoLast].next = p;`
      if s.fifoLast < 0 then throw Err.badAddress
      let t3 ← store t2 s.fifoLast.toNat (setNext (some pno))
      -- `p->prev = &PageTable[fifoLast];`
      let t4 ← store t3 pno (setPrev (some s.fifoLast.toNat))
      -- `if (fifoQueue == p) fifoQueue = p->next;`
      let p4 ← deref t4 pno
      let head := if s.fifoQueue = some pno then p4.next else s.fifoQueue
      -- `p->next = NULL;`
      let t5 ← store t4 pno (setNext none)
      pure { s with PageTable := t5, fifoQueue := head, fifoLast := pno }
  else
    pure s

/-- Lines 167-176 of `requestPage`: the counters, the modified flag and the access time of the
requested page; returns `p->frame`. -/
def recordAccess (s : State) (pno : Nat) (mode : Char) (time : Int) :
    Except Err (State × Int) := do
  let t1 ←
    if mode = 'r' then store s.PageTable pno countPeek
    else if mode = 'w' then store s.PageTable pno countPoke
    else pure s.PageTable
  let t2 ← store t1 pno (setAccessTime time)
  let p ← deref t2 pno
  pure ({ s with PageTable := t2 }, p.frame)

/-- `requestPage(pno, mode, time)`: the state after the call and the frame returned. -/
def requestPage (s : State) (pno : Int) (mode : Char) (time : Int) :
    Except Err (State × Int) :=
  if pno < 0 ∨ pno ≥ s.nPages then Except.error Err.invalidPageReference
  else do
    let p ← deref s.PageTable pno.toNat
    let s1 ←
      if p.status = NOT_USED ∨ p.status = ON_DISK then do
        let (s0, free) := findFreeFrame s
        let (s0, fno) ← if free = NONE then evictVictim s0 else pure (s0, free)
        loadPage s0 pno.toNat fno time
      else if p.status = IN_MEMORY then
        touchPage (countPageHit s) pno.toNat
      else
        throw Err.invalidPageStatus
    recordAccess s1 pno.toNat mode time

/-- The requests of a trace, one after the other; stops at the first call that does not return. -/
def runRequests (s : State) : List Req → Except Err State
  | [] => Except.ok s
  | r :: rest =>
    match requestPage s r.pno r.mode r.time with
    | Except.ok (s1, _) => runRequests s1 rest
    | Except.error e => Except.error e

/-! ## `showPageTableStatus` -/

/-- One line of the status dump; the cells hold the text printed, without the padding. The
status cell is `none` when the `switch` leaves `s` unset. -/
structure Row where
  page : Nat
  status : Option String
  modified : String
  frame : String
  accessTime : String
  loadTime : String
  nPeeks : Int
  nPokes : Int
  deriving DecidableEq, Repr

/-- The text of a cell that shows `-` for `NONE`. -/
def showCell (x : Int) : String := if x = NONE then "-" else toString x

/-- The line printed by the body of the loop of `showPageTableStatus` for entry `i`. -/
def showRow (i : Nat) (p : PTE) : Row :=
  { page := i
    status :=
      if p.status = NOT_USED then some "-"
      else if p.status = IN_MEMORY then some "mem"
      else if p.status = ON_DISK then some "disk"
      else none
    modified := if p.modified ≠ 0 then "yes" else "no"
    frame := showCell p.frame
    accessTime := showCell p.accessTime
    loadTime := showCell p.loadTime
    nPeeks := p.nPeeks
    nPokes := p.nPokes }

/-- `showPageTableStatus()`: the lines of the dump after the header, one per page, in page
order. -/
def showPageTableStatus (s : State) : List Row :=
  (List.range s.nPages.toNat).filterMap (fun i => (s.PageTable[i]?).map (showRow i))

/-- The state at the end of a run that returns (the start state when it does not). -/
def finalState (s : State) (reqs : List Req) : State :=
  match runRequests s reqs with
  | Except.ok s1 => s1
  | Except.error _ => s

/-! ## Example runs -/

/-- Two frames under LRU: page 0 is written, page 1 is read. -/
def lruTwoLoaded : State :=
  finalState (initPageTable REPL_LRU 3 (initMemory 2) []) [⟨0, 'w', 1⟩, ⟨1, 'r', 2⟩]

/-- The entry of page 0 in `lruTwoLoaded`. -/
def lruTwoLoaded0 : PTE :=
  { status := IN_MEMORY, modified := 1, frame := 0, accessTime := 1, loadTime := 1,
    nPeeks := 0, nPokes := 1, pageNo := 0, prev := none, next := some 1 }

/-- Two frames: pages 0 and 1 are loaded, then page 0 is hit. -/
def hitTrace : List Req := [⟨0, 'r', 1⟩, ⟨1, 'r', 2⟩, ⟨0, 'r', 3⟩]

/-- The state after `hitTrace` under `policy`, with four pages and two frames. -/
def afterHit (policy : Int) : State :=
  finalState (initPageTable policy 4 (initMemory 2) []) hitTrace

/-- The state after `hitTrace` and a read of page 2 at time 4, which needs an eviction. -/
def afterHitFault (policy : Int) : State :=
  finalState (initPageTable policy 4 (initMemory 2) []) (hitTrace ++ [⟨2, 'r', 4⟩])

/-- The trace `0r, 1r, 2r, 0r` at the times `1, 2, 3, 4`. -/
def fifoTrace : List Req := [⟨0, 'r', 1⟩, ⟨1, 'r', 2⟩, ⟨2, 'r', 3⟩, ⟨0, 'r', 4⟩]

/-- The state after the first `k` requests of `fifoTrace`, under FIFO with four pages and two
frames. -/
def fifoAfter (k : Nat) : State :=
  finalState (initState REPL_FIFO 4 2) (fifoTrace.take k)

/-- One frame, three pages, FIFO: the state after the read of page 0. -/
def oneFrameFirst : State :=
  finalState (initState REPL_FIFO 3 1) [⟨0, 'r', 1⟩]

/-- One frame, three pages, FIFO: the state after the reads of page 0 and of page 1. -/
def oneFrameSecond : State :=
  finalState (initState REPL_FIFO 3 1) [⟨0, 'r', 1⟩, ⟨1, 'r', 2⟩]

/-- The state after the first `k` requests of `fifoTrace`, under LRU with four pages and two
frames. -/
def lruAfter (k : Nat) : State :=
  finalState (initState REPL_LRU 4 2) (fifoTrace.take k)

/-- The state after `fifoTrace` and a fifth request `(2,'r',5)`, under `policy`. -/
def afterFifth (policy : Int) : State :=
  finalState (initState policy 4 2) (fifoTrace ++ [⟨2, 'r', 5⟩])

/-- The entry of page 2 after `fifoTrace` (the same under both policies). -/
def afterTracePage2 : PTE :=
  { status := IN_MEMORY, modified := 0, frame := 0, accessTime := 3, loadTime := 3,
    nPeeks := 1, nPokes := 0, pageNo := 2, prev := none, next := some 0 }

/-- One page and one frame under FIFO: the state after a read of page 0 at time 1. -/
def oneRead : State :=
  finalState (initPageTable REPL_FIFO 1 (initMemory 1) []) [⟨0, 'r', 1⟩]

/-- Two frames under FIFO, pages 0 and 1 loaded, then a read of page 0 at time 5. -/
def fifoHitAfter : State :=
  finalState (fifoAfter 2) [⟨0, 'r', 5⟩]

/-! ## The replacement queue -/

/-- The entries met from `cur` by following `next`, at most `fuel` of them. -/
def walk (t : List PTE) : Nat → Option Nat → List Nat
  | 0, _ => []
  | _, none => []
  | fuel + 1, some i =>
    match t[i]? with
    | some e => i :: walk t fuel e.next
    | none => []

/-- The replacement queue: the pages met from `fifoQueue` by following `next`. A list without
repetition has at most as many elements as the table has entries. -/
def queue (s : State) : List Nat :=
  walk s.PageTable s.PageTable.length s.fifoQueue

/-- Page `i` is resident: it has an entry, of status `IN_MEMORY`. -/
def resident (s : State) (i : Nat) : Bool :=
  match s.PageTable[i]? with
  | some e => decide (e.status = IN_MEMORY)
  | none => false

/-- Every frame holds a page: `findFreeFrame` returns `NONE`. -/
def memoryFull (s : State) : Bool := decide ((findFreeFrame s).2 = NONE)

/-! ## The history of a run -/

/-- One entry per request of the trace that returned: the page requested, and whether the request
was a fault (the page was not resident when it was issued). -/
def history (s : State) : List Req → List (Nat × Bool)
  | [] => []
  | r :: rest =>
    match requestPage s r.pno r.mode r.time with
    | Except.ok (s1, _) => (r.pno.toNat, !resident s r.pno.toNat) :: history s1 rest
    | Except.error _ => []

/-- Position, counted from 1, of the last element of the list that satisfies `P`; `0` when there
is none. -/
def lastPos {α : Type} (P : α → Bool) : List α → Nat
  | [] => 0
  | a :: l => if lastPos P l ≠ 0 then lastPos P l + 1 else if P a then 1 else 0

/-- Position in the request sequence (from 1) of the most recent load of page `u`, that is of the
most recent request on `u` that was a fault; `0` when `u` was never loaded. -/
def loadStamp (h : List (Nat × Bool)) (u : Nat) : Nat :=
  lastPos (fun x => decide (x.1 = u) && x.2) h

/-- Position in the request sequence (from 1) of the most recent request on page `u`, hit or
fault; `0` when `u` was never requested. -/
def requestStamp (h : List (Nat × Bool)) (u : Nat) : Nat :=
  lastPos (fun x => decide (x.1 = u)) h

/-- Position in the request sequence (from 1) of the most recent `'w'` request on page `u`; `0`
when there is none. -/
def writeStamp (reqs : List Req) (u : Nat) : Nat :=
  lastPos (fun r => decide (r.pno = (u : Int)) && decide (r.mode = 'w')) reqs

/-- The dirty-bit invariant, `h` being the history of the run and `reqs` its requests: a
resident page has been loaded and is modified exactly when a `'w'` request on it is at or after
its most recent load; an entry that is not resident is not modified. -/
def Dirty (s : State) (h : List (Nat × Bool)) (reqs : List Req) : Prop :=
  ∀ (u : Nat) (e : PTE), s.PageTable[u]? = some e →
    (e.status = IN_MEMORY →
      0 < loadStamp h u ∧ (e.modified = 1 ↔ loadStamp h u ≤ writeStamp reqs u)) ∧
    (e.status ≠ IN_MEMORY → e.modified = 0)

/-- The state `s` with `replacePolicy` set to `policy`. -/
def withPolicy (policy : Int) (s : State) : State := { s with replacePolicy := policy }

/-- The frames returned by the requests of a trace, up to the first call that does not return. -/
def results (s : State) : List Req → List Int
  | [] => []
  | r :: rest =>
    match requestPage s r.pno r.mode r.time with
    | Except.ok (s1, f) => f :: results s1 rest
    | Except.error _ => []

/-- Every hit of the trace run from `s` is on the page that is the tail of the queue when the
request is issued: the page named by `fifoLast`, or the last page met from `fifoQueue`. -/
def tailHits (s : State) : List Req → Bool
  | [] => true
  | r :: rest =>
    (!resident s r.pno.toNat || decide (s.fifoLast = r.pno) ||
      decide ((queue s).getLast? = some r.pno.toNat)) &&
    match requestPage s r.pno r.mode r.time with
    | Except.ok (s1, _) => tailHits s1 rest
    | Except.error _ => true

/-- The trace `0r, 1w, 1r, 2r` at the times `1, 2, 3, 4`: its only hit is on page 1, the tail of
the queue. -/
def tailHitTrace : List Req := [⟨0, 'r', 1⟩, ⟨1, 'w', 2⟩, ⟨1, 'r', 3⟩, ⟨2, 'r', 4⟩]

/-- The entry named by `fifoLast`, when there is one, is resident and has no successor. -/
def TailOK (s : State) : Prop :=
  0 ≤ s.fifoLast →
    ∃ e, s.PageTable[s.fifoLast.toNat]? = some e ∧ e.next = none ∧ e.status = IN_MEMORY

/-- Every resident page has a frame of the memory, and this frame holds the page. -/
def MemOK (s : State) : Prop :=
  ∀ (i : Nat) (e : PTE), s.PageTable[i]? = some e → e.status = IN_MEMORY →
    0 ≤ e.frame ∧ s.memory[e.frame.toNat]? = some (i : Int)

/-- Every frame that holds a page holds a resident page, whose entry names this frame. -/
def Occ (s : State) : Prop :=
  ∀ (k : Nat) (w : Int), s.memory[k]? = some w → w ≠ NONE →
    ∃ (i : Nat) (e : PTE), w = (i : Int) ∧ s.PageTable[i]? = some e ∧ e.status = IN_MEMORY ∧
      e.frame = (k : Int)

/-! ## Invariants -/

/-- `Seg t b cur q c`: following `next` from `cur` one meets the entries `q`, in this order, and
then `c`; the `prev` of the first one is `b` and the `prev` of every other is the one before. -/
def Seg (t : List PTE) : Option Nat → Option Nat → List Nat → Option Nat → Prop
  | _, cur, [], c => cur = c
  | b, cur, a :: q, c =>
    cur = some a ∧ ∃ e, t[a]? = some e ∧ e.prev = b ∧ Seg t (some a) e.next q c

/-- The predecessor of what follows the list `q`: its last element, `b` when it is empty. -/
def lastOr (b : Option Nat) (q : List Nat) : Option Nat :=
  match q.getLast? with
  | some l => some l
  | none => b

/-- The value of `fifoLast` for a queue: its last element, `-1` when it is empty. -/
def tailIndex (q : List Nat) : Int :=
  match q.getLast? with
  | some l => (l : Int)
  | none => -1

/-- The queue of `s` is the well-formed doubly linked list `q` of the resident pages. -/
structure WF (s : State) (q : List Nat) : Prop where
  seg : Seg s.PageTable none s.fifoQueue q none
  nodup : q.Nodup
  mem : ∀ (i : Nat) (e : PTE), s.PageTable[i]? = some e → (e.status = IN_MEMORY ↔ i ∈ q)
  last : s.fifoLast = tailIndex q
  out : ∀ (i : Nat) (e : PTE), s.PageTable[i]? = some e → i ∉ q → e.prev = none

/-- The state left by the eviction of the only resident page: the head is `NULL` although
`fifoLast` names an entry. No later eviction returns. -/
def Broken (s : State) : Prop := s.fifoQueue = none ∧ 0 ≤ s.fifoLast

/-- The stamp that orders the queue under the policy of `s`. -/
def stamp (s : State) (h : List (Nat × Bool)) (u : Nat) : Nat :=
  if s.replacePolicy = REPL_LRU then requestStamp h u else loadStamp h u

/-- Invariant of the reachable states, `h` being the history of the run: unless the state is
`Broken`, the queue is well formed and in the order of the stamps. -/
def Inv (s : State) (h : List (Nat × Bool)) : Prop :=
  Broken s ∨ ∃ q, WF s q ∧ q.Pairwise (fun a b => stamp s h a < stamp s h b) ∧
    ∀ a ∈ q, 0 < stamp s h a

/-- The pointers of an entry point into a table of `L` entries. -/
abbrev PtrOK (L : Nat) (e : PTE) : Prop :=
  (∀ n, e.next = some n → n < L) ∧ (∀ b, e.prev = some b → b < L)

/-- Memory safety: the table has `nPages` entries, every pointer points into the table, and
`fifoLast` is an index of the table as soon as some entry has a successor. -/
structure Safe (s : State) : Prop where
  len : s.PageTable.length = s.nPages.toNat
  last : s.fifoLast < s.PageTable.length
  head : ∀ v, s.fifoQueue = some v → v < s.PageTable.length
  ptr : ∀ (i : Nat) (e : PTE), s.PageTable[i]? = some e → PtrOK s.PageTable.length e
  fresh : s.fifoLast < 0 → ∀ (i : Nat) (e : PTE), s.PageTable[i]? = some e → e.next = none

/-! ## The state after each part of `requestPage`, in closed form -/

/-- Entry `n` of the table updated by `f` when the pointer is `some n`; nothing for `NULL`. -/
def updOpt (t : List PTE) (o : Option Nat) (f : PTE → PTE) : List PTE :=
  match o with
  | some n => upd t n f
  | none => t

/-- The state after `evictVictim`, the head being `v` with entry `ve`. -/
def evicted (s : State) (v : Nat) (ve : PTE) : State :=
  { s with
    PageTable := upd (updOpt s.PageTable ve.next (setPrev none)) v resetVictim
    fifoQueue := ve.next
    effects := s.effects ++ (if ve.modified ≠ 0 then [Effect.saveFrame ve.frame] else []) }

/-- The table after lines 120-127: `pno` linked behind `PageTable[fifoLast]`. -/
def linkedLast (s : State) (pno : Nat) : List PTE :=
  if 0 ≤ s.fifoLast then
    upd (upd (upd s.PageTable pno (setNext none)) s.fifoLast.toNat (setNext (some pno))) pno
      (setPrev (some s.fifoLast.toNat))
  else
    upd s.PageTable pno (setNext none)

/-- The state after `loadPage`. -/
def loaded (s : State) (pno : Nat) (fno time : Int) : State :=
  { s with
    PageTable := upd (linkedLast s pno) pno (setLoaded fno time)
    fifoQueue := if 0 ≤ s.fifoLast then s.fifoQueue else some pno
    fifoLast := pno
    memory := if 0 ≤ fno then s.memory.set fno.toNat pno else s.memory
    effects := s.effects ++ [Effect.loadFrame fno pno time, Effect.countPageFault] }

/-- The state after `touchPage` under LRU when `pno`, with entry `p`, has the successor `n`. -/
def moved (s : State) (pno : Nat) (p : PTE) (n : Nat) : State :=
  { s with
    PageTable :=
      upd (upd (upd (upd (updOpt s.PageTable p.prev (setNext (some n))) n (setPrev p.prev))
        s.fifoLast.toNat (setNext (some pno))) pno (setPrev (some s.fifoLast.toNat))) pno
        (setNext none)
    fifoQueue :=
      if s.fifoQueue = some pno then
        (if s.fifoLast.toNat = pno then some pno else some n)
      else s.fifoQueue
    fifoLast := pno }

/-- Lines 167-175 on the entry of the requested page. -/
def accessed (mode : Char) (time : Int) : PTE → PTE := fun e =>
  setAccessTime time (if mode = 'r' then countPeek e else if mode = 'w' then countPoke e else e)

/-- The fields of an entry other than `pageNo` and the two links: `status`, `modified`, `frame`,
`accessTime`, `loadTime`, `nPeeks`, `nPokes`. -/
def data (e : PTE) : Int × Int × Int × Int × Int × Int × Int :=
  (e.status, e.modified, e.frame, e.accessTime, e.loadTime, e.nPeeks, e.nPokes)

/-- The state after `recordAccess`. -/
def recorded (s : State) (pno : Nat) (mode : Char) (time : Int) : State :=
  { s with PageTable := upd s.PageTable pno (accessed mode time) }

/-- The state in which `findFreeFrame` has been called. -/
def probed (s : State) : State := (findFreeFrame s).1

/-! ## Basic facts about `Except`, `deref`, `upd` and `store` -/

theorem bind_ok {α β : Type} {x : Except Err α} {f : α → Except Err β} {b : β} :
    (x >>= f) = Except.ok b ↔ ∃ a, x = Except.ok a ∧ f a = Except.ok b := by
  cases x <;> simp [bind, Except.bind]

theorem pure_ok {α : Type} {a b : α} :
    (pure a : Except Err α) = Except.ok b ↔ a = b := by
  simp [pure, Except.pure]

theorem deref_ok {t : List PTE} {i : Nat} {e : PTE} :
    deref t i = Except.ok e ↔ t[i]? = some e := by
  unfold deref
  cases h : t[i]? <;> simp

theorem upd_length (t : List PTE) (i : Nat) (f : PTE → PTE) :
    (upd t i f).length = t.length := by
  unfold upd
  cases h : t[i]? <;> simp

theorem upd_get (t : List PTE) (i j : Nat) (f : PTE → PTE) :
    (upd t i f)[j]? = if j = i then (t[j]?).map f else t[j]? := by
  unfold upd
  cases h : t[i]? with
  | none =>
    by_cases hj : j = i
    · subst hj; simp [h]
    · simp [hj]
  | some e =>
    by_cases hj : j = i
    · subst hj
      have hlt : j < t.length := (List.getElem?_eq_some_iff.mp h).1
      simp [h, List.getElem?_set, hlt]
    · have hne : ¬ i = j := fun h1 => hj h1.symm
      simp [hj, hne, List.getElem?_set]

theorem store_ok {t t1 : List PTE} {i : Nat} {f : PTE → PTE} :
    store t i f = Except.ok t1 ↔ i < t.length ∧ t1 = upd t i f := by
  unfold store
  cases h : t[i]? with
  | none =>
    have : t.length ≤ i := List.getElem?_eq_none_iff.mp h
    simp; omega
  | some e =>
    have hlt : i < t.length := (List.getElem?_eq_some_iff.mp h).1
    simp [hlt, eq_comm]

theorem map_ok {α β : Type} {x : Except Err α} {f : α → β} {b : β} :
    (f <$> x) = Except.ok b ↔ ∃ a, x = Except.ok a ∧ f a = b := by
  cases x <;> simp [Functor.map, Except.map]

theorem store_eq (t : List PTE) (i : Nat) (f : PTE → PTE) :
    store t i f = if i < t.length then Except.ok (upd t i f) else Except.error Err.badAddress := by
  unfold store
  cases h : t[i]? with
  | none =>
    have : ¬ i < t.length := by
      have := List.getElem?_eq_none_iff.mp h
      omega
    simp [this]
  | some e =>
    have hlt : i < t.length := (List.getElem?_eq_some_iff.mp h).1
    simp [hlt]

theorem bind_store_ok {β : Type} {t : List PTE} {i : Nat} {f : PTE → PTE}
    {g : List PTE → Except Err β} {b : β} :
    (store t i f >>= g) = Except.ok b ↔ i < t.length ∧ g (upd t i f) = Except.ok b := by
  rw [store_eq]
  by_cases h : i < t.length <;> simp [h, bind, Except.bind]

theorem map_store_ok {β : Type} {t : List PTE} {i : Nat} {f : PTE → PTE}
    {g : List PTE → β} {b : β} :
    (g <$> store t i f) = Except.ok b ↔ i < t.length ∧ g (upd t i f) = b := by
  rw [store_eq]
  by_cases h : i < t.length <;> simp [h, Functor.map, Except.map]

theorem bind_deref_ok {β : Type} {t : List PTE} {i : Nat}
    {g : PTE → Except Err β} {b : β} :
    (deref t i >>= g) = Except.ok b ↔ ∃ e, t[i]? = some e ∧ g e = Except.ok b := by
  simp [bind_ok, deref_ok]

theorem map_deref_ok {β : Type} {t : List PTE} {i : Nat} {g : PTE → β} {b : β} :
    (g <$> deref t i) = Except.ok b ↔ ∃ e, t[i]? = some e ∧ g e = b := by
  simp [map_ok, deref_ok]

theorem evictVictim_ok {s s' : State} {fno : Int} :
    evictVictim s = Except.ok (s', fno) ↔
    ∃ v ve, s.fifoQueue = some v ∧ s.PageTable[v]? = some ve ∧
      (∀ n, ve.next = some n → n < s.PageTable.length) ∧ fno = ve.frame ∧
      s' = { s with
        PageTable := upd (updOpt s.PageTable ve.next (setPrev none)) v resetVictim
        fifoQueue := ve.next
        effects := s.effects ++ (if ve.modified ≠ 0 then [Effect.saveFrame ve.frame] else []) } := by
  unfold evictVictim
  cases hq : s.fifoQueue with
  | none => simp
  | some v =>
    simp only [bind_deref_ok]
    have key : ∀ ve : PTE, s.PageTable[v]? = some ve →
        ((match ve.next with
          | some n => do
            let y ← store (if ve.modified ≠ 0 then saveFrame s ve.frame else s).PageTable n (setPrev none)
            let t2 ← store y v resetVictim
            pure
                ({ (if ve.modified ≠ 0 then saveFrame s ve.frame else s) with
                    PageTable := t2, fifoQueue := ve.next }, ve.frame)
          | none => do
            let y ← pure (if ve.modified ≠ 0 then saveFrame s ve.frame else s).PageTable
            let t2 ← store y v resetVictim
            pure
                ({ (if ve.modified ≠ 0 then saveFrame s ve.frame else s) with
                    PageTable := t2, fifoQueue := ve.next }, ve.frame)) = Except.ok (s', fno) ↔
        ((∀ n, ve.next = some n → n < s.PageTable.length) ∧ fno = ve.frame ∧
          s' = { s with
            PageTable := upd (updOpt s.PageTable ve.next (setPrev none)) v resetVictim
            fifoQueue := ve.next
            effects := s.effects ++
              (if ve.modified ≠ 0 then [Effect.saveFrame ve.frame] else []) })) := by
      intro ve hve
      have hv : v < s.PageTable.length := (List.getElem?_eq_some_iff.mp hve).1
      cases hn : ve.next <;> by_cases hm : ve.modified = 0 <;>
        simp [hm, bind_store_ok, map_store_ok, saveFrame, updOpt, upd_length, hv]
      all_goals first
        | (intro _; constructor <;> rintro ⟨rfl, rfl⟩ <;> exact ⟨rfl, rfl⟩)
        | (constructor <;> rintro ⟨rfl, rfl⟩ <;> exact ⟨rfl, rfl⟩)
    constructor
    · rintro ⟨ve, hve, h⟩
      exact ⟨v, ve, rfl, hve, (key ve hve).mp h⟩
    · rintro ⟨v1, ve, h1, hve, h⟩
      cases h1
      exact ⟨ve, hve, (key ve hve).mpr h⟩

/-! ## The parts of `requestPage` in closed form -/

theorem upd_upd (t : List PTE) (i : Nat) (f g : PTE → PTE) :
    upd (upd t i f) i g = upd t i (fun e => g (f e)) := by
  apply List.ext_getElem?
  intro j
  simp only [upd_get]
  by_cases h : j = i
  · subst h; cases t[j]? <;> simp
  · simp [h]

theorem loadPage_ok {s s' : State} {pno : Nat} {fno time : Int} :
    loadPage s pno fno time = Except.ok s' ↔
      pno < s.PageTable.length ∧ (0 ≤ s.fifoLast → s.fifoLast.toNat < s.PageTable.length) ∧
      s' = loaded s pno fno time := by
  unfold loadPage loaded linkedLast
  by_cases hl : 0 ≤ s.fifoLast
  · simp [hl, loadFrame, countPageFault, bind_store_ok, map_store_ok, upd_length]
    tauto
  · simp [hl, loadFrame, countPageFault, bind_store_ok, map_store_ok, upd_length]
    tauto

theorem store_of_lt {t : List PTE} {i : Nat} (f : PTE → PTE) (h : i < t.length) :
    store t i f = Except.ok (upd t i f) := by
  simp [store_eq, h]

theorem deref_of_get {t : List PTE} {i : Nat} {e : PTE} (h : t[i]? = some e) :
    deref t i = Except.ok e := deref_ok.mpr h

theorem ok_bind {α β : Type} (a : α) (f : α → Except Err β) :
    (Except.ok a >>= f) = f a := rfl

theorem ok_map {α β : Type} (a : α) (f : α → β) :
    (f <$> (Except.ok a : Except Err α)) = Except.ok (f a) := rfl

theorem upd_get_self {t : List PTE} {i : Nat} {e : PTE} (f : PTE → PTE) (h : t[i]? = some e) :
    (upd t i f)[i]? = some (f e) := by
  simp [upd_get, h]

theorem accessed_eq (mode : Char) (time : Int) :
    accessed mode time = fun e =>
      setAccessTime time
        (if mode = 'r' then countPeek e else if mode = 'w' then countPoke e else e) := rfl

theorem recordAccess_ok {s s' : State} {pno : Nat} {mode : Char} {time r : Int} :
    recordAccess s pno mode time = Except.ok (s', r) ↔
      ∃ p, s.PageTable[pno]? = some p ∧ r = p.frame ∧
        s' = { s with PageTable := upd s.PageTable pno (accessed mode time) } := by
  unfold recordAccess
  cases hp : s.PageTable[pno]? with
  | none =>
    have hlt : ¬ pno < s.PageTable.length := by
      have := List.getElem?_eq_none_iff.mp hp
      omega
    by_cases hr : mode = 'r'
    · simp [hr, bind_store_ok, hlt]
    · by_cases hw : mode = 'w'
      · simp [hw, bind_store_ok, hlt]
      · simp [hr, hw, bind_store_ok, hlt]
  | some p =>
    have hlt : pno < s.PageTable.length := (List.getElem?_eq_some_iff.mp hp).1
    have hacc : ∀ g : PTE → PTE, (g p).frame = p.frame →
        ((do
          let t2 ← store (upd s.PageTable pno g) pno (setAccessTime time)
          let q ← deref t2 pno
          pure ({ s with PageTable := t2 }, q.frame)) = Except.ok (s', r) ↔
        (r = p.frame ∧
          s' = { s with PageTable := upd s.PageTable pno (fun e => setAccessTime time (g e)) })) := by
      intro g hg
      have h1 : pno < (upd s.PageTable pno g).length := by simpa [upd_length] using hlt
      have h2 : (upd s.PageTable pno fun e => setAccessTime time (g e))[pno]? =
          some (setAccessTime time (g p)) := upd_get_self _ hp
      rw [store_of_lt _ h1, ok_bind, upd_upd, deref_of_get h2, ok_bind]
      simp only [pure_ok, Prod.mk.injEq, setAccessTime, hg]
      tauto
    by_cases hr : mode = 'r'
    · simp only [hr, if_true, store_of_lt _ hlt, ok_bind, Option.some.injEq, exists_eq_left']
      rw [hacc countPeek rfl, accessed_eq]
      simp
    · by_cases hw : mode = 'w'
      · subst hw
        simp only [hr, if_false, if_true, store_of_lt _ hlt, ok_bind, Option.some.injEq,
          exists_eq_left', reduceCtorEq]
        rw [hacc countPoke rfl, accessed_eq]
        simp
      · simp only [hr, hw, if_false, Option.some.injEq, exists_eq_left']
        have hid : upd s.PageTable pno (fun e => e) = s.PageTable := by
          apply List.ext_getElem?
          intro j
          rw [upd_get]
          by_cases hj : j = pno <;> simp [hj]
        have := hacc (fun e => e) rfl
        rw [hid] at this
        rw [show (pure s.PageTable : Except Err (List PTE)) = Except.ok s.PageTable from rfl,
          ok_bind, this, accessed_eq]
        simp [hr, hw]

theorem moved_next {t1 : List PTE} {pno n l : Nat} {p1 : PTE} (x y : Option Nat)
    (hp1 : t1[pno]? = some p1) :
    ∃ e, (upd (upd (upd t1 n (setPrev x)) l (setNext (some pno))) pno (setPrev y))[pno]? = some e ∧
      e.next = if l = pno then some pno else p1.next := by
  by_cases h1 : n = pno <;> by_cases h2 : l = pno
  · subst h1; subst h2; simp [upd_get, hp1, setPrev, setNext]
  · subst h1
    have h2' : ¬ n = l := fun h => h2 h.symm
    simp [upd_get, hp1, setPrev, setNext, h2, h2']
  · subst h2
    have h1' : ¬ l = n := fun h => h1 h.symm
    simp [upd_get, hp1, setPrev, setNext, h1, h1']
  · have h1' : ¬ pno = n := fun h => h1 h.symm
    have h2' : ¬ pno = l := fun h => h2 h.symm
    simp [upd_get, hp1, setPrev, setNext, h1, h2, h1', h2']

theorem touchPage_ok {s s' : State} {pno : Nat} :
    touchPage s pno = Except.ok s' ↔
      ∃ p, s.PageTable[pno]? = some p ∧
        ((s.replacePolicy ≠ REPL_LRU ∧ s' = s) ∨
         (s.replacePolicy = REPL_LRU ∧ p.next = none ∧ s' = s) ∨
         (s.replacePolicy = REPL_LRU ∧ ∃ n, p.next = some n ∧
            (∀ b, p.prev = some b → b < s.PageTable.length) ∧ n < s.PageTable.length ∧
            0 ≤ s.fifoLast ∧ s.fifoLast.toNat < s.PageTable.length ∧ s' = moved s pno p n)) := by
  unfold touchPage
  simp only [bind_deref_ok]
  apply exists_congr
  intro p
  apply and_congr_right
  intro hp
  have hlt : pno < s.PageTable.length := (List.getElem?_eq_some_iff.mp hp).1
  by_cases hpol : s.replacePolicy = REPL_LRU
  · cases hn : p.next with
    | none => simp [hpol, pure_ok]; tauto
    | some n =>
      simp only [hpol, hn, if_true, reduceCtorEq, false_and, and_false, or_false, false_or,
        ne_eq, not_true_eq_false, true_and, Option.some.injEq, exists_eq_left']
      cases hb : p.prev with
      | none =>
        by_cases hl : s.fifoLast < 0
        · have hl2 : ¬ (0 ≤ s.fifoLast) := by omega
          simp only [hl, hl2, if_true, pure_bind, bind_store_ok, false_and, and_false, iff_false,
            not_and]
          intro _ h
          cases h
        · have hl2 : 0 ≤ s.fifoLast := by omega
          simp only [hl, hl2, if_false, pure_bind, bind_store_ok, upd_length, bind_deref_ok,
            map_store_ok, true_and]
          obtain ⟨e0, he0, hnext⟩ := moved_next (l := s.fifoLast.toNat) (n := n) none
            (some s.fifoLast.toNat) hp
          simp only [he0, Option.some.injEq, exists_eq_left', hnext, hn, pure_ok, hlt, true_and,
            moved, hb, updOpt, hpol, reduceCtorEq, false_implies, implies_true]
          tauto
      | some b =>
        by_cases hl : s.fifoLast < 0
        · have hl2 : ¬ (0 ≤ s.fifoLast) := by omega
          simp only [hl, hl2, if_true, pure_bind, bind_store_ok, false_and, and_false, iff_false,
            not_and]
          intro _ _ h
          cases h
        · have hl2 : 0 ≤ s.fifoLast := by omega
          have hp1 : ∃ p1, (upd s.PageTable b (setNext (some n)))[pno]? = some p1 ∧
              p1.next = some n := by
            by_cases hbp : pno = b
            · subst hbp; simp [upd_get, hp, setNext]
            · simp [upd_get, hp, hbp, hn]
          obtain ⟨p1, hp1, hn1⟩ := hp1
          obtain ⟨e0, he0, hnext⟩ := moved_next (l := s.fifoLast.toNat) (n := n) (some b)
            (some s.fifoLast.toNat) hp1
          simp only [hl, hl2, if_false, pure_bind, bind_store_ok, upd_length, bind_deref_ok,
            map_store_ok, true_and]
          simp only [he0, Option.some.injEq, exists_eq_left', hnext, hn1, pure_ok, hlt, true_and,
            moved, hb, updOpt, hpol, forall_eq']
          tauto
  · simp [hpol, pure_ok]
    tauto

theorem requestPage_ok {s s' : State} {pno : Int} {mode : Char} {time r : Int} :
    requestPage s pno mode time = Except.ok (s', r) ↔
      0 ≤ pno ∧ pno < s.nPages ∧ ∃ p, s.PageTable[pno.toNat]? = some p ∧ ∃ s1,
        (((p.status = NOT_USED ∨ p.status = ON_DISK) ∧
            (((findFreeFrame s).2 ≠ NONE ∧
                loadPage (findFreeFrame s).1 pno.toNat (findFreeFrame s).2 time = Except.ok s1) ∨
             ((findFreeFrame s).2 = NONE ∧ ∃ s0 fno,
                evictVictim (findFreeFrame s).1 = Except.ok (s0, fno) ∧
                loadPage s0 pno.toNat fno time = Except.ok s1))) ∨
         (p.status = IN_MEMORY ∧ touchPage (countPageHit s) pno.toNat = Except.ok s1)) ∧
        recordAccess s1 pno.toNat mode time = Except.ok (s', r) := by
  unfold requestPage
  by_cases hr : pno < 0 ∨ pno ≥ s.nPages
  · simp only [hr, if_true, reduceCtorEq, false_iff]
    rintro ⟨h1, h2, -⟩
    omega
  · have h1 : 0 ≤ pno := by omega
    have h2 : pno < s.nPages := by omega
    simp only [hr, if_false, bind_deref_ok, h1, h2, true_and]
    apply exists_congr
    intro p
    apply and_congr_right
    intro hp
    by_cases hf : p.status = NOT_USED ∨ p.status = ON_DISK
    · have hne : p.status ≠ IN_MEMORY := by
        rcases hf with h | h <;> rw [h] <;> decide
      by_cases hfree : (findFreeFrame s).2 = NONE
      · simp only [hf, hfree, hne, if_true, bind_ok, ne_eq, not_true_eq_false, false_and,
          false_or, true_and, or_false, Prod.exists]
        constructor
        · rintro ⟨s0, fno, h0, s1, h1, h2⟩
          exact ⟨s1, ⟨s0, fno, h0, h1⟩, h2⟩
        · rintro ⟨s1, ⟨s0, fno, h0, h1⟩, h2⟩
          exact ⟨s0, fno, h0, s1, h1, h2⟩
      · simp only [hf, hfree, hne, if_true, if_false, pure_bind, bind_ok, ne_eq,
          not_false_eq_true, true_and, false_and, or_false]
    · by_cases hm : p.status = IN_MEMORY
      · have hf2 : ¬ (IN_MEMORY = NOT_USED ∨ IN_MEMORY = ON_DISK) := by decide
        simp only [hm, hf2, if_true, if_false, bind_ok, false_and, false_or, true_and]
      · simp only [hf, hm, if_false, false_and, or_false, exists_false, iff_false]
        intro h
        cases h

/-! ## Fields that a write leaves alone -/

theorem upd_map {β : Type} (g : PTE → β) {f : PTE → PTE} (hf : ∀ e, g (f e) = g e)
    (t : List PTE) (i : Nat) : (upd t i f).map g = t.map g := by
  apply List.ext_getElem?
  intro j
  simp only [List.getElem?_map, upd_get]
  by_cases h : j = i
  · simp only [h, if_true]
    cases t[i]? <;> simp [hf]
  · simp [h]

theorem updOpt_map {β : Type} (g : PTE → β) {f : PTE → PTE} (hf : ∀ e, g (f e) = g e)
    (t : List PTE) (o : Option Nat) : (updOpt t o f).map g = t.map g := by
  cases o with
  | none => rfl
  | some n => exact upd_map g hf t n

theorem get_of_map {β : Type} (g : PTE → β) {t t1 : List PTE} (h : t1.map g = t.map g)
    (i : Nat) : (t1[i]?).map g = (t[i]?).map g := by
  rw [← List.getElem?_map, ← List.getElem?_map, h]

theorem linkedLast_map {β : Type} (g : PTE → β) (h1 : ∀ v e, g (setPrev v e) = g e)
    (h2 : ∀ v e, g (setNext v e) = g e) (s : State) (pno : Nat) :
    (linkedLast s pno).map g = s.PageTable.map g := by
  unfold linkedLast
  split
  · rw [upd_map g (h1 _), upd_map g (h2 _), upd_map g (h2 _)]
  · rw [upd_map g (h2 _)]

theorem moved_map {β : Type} (g : PTE → β) (h1 : ∀ v e, g (setPrev v e) = g e)
    (h2 : ∀ v e, g (setNext v e) = g e) (s : State) (pno : Nat) (p : PTE) (n : Nat) :
    (moved s pno p n).PageTable.map g = s.PageTable.map g := by
  unfold moved
  simp only
  rw [upd_map g (h2 _), upd_map g (h1 _), upd_map g (h2 _), upd_map g (h1 _),
    updOpt_map g (h2 _)]

theorem linkedLast_length (s : State) (pno : Nat) :
    (linkedLast s pno).length = s.PageTable.length := by
  have := congrArg List.length (linkedLast_map (fun _ => ()) (fun _ _ => rfl) (fun _ _ => rfl) s pno)
  simpa using this

theorem moved_length (s : State) (pno : Nat) (p : PTE) (n : Nat) :
    (moved s pno p n).PageTable.length = s.PageTable.length := by
  have := congrArg List.length (moved_map (fun _ => ()) (fun _ _ => rfl) (fun _ _ => rfl) s pno p n)
  simpa using this

theorem updOpt_length (t : List PTE) (o : Option Nat) (f : PTE → PTE) :
    (updOpt t o f).length = t.length := by
  cases o with
  | none => rfl
  | some n => exact upd_length t n f

theorem evicted_length (s : State) (v : Nat) (ve : PTE) :
    (evicted s v ve).PageTable.length = s.PageTable.length := by
  simp [evicted, upd_length, updOpt_length]

theorem loaded_length (s : State) (pno : Nat) (fno time : Int) :
    (loaded s pno fno time).PageTable.length = s.PageTable.length := by
  simp [loaded, upd_length, linkedLast_length]

theorem recorded_length (s : State) (pno : Nat) (mode : Char) (time : Int) :
    (recorded s pno mode time).PageTable.length = s.PageTable.length := by
  simp [recorded, upd_length]

/-- The entry of the page that has just been loaded. -/
theorem loaded_get_self {s : State} {pno : Nat} (fno time : Int) (h : pno < s.PageTable.length) :
    ∃ e0, (loaded s pno fno time).PageTable[pno]? = some (setLoaded fno time e0) := by
  have hl : pno < (linkedLast s pno).length := by rw [linkedLast_length]; exact h
  obtain ⟨e0, he0⟩ : ∃ e0, (linkedLast s pno)[pno]? = some e0 :=
    ⟨_, List.getElem?_eq_getElem hl⟩
  exact ⟨e0, upd_get_self _ he0⟩

/-! ## The four ways in which a request returns -/

/-- A request returns in one of four ways: a hit that leaves the queue alone, a hit that moves
the page to the end of the queue, a fault served by a free frame, a fault served by the frame of
the victim. -/
theorem requestPage_cases {s s' : State} {pno : Int} {mode : Char} {time r : Int}
    (h : requestPage s pno mode time = Except.ok (s', r)) :
    0 ≤ pno ∧ pno < s.nPages ∧ ∃ p, s.PageTable[pno.toNat]? = some p ∧
      ((p.status = IN_MEMORY ∧ (s.replacePolicy ≠ REPL_LRU ∨ p.next = none) ∧
          r = p.frame ∧ s' = recorded (countPageHit s) pno.toNat mode time) ∨
       (p.status = IN_MEMORY ∧ s.replacePolicy = REPL_LRU ∧ ∃ n, p.next = some n ∧
          (∀ b, p.prev = some b → b < s.PageTable.length) ∧ n < s.PageTable.length ∧
          0 ≤ s.fifoLast ∧ s.fifoLast.toNat < s.PageTable.length ∧
          r = p.frame ∧ s' = recorded (moved (countPageHit s) pno.toNat p n) pno.toNat mode time) ∨
       ((p.status = NOT_USED ∨ p.status = ON_DISK) ∧ (findFreeFrame s).2 ≠ NONE ∧
          (0 ≤ s.fifoLast → s.fifoLast.toNat < s.PageTable.length) ∧
          r = (findFreeFrame s).2 ∧
          s' = recorded (loaded (probed s) pno.toNat (findFreeFrame s).2 time) pno.toNat mode time) ∨
       ((p.status = NOT_USED ∨ p.status = ON_DISK) ∧ (findFreeFrame s).2 = NONE ∧
          ∃ v ve, s.fifoQueue = some v ∧ s.PageTable[v]? = some ve ∧
            (∀ n, ve.next = some n → n < s.PageTable.length) ∧
            (0 ≤ s.fifoLast → s.fifoLast.toNat < s.PageTable.length) ∧
            r = ve.frame ∧
            s' = recorded (loaded (evicted (probed s) v ve) pno.toNat ve.frame time)
                   pno.toNat mode time)) := by
  obtain ⟨h0, h1, p, hp, s1, hs1, hrec⟩ := requestPage_ok.mp h
  refine ⟨h0, h1, p, hp, ?_⟩
  have hlt : pno.toNat < s.PageTable.length := (List.getElem?_eq_some_iff.mp hp).1
  obtain ⟨p1, hp1, hr, hs'⟩ := recordAccess_ok.mp hrec
  rcases hs1 with ⟨hf, ⟨hfree, hload⟩ | ⟨hfull, s0, fno, hev, hload⟩⟩ | ⟨hm, ht⟩
  · right; right; left
    obtain ⟨_, hl, rfl⟩ := loadPage_ok.mp hload
    obtain ⟨e0, he0⟩ := loaded_get_self (s := probed s) (findFreeFrame s).2 time hlt
    have : p1 = setLoaded (findFreeFrame s).2 time e0 := by
      have := hp1.symm.trans he0
      simpa using this
    refine ⟨hf, hfree, hl, ?_, hs'⟩
    rw [hr, this]; rfl
  · right; right; right
    obtain ⟨v, ve, hv, hve, hn, rfl, rfl⟩ := evictVictim_ok.mp hev
    obtain ⟨_, hl, rfl⟩ := loadPage_ok.mp hload
    have hlt2 : pno.toNat < (evicted (probed s) v ve).PageTable.length := by
      rw [evicted_length]; exact hlt
    obtain ⟨e0, he0⟩ := loaded_get_self (s := evicted (probed s) v ve) ve.frame time hlt2
    have : p1 = setLoaded ve.frame time e0 := by
      have := hp1.symm.trans he0
      simpa using this
    refine ⟨hf, hfull, v, ve, hv, hve, ?_, ?_, ?_, hs'⟩
    · intro n hn'
      have := hn n hn'
      simpa [probed, findFreeFrame] using this
    · have hl' := hl
      simp only [upd_length, updOpt_length] at hl'
      exact hl'
    · rw [hr, this]; rfl
  · obtain ⟨p', hp', hcase⟩ := touchPage_ok.mp ht
    have hpp : p' = p := by
      have : some p' = some p := hp'.symm.trans hp
      simpa using this
    subst hpp
    rcases hcase with ⟨hpol, rfl⟩ | ⟨hpol, hn, rfl⟩ | ⟨hpol, n, hn, hb, hnl, hl0, hl1, rfl⟩
    · left
      have : p1 = p' := by
        have : some p1 = some p' := hp1.symm.trans hp
        simpa using this
      exact ⟨hm, Or.inl hpol, by rw [hr, this], hs'⟩
    · left
      have : p1 = p' := by
        have : some p1 = some p' := hp1.symm.trans hp
        simpa using this
      exact ⟨hm, Or.inr hn, by rw [hr, this], hs'⟩
    · right; left
      have hfr := get_of_map PTE.frame
        (moved_map PTE.frame (fun _ _ => rfl) (fun _ _ => rfl) (countPageHit s) pno.toNat p' n)
        pno.toNat
      rw [hp1] at hfr
      have hfr2 : p1.frame = p'.frame := by
        have h2 : (countPageHit s).PageTable[pno.toNat]? = some p' := hp
        rw [h2] at hfr
        simpa using hfr
      exact ⟨hm, hpol, n, hn, hb, hnl, hl0, hl1, by rw [hr, hfr2], hs'⟩

/-! ## `initPageTable` -/

theorem initPageTable_get (policy np : Int) (memory : List Int) (effects : List Effect)
    (i : Nat) (hi : (i : Int) < np) :
    (initPageTable policy np memory effects).PageTable[i]? = some (initPTE i) := by
  have h : i < np.toNat := by omega
  simp [initPageTable, List.getElem?_map, List.getElem?_range h]

/-- C7: after `initPageTable(policy, np)` the queue is empty and every entry `i` with
`0 <= i < np` has status `NOT_USED`, `modified = 0`, `frame`, `accessTime` and `loadTime` equal
to `NONE` and both counters `0`; its line of the status dump shows the page as unused, with `-`
for the frame and for both times. -/
theorem init_entries_unused (policy np : Int) (memory : List Int) (effects : List Effect)
    (i : Nat) (hi : (i : Int) < np) :
    (initPageTable policy np memory effects).fifoQueue = none ∧
    queue (initPageTable policy np memory effects) = [] ∧
    (∃ e, (initPageTable policy np memory effects).PageTable[i]? = some e ∧
      e.status = NOT_USED ∧ e.modified = 0 ∧ e.frame = NONE ∧ e.accessTime = NONE ∧
      e.loadTime = NONE ∧ e.nPeeks = 0 ∧ e.nPokes = 0) ∧
    (showPageTableStatus (initPageTable policy np memory effects))[i]? =
      some { page := i, status := some "-", modified := "no", frame := "-", accessTime := "-",
             loadTime := "-", nPeeks := 0, nPokes := 0 } := by
  refine ⟨rfl, ?_, ⟨initPTE i, initPageTable_get policy np memory effects i hi,
    rfl, rfl, rfl, rfl, rfl, rfl, rfl⟩, ?_⟩
  · unfold queue
    cases (initPageTable policy np memory effects).PageTable.length <;> rfl
  · have h : i < np.toNat := by omega
    have hrows : showPageTableStatus (initPageTable policy np memory effects) =
        (List.range np.toNat).map (fun j => showRow j (initPTE j)) := by
      unfold showPageTableStatus
      have : ∀ j ∈ List.range np.toNat,
          ((initPageTable policy np memory effects).PageTable[j]?).map (showRow j) =
            some (showRow j (initPTE j)) := by
        intro j hj
        have hj' : (j : Int) < np := by
          have := List.mem_range.mp hj
          omega
        rw [initPageTable_get policy np memory effects j hj']
        rfl
      show List.filterMap _ (List.range np.toNat) = _
      rw [List.filterMap_congr this]
      exact congrFun (List.filterMap_eq_map (fun j => showRow j (initPTE j))) _
    rw [hrows, List.getElem?_map, List.getElem?_range h]
    rfl

/-- Witness of C7: page 2 of a table of three pages. -/
theorem init_entries_unused_witness :
    ((2 : Nat) : Int) < 3 ∧
    (initPageTable REPL_FIFO 3 (initMemory 1) []).fifoQueue = none ∧
    queue (initPageTable REPL_FIFO 3 (initMemory 1) []) = [] ∧
    (∃ e, (initPageTable REPL_FIFO 3 (initMemory 1) []).PageTable[2]? = some e ∧
      e.status = NOT_USED ∧ e.modified = 0 ∧ e.frame = NONE ∧ e.accessTime = NONE ∧
      e.loadTime = NONE ∧ e.nPeeks = 0 ∧ e.nPokes = 0) ∧
    (showPageTableStatus (initPageTable REPL_FIFO 3 (initMemory 1) []))[2]? =
      some { page := 2, status := some "-", modified := "no", frame := "-", accessTime := "-",
             loadTime := "-", nPeeks := 0, nPokes := 0 } :=
  ⟨by decide, init_entries_unused REPL_FIFO 3 (initMemory 1) [] 2 (by decide)⟩

/-! ## The counters -/

theorem wrapInt_add (a b : Int) : wrapInt (wrapInt a + b) = wrapInt (a + b) := by
  unfold wrapInt
  omega

theorem wrapInt_of_range {x : Int} (h1 : -2147483648 ≤ x) (h2 : x ≤ 2147483647) :
    wrapInt x = x := by
  unfold wrapInt
  omega

theorem wrapInt_range (x : Int) : -2147483648 ≤ wrapInt x ∧ wrapInt x ≤ 2147483647 := by
  unfold wrapInt
  omega

/-- The two counters of an entry. -/
theorem upd_accessed_counters (t : List PTE) (i j : Nat) (mode : Char) (time : Int) :
    ((upd t i (accessed mode time))[j]?).map (fun e => (e.nPeeks, e.nPokes)) =
      (t[j]?).map (fun e =>
        (if j = i ∧ mode = 'r' then wrapInt (e.nPeeks + 1) else e.nPeeks,
         if j = i ∧ mode = 'w' then wrapInt (e.nPokes + 1) else e.nPokes)) := by
  rw [upd_get]
  by_cases hj : j = i
  · subst hj
    cases t[j]? with
    | none => simp
    | some e =>
      by_cases hr : mode = 'r'
      · subst hr
        simp [accessed, setAccessTime, countPeek]
      · by_cases hw : mode = 'w'
        · subst hw
          simp [accessed, setAccessTime, countPoke]
        · simp [accessed, setAccessTime, hr, hw]
  · simp [hj]

theorem evicted_map {β : Type} (g : PTE → β) (h1 : ∀ v e, g (setPrev v e) = g e)
    (h3 : ∀ e, g (resetVictim e) = g e) (s : State) (v : Nat) (ve : PTE) :
    (evicted s v ve).PageTable.map g = s.PageTable.map g := by
  unfold evicted
  simp only
  rw [upd_map g h3, updOpt_map g (h1 _)]

theorem loaded_map {β : Type} (g : PTE → β) (h1 : ∀ v e, g (setPrev v e) = g e)
    (h2 : ∀ v e, g (setNext v e) = g e) (h4 : ∀ f t e, g (setLoaded f t e) = g e)
    (s : State) (pno : Nat) (fno time : Int) :
    (loaded s pno fno time).PageTable.map g = s.PageTable.map g := by
  unfold loaded
  simp only
  rw [upd_map g (h4 _ _), linkedLast_map g h1 h2]

/-- The counters after a request: those of the requested page count the request, the others
are as before. -/
theorem requestPage_counters {s s' : State} {pno : Int} {mode : Char} {time r : Int}
    (h : requestPage s pno mode time = Except.ok (s', r)) (j : Nat) :
    (s'.PageTable[j]?).map (fun e => (e.nPeeks, e.nPokes)) =
      (s.PageTable[j]?).map (fun e =>
        (if j = pno.toNat ∧ mode = 'r' then wrapInt (e.nPeeks + 1) else e.nPeeks,
         if j = pno.toNat ∧ mode = 'w' then wrapInt (e.nPokes + 1) else e.nPokes)) := by
  obtain ⟨_, _, p, hp, hc⟩ := requestPage_cases h
  have key : ∀ x : State,
      x.PageTable.map (fun e => (e.nPeeks, e.nPokes)) =
        s.PageTable.map (fun e => (e.nPeeks, e.nPokes)) →
      ((recorded x pno.toNat mode time).PageTable[j]?).map (fun e => (e.nPeeks, e.nPokes)) =
        (s.PageTable[j]?).map (fun e =>
          (if j = pno.toNat ∧ mode = 'r' then wrapInt (e.nPeeks + 1) else e.nPeeks,
           if j = pno.toNat ∧ mode = 'w' then wrapInt (e.nPokes + 1) else e.nPokes)) := by
    intro x hx
    have hj := get_of_map _ hx j
    show ((upd x.PageTable pno.toNat (accessed mode time))[j]?).map _ = _
    rw [upd_accessed_counters]
    cases hxj : x.PageTable[j]? with
    | none =>
      rw [hxj] at hj
      cases hsj : s.PageTable[j]? with
      | none => rfl
      | some e => rw [hsj] at hj; simp at hj
    | some e =>
      rw [hxj] at hj
      cases hsj : s.PageTable[j]? with
      | none => rw [hsj] at hj; simp at hj
      | some e0 =>
        rw [hsj] at hj
        simp only [Option.map_some', Option.some.injEq, Prod.mk.injEq] at hj
        simp [hj.1, hj.2]
  rcases hc with ⟨_, _, _, rfl⟩ | ⟨_, _, n, _, _, _, _, _, _, rfl⟩ | ⟨_, _, _, _, rfl⟩ |
    ⟨_, _, v, ve, _, _, _, _, _, rfl⟩
  · exact key _ rfl
  · exact key _ (moved_map (fun e : PTE => (e.nPeeks, e.nPokes)) (fun _ _ => rfl)
      (fun _ _ => rfl) _ _ _ _)
  · exact key _ (loaded_map (fun e : PTE => (e.nPeeks, e.nPokes)) (fun _ _ => rfl)
      (fun _ _ => rfl) (fun _ _ _ => rfl) _ _ _ _)
  · exact key _ ((loaded_map (fun e : PTE => (e.nPeeks, e.nPokes)) (fun _ _ => rfl)
      (fun _ _ => rfl) (fun _ _ _ => rfl) _ _ _ _).trans
      (evicted_map (fun e : PTE => (e.nPeeks, e.nPokes)) (fun _ _ => rfl) (fun _ => rfl) _ _ _))

theorem runRequests_cons_ok {s s' : State} {r : Req} {rest : List Req} :
    runRequests s (r :: rest) = Except.ok s' ↔
      ∃ s1 f, requestPage s r.pno r.mode r.time = Except.ok (s1, f) ∧
        runRequests s1 rest = Except.ok s' := by
  simp only [runRequests]
  cases h : requestPage s r.pno r.mode r.time with
  | error e => simp
  | ok x =>
    obtain ⟨s1, f⟩ := x
    simp

/-- The value of a counter that held `a` after `n` increments. -/
theorem wrapInt_step (a : Int) (c : Nat) :
    (if c = 0 then wrapInt (a + 1) else wrapInt (wrapInt (a + 1) + (c : Int))) =
      wrapInt (a + ((c + 1 : Nat) : Int)) := by
  by_cases hc : c = 0
  · subst hc
    simp
  · rw [if_neg hc, wrapInt_add]
    congr 1
    push_cast
    ring

/-- The counters after a run, from any state: each has wrapped as many times as the number of
its requests makes it. -/
theorem runRequests_counters (reqs : List Req) :
    ∀ (s s' : State), runRequests s reqs = Except.ok s' → ∀ (j : Nat) (e0 : PTE),
      s.PageTable[j]? = some e0 → ∃ e, s'.PageTable[j]? = some e ∧
        e.nPeeks =
          (if reqs.countP (fun r => decide (r.pno = (j : Int)) && decide (r.mode = 'r')) = 0
           then e0.nPeeks
           else wrapInt (e0.nPeeks +
            (reqs.countP (fun r => decide (r.pno = (j : Int)) && decide (r.mode = 'r')) : Nat))) ∧
        e.nPokes =
          (if reqs.countP (fun r => decide (r.pno = (j : Int)) && decide (r.mode = 'w')) = 0
           then e0.nPokes
           else wrapInt (e0.nPokes +
            (reqs.countP (fun r => decide (r.pno = (j : Int)) && decide (r.mode = 'w')) : Nat))) := by
  induction reqs with
  | nil =>
    intro s s' h j e0 he0
    simp only [runRequests, Except.ok.injEq] at h
    subst h
    exact ⟨e0, he0, by simp, by simp⟩
  | cons r rest ih =>
    intro s s' h j e0 he0
    obtain ⟨s1, f, hreq, hrest⟩ := runRequests_cons_ok.mp h
    have hc := requestPage_counters hreq j
    obtain ⟨hpos, _, _⟩ := requestPage_cases hreq
    rw [he0] at hc
    cases h1 : s1.PageTable[j]? with
    | none => rw [h1] at hc; simp at hc
    | some e1 =>
      rw [h1] at hc
      simp only [Option.map_some', Option.some.injEq, Prod.mk.injEq] at hc
      obtain ⟨e, he, hpe, hpo⟩ := ih s1 s' hrest j e1 h1
      have hiff : (j = r.pno.toNat) ↔ r.pno = (j : Int) := by omega
      refine ⟨e, he, ?_, ?_⟩
      · rw [hpe, hc.1, List.countP_cons]
        by_cases hj : r.pno = (j : Int) ∧ r.mode = 'r'
        · have h2 : j = r.pno.toNat ∧ r.mode = 'r' := ⟨hiff.mpr hj.1, hj.2⟩
          have h3 : (decide (r.pno = (j : Int)) && decide (r.mode = 'r')) = true := by
            simpa using hj
          simp only [if_pos h2, h3, if_true, Nat.add_one_ne_zero, if_false]
          exact wrapInt_step _ _
        · have h2 : ¬ (j = r.pno.toNat ∧ r.mode = 'r') := fun h => hj ⟨hiff.mp h.1, h.2⟩
          have h3 : (decide (r.pno = (j : Int)) && decide (r.mode = 'r')) = false := by
            simpa using hj
          simp only [h2, h3, if_false, Bool.false_eq_true, add_zero]
      · rw [hpo, hc.2, List.countP_cons]
        by_cases hj : r.pno = (j : Int) ∧ r.mode = 'w'
        · have h2 : j = r.pno.toNat ∧ r.mode = 'w' := ⟨hiff.mpr hj.1, hj.2⟩
          have h3 : (decide (r.pno = (j : Int)) && decide (r.mode = 'w')) = true := by
            simpa using hj
          simp only [if_pos h2, h3, if_true, Nat.add_one_ne_zero, if_false]
          exact wrapInt_step _ _
        · have h2 : ¬ (j = r.pno.toNat ∧ r.mode = 'w') := fun h => hj ⟨hiff.mp h.1, h.2⟩
          have h3 : (decide (r.pno = (j : Int)) && decide (r.mode = 'w')) = false := by
            simpa using hj
          simp only [h2, h3, if_false, Bool.false_eq_true, add_zero]

/-- The counters of a table created by `initPageTable` after requests that returned: the
number of the `'r'` requests on the page and the number of its `'w'` requests, wrapped. -/
theorem init_counters {policy np : Int} {memory : List Int} {effects : List Effect}
    {reqs : List Req} {s : State}
    (hrun : runRequests (initPageTable policy np memory effects) reqs = Except.ok s)
    (i : Nat) (hi : (i : Int) < np) :
    ∃ e, s.PageTable[i]? = some e ∧
      e.nPeeks = wrapInt
        (reqs.countP (fun r => decide (r.pno = (i : Int)) && decide (r.mode = 'r')) : Nat) ∧
      e.nPokes = wrapInt
        (reqs.countP (fun r => decide (r.pno = (i : Int)) && decide (r.mode = 'w')) : Nat) := by
  obtain ⟨e, he, h1, h2⟩ := runRequests_counters reqs _ s hrun i (initPTE i)
    (initPageTable_get policy np memory effects i hi)
  refine ⟨e, he, ?_, ?_⟩
  · rw [h1]
    split
    · rename_i h0
      rw [h0]
      rfl
    · simp [initPTE]
  · rw [h2]
    split
    · rename_i h0
      rw [h0]
      rfl
    · simp [initPTE]

/-- C1, as the code has it: after any sequence of requests that return, started on a table
created by `initPageTable`, `nPeeks` of every page is the number of `'r'` requests issued
against it and `nPokes` the number of `'w'` requests, hits and faults alike and whatever was
evicted in between, as values of type `int`: each counter is the number wrapped to 32 bits, and
it is the number itself as long as this is at most `INT_MAX = 2147483647`. -/
theorem counters_count_requests (policy np : Int) (memory : List Int) (effects : List Effect)
    (reqs : List Req) (s : State)
    (hrun : runRequests (initPageTable policy np memory effects) reqs = Except.ok s)
    (i : Nat) (hi : (i : Int) < np) :
    ∃ e, s.PageTable[i]? = some e ∧
      e.nPeeks = wrapInt
        (reqs.countP (fun r => decide (r.pno = (i : Int)) && decide (r.mode = 'r')) : Nat) ∧
      e.nPokes = wrapInt
        (reqs.countP (fun r => decide (r.pno = (i : Int)) && decide (r.mode = 'w')) : Nat) ∧
      (reqs.countP (fun r => decide (r.pno = (i : Int)) && decide (r.mode = 'r')) ≤ 2147483647 →
        e.nPeeks =
          (reqs.countP (fun r => decide (r.pno = (i : Int)) && decide (r.mode = 'r')) : Nat)) ∧
      (reqs.countP (fun r => decide (r.pno = (i : Int)) && decide (r.mode = 'w')) ≤ 2147483647 →
        e.nPokes =
          (reqs.countP (fun r => decide (r.pno = (i : Int)) && decide (r.mode = 'w')) : Nat)) := by
  obtain ⟨e, he, h1, h2⟩ := init_counters hrun i hi
  refine ⟨e, he, h1, h2, ?_, ?_⟩
  · intro hle
    rw [h1]
    exact wrapInt_of_range (by omega) (by omega)
  · intro hle
    rw [h2]
    exact wrapInt_of_range (by omega) (by omega)

/-- Witness of C1: one frame, page 0 is read, written and then evicted by a read of page 1; its
counters still count one read and one write. -/
theorem counters_count_requests_witness :
    runRequests (initPageTable REPL_FIFO 2 (initMemory 1) [])
        [⟨0, 'r', 1⟩, ⟨0, 'w', 2⟩, ⟨1, 'r', 3⟩] =
      Except.ok (finalState (initPageTable REPL_FIFO 2 (initMemory 1) [])
        [⟨0, 'r', 1⟩, ⟨0, 'w', 2⟩, ⟨1, 'r', 3⟩]) ∧
    ((0 : Nat) : Int) < 2 ∧
    ((finalState (initPageTable REPL_FIFO 2 (initMemory 1) [])
        [⟨0, 'r', 1⟩, ⟨0, 'w', 2⟩, ⟨1, 'r', 3⟩]).PageTable[0]?).map
      (fun e => (e.nPeeks, e.nPokes)) = some (1, 1) ∧
    ∃ e, (finalState (initPageTable REPL_FIFO 2 (initMemory 1) [])
        [⟨0, 'r', 1⟩, ⟨0, 'w', 2⟩, ⟨1, 'r', 3⟩]).PageTable[0]? = some e ∧
      e.nPeeks = wrapInt ((List.countP (fun r : Req => decide (r.pno = ((0 : Nat) : Int)) &&
        decide (r.mode = 'r')) [⟨0, 'r', 1⟩, ⟨0, 'w', 2⟩, ⟨1, 'r', 3⟩] : Nat) : Int) ∧
      e.nPokes = wrapInt ((List.countP (fun r : Req => decide (r.pno = ((0 : Nat) : Int)) &&
        decide (r.mode = 'w')) [⟨0, 'r', 1⟩, ⟨0, 'w', 2⟩, ⟨1, 'r', 3⟩] : Nat) : Int) ∧
      (List.countP (fun r : Req => decide (r.pno = ((0 : Nat) : Int)) &&
          decide (r.mode = 'r')) [⟨0, 'r', 1⟩, ⟨0, 'w', 2⟩, ⟨1, 'r', 3⟩] ≤ 2147483647 →
        e.nPeeks = ((List.countP (fun r : Req => decide (r.pno = ((0 : Nat) : Int)) &&
          decide (r.mode = 'r')) [⟨0, 'r', 1⟩, ⟨0, 'w', 2⟩, ⟨1, 'r', 3⟩] : Nat) : Int)) ∧
      (List.countP (fun r : Req => decide (r.pno = ((0 : Nat) : Int)) &&
          decide (r.mode = 'w')) [⟨0, 'r', 1⟩, ⟨0, 'w', 2⟩, ⟨1, 'r', 3⟩] ≤ 2147483647 →
        e.nPokes = ((List.countP (fun r : Req => decide (r.pno = ((0 : Nat) : Int)) &&
          decide (r.mode = 'w')) [⟨0, 'r', 1⟩, ⟨0, 'w', 2⟩, ⟨1, 'r', 3⟩] : Nat) : Int)) :=
  ⟨rfl, by decide, rfl,
    counters_count_requests REPL_FIFO 2 (initMemory 1) []
      [⟨0, 'r', 1⟩, ⟨0, 'w', 2⟩, ⟨1, 'r', 3⟩]
      (finalState (initPageTable REPL_FIFO 2 (initMemory 1) [])
        [⟨0, 'r', 1⟩, ⟨0, 'w', 2⟩, ⟨1, 'r', 3⟩]) rfl 0 (by decide)⟩

/-! ## The effect log -/

theorem resident_eq_false {s : State} {i : Nat} {p : PTE} (hp : s.PageTable[i]? = some p) :
    resident s i = false ↔ p.status ≠ IN_MEMORY := by
  simp [resident, hp]

theorem resident_eq_true {s : State} {i : Nat} {p : PTE} (hp : s.PageTable[i]? = some p) :
    resident s i = true ↔ p.status = IN_MEMORY := by
  simp [resident, hp]

theorem not_IN_MEMORY {x : Int} (h : x = NOT_USED ∨ x = ON_DISK) : x ≠ IN_MEMORY := by
  rcases h with h | h <;> rw [h] <;> decide

/-- C4: the collaborator calls of one request, as added to the effect log. A request that evicts
(the page is not resident and no frame is free) calls `saveFrame` exactly once, on the frame of
the victim and before the `loadFrame` that reuses this frame, when the victim is modified, and
does not call it when the victim is not modified. A request that does not evict does not call
`saveFrame`. -/
theorem saveFrame_iff_modified_victim {s s' : State} {pno : Int} {mode : Char} {time r : Int}
    (h : requestPage s pno mode time = Except.ok (s', r)) :
    ((resident s pno.toNat = false ∧ memoryFull s = true) →
      ∃ v ve, s.fifoQueue = some v ∧ s.PageTable[v]? = some ve ∧
        (ve.modified ≠ 0 → s'.effects = s.effects ++
          [Effect.findFreeFrame, Effect.saveFrame ve.frame, Effect.loadFrame ve.frame pno time,
           Effect.countPageFault]) ∧
        (ve.modified = 0 → s'.effects = s.effects ++
          [Effect.findFreeFrame, Effect.loadFrame ve.frame pno time, Effect.countPageFault])) ∧
    (¬ (resident s pno.toNat = false ∧ memoryFull s = true) →
      ∃ new, s'.effects = s.effects ++ new ∧ ∀ f, Effect.saveFrame f ∉ new) := by
  obtain ⟨h0, _, p, hp, hc⟩ := requestPage_cases h
  have hcast : ((pno.toNat : Nat) : Int) = pno := Int.toNat_of_nonneg h0
  rcases hc with ⟨hm, _, _, rfl⟩ | ⟨hm, _, n, _, _, _, _, _, _, rfl⟩ | ⟨hf, hfree, _, _, rfl⟩ |
    ⟨hf, hfull, v, ve, hv, hve, _, _, _, rfl⟩
  · refine ⟨fun hev => ?_, fun _ => ⟨[Effect.countPageHit], rfl, by simp⟩⟩
    have := (resident_eq_false hp).mp hev.1
    exact absurd hm this
  · refine ⟨fun hev => ?_, fun _ => ⟨[Effect.countPageHit], rfl, by simp⟩⟩
    have := (resident_eq_false hp).mp hev.1
    exact absurd hm this
  · refine ⟨fun hev => ?_, fun _ =>
      ⟨[Effect.findFreeFrame, Effect.loadFrame (findFreeFrame s).2 pno time,
        Effect.countPageFault], ?_, by simp⟩⟩
    · have : (findFreeFrame s).2 = NONE := by simpa [memoryFull] using hev.2
      exact absurd this hfree
    · simp [recorded, loaded, probed, findFreeFrame, hcast]
  · refine ⟨fun _ => ⟨v, ve, hv, hve, ?_, ?_⟩, fun hne => ?_⟩
    · intro hmod
      simp [recorded, loaded, evicted, probed, findFreeFrame, hcast, hmod]
    · intro hmod
      simp [recorded, loaded, evicted, probed, findFreeFrame, hcast, hmod]
    · exfalso
      apply hne
      refine ⟨(resident_eq_false hp).mpr (not_IN_MEMORY hf), ?_⟩
      simpa [memoryFull] using hfull

/-- Witness of C4: one frame; page 0 has been written, the read of page 1 evicts it. -/
theorem saveFrame_iff_modified_victim_witness :
    requestPage (finalState (initState REPL_FIFO 2 1) [⟨0, 'w', 1⟩]) 1 'r' 2 =
      Except.ok (finalState (initState REPL_FIFO 2 1) [⟨0, 'w', 1⟩, ⟨1, 'r', 2⟩], 0) ∧
    (((resident (finalState (initState REPL_FIFO 2 1) [⟨0, 'w', 1⟩]) (1 : Int).toNat = false ∧
        memoryFull (finalState (initState REPL_FIFO 2 1) [⟨0, 'w', 1⟩]) = true) →
      ∃ v ve, (finalState (initState REPL_FIFO 2 1) [⟨0, 'w', 1⟩]).fifoQueue = some v ∧
        (finalState (initState REPL_FIFO 2 1) [⟨0, 'w', 1⟩]).PageTable[v]? = some ve ∧
        (ve.modified ≠ 0 →
          (finalState (initState REPL_FIFO 2 1) [⟨0, 'w', 1⟩, ⟨1, 'r', 2⟩]).effects =
            (finalState (initState REPL_FIFO 2 1) [⟨0, 'w', 1⟩]).effects ++
            [Effect.findFreeFrame, Effect.saveFrame ve.frame, Effect.loadFrame ve.frame 1 2,
             Effect.countPageFault]) ∧
        (ve.modified = 0 →
          (finalState (initState REPL_FIFO 2 1) [⟨0, 'w', 1⟩, ⟨1, 'r', 2⟩]).effects =
            (finalState (initState REPL_FIFO 2 1) [⟨0, 'w', 1⟩]).effects ++
            [Effect.findFreeFrame, Effect.loadFrame ve.frame 1 2, Effect.countPageFault])) ∧
     (¬ (resident (finalState (initState REPL_FIFO 2 1) [⟨0, 'w', 1⟩]) (1 : Int).toNat = false ∧
        memoryFull (finalState (initState REPL_FIFO 2 1) [⟨0, 'w', 1⟩]) = true) →
      ∃ new, (finalState (initState REPL_FIFO 2 1) [⟨0, 'w', 1⟩, ⟨1, 'r', 2⟩]).effects =
          (finalState (initState REPL_FIFO 2 1) [⟨0, 'w', 1⟩]).effects ++ new ∧
        ∀ f, Effect.saveFrame f ∉ new)) :=
  ⟨rfl, @saveFrame_iff_modified_victim (finalState (initState REPL_FIFO 2 1) [⟨0, 'w', 1⟩])
    (finalState (initState REPL_FIFO 2 1) [⟨0, 'w', 1⟩, ⟨1, 'r', 2⟩]) 1 'r' 2 0 rfl⟩

/-! ## Memory safety -/

theorem forall_upd {P : PTE → Prop} {t : List PTE} {f : PTE → PTE} (j : Nat)
    (ht : ∀ (i : Nat) (e : PTE), t[i]? = some e → P e) (hf : ∀ e, P e → P (f e)) :
    ∀ (i : Nat) (e : PTE), (upd t j f)[i]? = some e → P e := by
  intro i e he
  rw [upd_get] at he
  by_cases hij : i = j
  · rw [if_pos hij] at he
    cases h : t[i]? with
    | none => rw [h] at he; simp at he
    | some e0 =>
      rw [h] at he
      simp only [Option.map_some', Option.some.injEq] at he
      rw [← he]
      exact hf e0 (ht i e0 h)
  · rw [if_neg hij] at he
    exact ht i e he

theorem forall_updOpt {P : PTE → Prop} {t : List PTE} {f : PTE → PTE} (o : Option Nat)
    (ht : ∀ (i : Nat) (e : PTE), t[i]? = some e → P e) (hf : ∀ e, P e → P (f e)) :
    ∀ (i : Nat) (e : PTE), (updOpt t o f)[i]? = some e → P e := by
  cases o with
  | none => exact ht
  | some n => exact forall_upd n ht hf

theorem Safe_init (policy np : Int) (memory : List Int) (effects : List Effect) :
    Safe (initPageTable policy np memory effects) := by
  have hget : ∀ (i : Nat) (e : PTE),
      (initPageTable policy np memory effects).PageTable[i]? = some e → e = initPTE i := by
    intro i e he
    simp only [initPageTable, List.getElem?_map] at he
    cases h : (List.range np.toNat)[i]? with
    | none => rw [h] at he; simp at he
    | some j =>
      rw [h] at he
      have hj := (List.getElem?_eq_some_iff.mp h).2
      simp only [List.getElem_range] at hj
      simp only [Option.map_some', Option.some.injEq] at he
      rw [← he, hj]
  refine ⟨by simp [initPageTable], ?_, ?_, ?_, ?_⟩
  · show (-1 : Int) < _
    omega
  · intro v hv
    cases hv
  · intro i e he
    rw [hget i e he]
    exact ⟨fun n hn => (by cases hn), fun b hb => (by cases hb)⟩
  · intro _ i e he
    rw [hget i e he]
    rfl

theorem Safe_effects {s : State} (hs : Safe s) (eff : List Effect) :
    Safe { s with effects := eff } :=
  ⟨hs.len, hs.last, hs.head, hs.ptr, hs.fresh⟩

theorem Safe_countPageHit {s : State} (hs : Safe s) : Safe (countPageHit s) :=
  Safe_effects hs _

theorem Safe_probed {s : State} (hs : Safe s) : Safe (probed s) :=
  Safe_effects hs _

theorem Safe_recorded {s : State} (hs : Safe s) (pno : Nat) (mode : Char) (time : Int) :
    Safe (recorded s pno mode time) := by
  have hlen : (recorded s pno mode time).PageTable.length = s.PageTable.length :=
    recorded_length s pno mode time
  have hnext : ∀ e, (accessed mode time e).next = e.next := by
    intro e
    simp only [accessed, setAccessTime]
    split
    · rfl
    · split <;> rfl
  have hprev : ∀ e, (accessed mode time e).prev = e.prev := by
    intro e
    simp only [accessed, setAccessTime]
    split
    · rfl
    · split <;> rfl
  refine ⟨hlen.trans hs.len, ?_, ?_, ?_, ?_⟩
  · rw [hlen]; exact hs.last
  · rw [hlen]; exact hs.head
  · rw [hlen]
    exact forall_upd pno hs.ptr (fun e he => by
      show (∀ n, (accessed mode time e).next = some n → n < _) ∧
        (∀ b, (accessed mode time e).prev = some b → b < _)
      rw [hnext, hprev]
      exact he)
  · intro hl
    exact forall_upd pno (hs.fresh hl) (fun e he => by rw [hnext]; exact he)

theorem Safe_evicted {s : State} (hs : Safe s) {v : Nat} {ve : PTE}
    (hn : ∀ n, ve.next = some n → n < s.PageTable.length) : Safe (evicted s v ve) := by
  have hlen : (evicted s v ve).PageTable.length = s.PageTable.length := evicted_length s v ve
  refine ⟨hlen.trans hs.len, ?_, ?_, ?_, ?_⟩
  · rw [hlen]; exact hs.last
  · rw [hlen]; exact hn
  · rw [hlen]
    refine forall_upd v (forall_updOpt ve.next hs.ptr ?_) ?_
    · intro e he
      exact ⟨he.1, fun b hb => (by cases hb)⟩
    · intro e he
      exact ⟨fun n hn => (by cases hn), he.2⟩
  · intro hl
    refine forall_upd v (forall_updOpt ve.next (hs.fresh hl) ?_) ?_
    · intro e he
      exact he
    · intro e _
      rfl

theorem Safe_loaded {s : State} (hs : Safe s) {pno : Nat} (fno time : Int)
    (hp : pno < s.PageTable.length) : Safe (loaded s pno fno time) := by
  have hlen : (loaded s pno fno time).PageTable.length = s.PageTable.length :=
    loaded_length s pno fno time
  refine ⟨hlen.trans hs.len, ?_, ?_, ?_, ?_⟩
  · rw [hlen]
    show ((pno : Nat) : Int) < _
    omega
  · rw [hlen]
    intro v hv
    simp only [loaded] at hv
    split at hv
    · exact hs.head v hv
    · simp only [Option.some.injEq] at hv
      omega
  · rw [hlen]
    refine forall_upd pno ?_ (fun e he => he)
    unfold linkedLast
    split
    · rename_i hl
      have hl2 : s.fifoLast.toNat < s.PageTable.length := by
        have := hs.last
        omega
      refine forall_upd pno (forall_upd _ (forall_upd pno hs.ptr ?_) ?_) ?_
      · intro e he
        exact ⟨fun n hn => (by cases hn), he.2⟩
      · intro e he
        exact ⟨fun n hn => by
          simp only [setNext, Option.some.injEq] at hn
          omega, he.2⟩
      · intro e he
        exact ⟨he.1, fun b hb => by
          simp only [setPrev, Option.some.injEq] at hb
          omega⟩
    · refine forall_upd pno hs.ptr ?_
      intro e he
      exact ⟨fun n hn => (by cases hn), he.2⟩
  · intro hl
    exfalso
    have : (loaded s pno fno time).fifoLast = (pno : Int) := rfl
    omega

theorem Safe_moved {s : State} (hs : Safe s) {pno : Nat} {p : PTE} {n : Nat}
    (hp : pno < s.PageTable.length) (hb : ∀ b, p.prev = some b → b < s.PageTable.length)
    (hn : n < s.PageTable.length) (hl0 : 0 ≤ s.fifoLast) : Safe (moved s pno p n) := by
  have hlen : (moved s pno p n).PageTable.length = s.PageTable.length := moved_length s pno p n
  have hl2 : s.fifoLast.toNat < s.PageTable.length := by
    have := hs.last
    omega
  refine ⟨hlen.trans hs.len, ?_, ?_, ?_, ?_⟩
  · rw [hlen]
    show ((pno : Nat) : Int) < _
    omega
  · rw [hlen]
    intro v hv
    simp only [moved] at hv
    split at hv
    · split at hv <;> simp only [Option.some.injEq] at hv <;> omega
    · exact hs.head v hv
  · rw [hlen]
    refine forall_upd pno (forall_upd pno (forall_upd _ (forall_upd n
      (forall_updOpt p.prev hs.ptr ?_) ?_) ?_) ?_) ?_
    · intro e he
      exact ⟨fun m hm => by
        simp only [setNext, Option.some.injEq] at hm
        omega, he.2⟩
    · intro e he
      exact ⟨he.1, hb⟩
    · intro e he
      exact ⟨fun m hm => by
        simp only [setNext, Option.some.injEq] at hm
        omega, he.2⟩
    · intro e he
      exact ⟨he.1, fun b hb => by
        simp only [setPrev, Option.some.injEq] at hb
        omega⟩
    · intro e he
      exact ⟨fun m hm => (by cases hm), he.2⟩
  · intro hl
    exfalso
    have : (moved s pno p n).fifoLast = (pno : Int) := rfl
    omega

/-- Memory safety is kept by every request that returns. -/
theorem Safe_requestPage {s s' : State} {pno : Int} {mode : Char} {time r : Int}
    (hs : Safe s) (h : requestPage s pno mode time = Except.ok (s', r)) : Safe s' := by
  obtain ⟨h0, _, p, hp, hc⟩ := requestPage_cases h
  have hlt : pno.toNat < s.PageTable.length := (List.getElem?_eq_some_iff.mp hp).1
  rcases hc with ⟨_, _, _, rfl⟩ | ⟨_, _, n, _, hb, hn, hl0, _, _, rfl⟩ | ⟨_, _, _, _, rfl⟩ |
    ⟨_, _, v, ve, _, _, hvn, _, _, rfl⟩
  · exact Safe_recorded (Safe_countPageHit hs) _ _ _
  · exact Safe_recorded (Safe_moved (Safe_countPageHit hs) hlt hb hn hl0) _ _ _
  · exact Safe_recorded (Safe_loaded (Safe_probed hs) _ _ hlt) _ _ _
  · refine Safe_recorded (Safe_loaded (Safe_evicted (Safe_probed hs) hvn) _ _ ?_) _ _ _
    rw [evicted_length]
    exact hlt

theorem Safe_runRequests (reqs : List Req) :
    ∀ (s s' : State), Safe s → runRequests s reqs = Except.ok s' → Safe s' := by
  induction reqs with
  | nil =>
    intro s s' hs h
    simp only [runRequests, Except.ok.injEq] at h
    exact h ▸ hs
  | cons r rest ih =>
    intro s s' hs h
    obtain ⟨s1, f, hreq, hrest⟩ := runRequests_cons_ok.mp h
    exact ih s1 s' (Safe_requestPage hs hreq) hrest

/-! ## Read hits -/

/-- A read hit in a memory-safe state returns the frame of the page and changes nothing of its
entry but `accessTime` and `nPeeks`, which is incremented as an `int` (and, under LRU, its
links). -/
theorem read_hit_step {s : State} (hs : Safe s) {p : Nat} {e : PTE}
    (hp : s.PageTable[p]? = some e) (hres : e.status = IN_MEMORY) (t : Int) :
    ∃ s', requestPage s p 'r' t = Except.ok (s', e.frame) ∧ Safe s' ∧
      ∃ e', s'.PageTable[p]? = some e' ∧ e'.status = IN_MEMORY ∧ e'.frame = e.frame ∧
        e'.loadTime = e.loadTime ∧ e'.modified = e.modified ∧ e'.accessTime = t ∧
        e'.nPeeks = wrapInt (e.nPeeks + 1) ∧ e'.nPokes = e.nPokes := by
  have hlt : p < s.PageTable.length := (List.getElem?_eq_some_iff.mp hp).1
  have hcast : ((p : Nat) : Int).toNat = p := Int.toNat_natCast p
  have hlt2 : ((p : Nat) : Int) < s.nPages := by
    have := hs.len
    omega
  -- the state after `touchPage`
  have htouch : ∃ s1, touchPage (countPageHit s) p = Except.ok s1 ∧
      ∃ e1, s1.PageTable[p]? = some e1 ∧
        (e1.status, e1.modified, e1.frame, e1.loadTime, e1.nPeeks, e1.nPokes) =
        (e.status, e.modified, e.frame, e.loadTime, e.nPeeks, e.nPokes) := by
    by_cases hpol : s.replacePolicy = REPL_LRU
    · cases hn : e.next with
      | none =>
        exact ⟨countPageHit s, touchPage_ok.mpr ⟨e, hp, Or.inr (Or.inl ⟨hpol, hn, rfl⟩)⟩,
          e, hp, rfl⟩
      | some n =>
        have hptr := hs.ptr p e hp
        have hl0 : 0 ≤ s.fifoLast := by
          by_contra hneg
          have := hs.fresh (by omega) p e hp
          rw [hn] at this
          cases this
        have hl1 : s.fifoLast.toNat < s.PageTable.length := by
          have := hs.last
          omega
        refine ⟨moved (countPageHit s) p e n, touchPage_ok.mpr ⟨e, hp, Or.inr (Or.inr
          ⟨hpol, n, hn, hptr.2, hptr.1 n hn, hl0, hl1, rfl⟩)⟩, ?_⟩
        have hmap := get_of_map
          (fun x : PTE => (x.status, x.modified, x.frame, x.loadTime, x.nPeeks, x.nPokes))
          (moved_map
            (fun x : PTE => (x.status, x.modified, x.frame, x.loadTime, x.nPeeks, x.nPokes))
            (fun _ _ => rfl) (fun _ _ => rfl) (countPageHit s) p e n) p
        have hp' : (countPageHit s).PageTable[p]? = some e := hp
        rw [hp'] at hmap
        cases h1 : (moved (countPageHit s) p e n).PageTable[p]? with
        | none => rw [h1] at hmap; simp at hmap
        | some e1 =>
          rw [h1] at hmap
          simp only [Option.map_some', Option.some.injEq] at hmap
          exact ⟨e1, rfl, hmap⟩
    · exact ⟨countPageHit s, touchPage_ok.mpr ⟨e, hp, Or.inl ⟨hpol, rfl⟩⟩, e, hp, rfl⟩
  obtain ⟨s1, hs1, e1, he1, hdata⟩ := htouch
  simp only [Prod.mk.injEq] at hdata
  obtain ⟨d1, d2, d3, d4, d5, d6⟩ := hdata
  have hreq : requestPage s p 'r' t = Except.ok (recorded s1 p 'r' t, e.frame) := by
    refine requestPage_ok.mpr ⟨by omega, hlt2, e, by rw [hcast]; exact hp, s1,
      Or.inr ⟨hres, by rw [hcast]; exact hs1⟩, ?_⟩
    rw [hcast]
    exact recordAccess_ok.mpr ⟨e1, he1, d3.symm, rfl⟩
  refine ⟨recorded s1 p 'r' t, hreq, Safe_requestPage hs hreq, accessed 'r' t e1,
    upd_get_self _ he1, ?_⟩
  simp [accessed, setAccessTime, countPeek, d1, d2, d3, d4, d5, d6, hres]

/-- Consecutive read hits: in a memory-safe state, `k >= 1` read requests on a resident page `p`,
at the times `ts ++ [t]`, all return, all are hits, and leave `frame`, `loadTime` and `modified`
of `p` as they were; they set `accessTime` to `t`, increment `nPeeks` `k` times as an `int` and
leave `nPokes` alone. -/
theorem read_hits_run {s : State} (hsafe : Safe s) {p : Nat} {e : PTE}
    (hp : s.PageTable[p]? = some e) (hres : e.status = IN_MEMORY) (ts : List Int) (t : Int) :
    ∃ s' e', runRequests s ((ts ++ [t]).map (fun x => (⟨p, 'r', x⟩ : Req))) = Except.ok s' ∧
      history s ((ts ++ [t]).map (fun x => (⟨p, 'r', x⟩ : Req))) =
        List.replicate (ts.length + 1) (p, false) ∧
      s'.PageTable[p]? = some e' ∧ e'.status = IN_MEMORY ∧ e'.frame = e.frame ∧
      e'.loadTime = e.loadTime ∧ e'.modified = e.modified ∧ e'.accessTime = t ∧
      e'.nPeeks = wrapInt (e.nPeeks + ((ts.length + 1 : Nat) : Int)) ∧
      e'.nPokes = e.nPokes := by
  induction ts generalizing s e with
  | nil =>
    obtain ⟨s', hreq, _, e', he', h1, h2, h3, h4, h5, h6, h7⟩ := read_hit_step hsafe hp hres t
    refine ⟨s', e', ?_, ?_, he', h1, h2, h3, h4, h5, ?_, h7⟩
    · simp [runRequests, hreq]
    · simp [history, hreq, resident, hp, hres]
    · simpa using h6
  | cons x ts ih =>
    obtain ⟨s1, hreq, hs1, e1, he1, h1, h2, h3, h4, h5, h6, h7⟩ := read_hit_step hsafe hp hres x
    obtain ⟨s', e', hrun', hhist, he', g1, g2, g3, g4, g5, g6, g7⟩ := ih hs1 he1 h1
    refine ⟨s', e', ?_, ?_, he', g1, g2.trans h2, g3.trans h3, g4.trans h4, g5, ?_,
      g7.trans h7⟩
    · simp only [List.cons_append, List.map_cons, runRequests, hreq]
      exact hrun'
    · simp only [List.cons_append, List.map_cons, history, hreq, List.length_cons]
      have hh : history s1 (List.map (fun x => (⟨p, 'r', x⟩ : Req)) (ts.append [t])) =
          List.replicate (ts.length + 1) (p, false) := hhist
      rw [hh]
      simp [resident, hp, hres, List.replicate_succ]
    · rw [g6, h6, wrapInt_add]
      congr 1
      simp only [List.length_cons]
      push_cast
      ring

/-! ## Segments of the queue -/

theorem lastOr_nil (b : Option Nat) : lastOr b [] = b := rfl

theorem lastOr_concat (b : Option Nat) (q : List Nat) (a : Nat) :
    lastOr b (q ++ [a]) = some a := by
  simp [lastOr]

theorem lastOr_cons (b : Option Nat) (a : Nat) (q : List Nat) :
    lastOr b (a :: q) = lastOr (some a) q := by
  cases q with
  | nil => simp [lastOr]
  | cons c q =>
    have h : (c :: q).getLast? = some ((c :: q).getLast (List.cons_ne_nil c q)) :=
      List.getLast?_eq_getLast _ _
    simp only [lastOr, List.getLast?_cons_cons, h]

theorem tailIndex_concat (q : List Nat) (a : Nat) : tailIndex (q ++ [a]) = (a : Int) := by
  simp [tailIndex]

theorem tailIndex_cons_cons (a c : Nat) (q : List Nat) :
    tailIndex (a :: c :: q) = tailIndex (c :: q) := by
  simp [tailIndex, List.getLast?_cons_cons]

/-- The segment only depends on the links of its own entries. -/
theorem Seg_congr {t t1 : List PTE} {q : List Nat}
    (h : ∀ a ∈ q, (t1[a]?).map (fun e => (e.prev, e.next)) =
      (t[a]?).map (fun e => (e.prev, e.next))) :
    ∀ {b c d : Option Nat}, Seg t b c q d → Seg t1 b c q d := by
  induction q with
  | nil => intro b c d hs; exact hs
  | cons a q ih =>
    intro b c d hs
    obtain ⟨hc, e, he, hb, hrest⟩ := hs
    have ha := h a (List.mem_cons_self a q)
    rw [he] at ha
    cases h1 : t1[a]? with
    | none => rw [h1] at ha; simp at ha
    | some e1 =>
      rw [h1] at ha
      simp only [Option.map_some', Option.some.injEq, Prod.mk.injEq] at ha
      refine ⟨hc, e1, h1, ha.1.trans hb, ?_⟩
      rw [ha.2]
      exact ih (fun x hx => h x (List.mem_cons_of_mem a hx)) hrest

theorem Seg_append {t : List PTE} {q1 q2 : List Nat} :
    ∀ {b c d : Option Nat}, Seg t b c (q1 ++ q2) d ↔
      ∃ m, Seg t b c q1 m ∧ Seg t (lastOr b q1) m q2 d := by
  induction q1 with
  | nil =>
    intro b c d
    simp only [List.nil_append, lastOr_nil]
    constructor
    · intro h
      exact ⟨c, rfl, h⟩
    · rintro ⟨m, hm, h⟩
      have : c = m := hm
      rw [this]
      exact h
  | cons a q1 ih =>
    intro b c d
    simp only [List.cons_append, lastOr_cons]
    constructor
    · rintro ⟨hc, e, he, hb, hrest⟩
      obtain ⟨m, h1, h2⟩ := ih.mp hrest
      exact ⟨m, ⟨hc, e, he, hb, h1⟩, h2⟩
    · rintro ⟨m, ⟨hc, e, he, hb, h1⟩, h2⟩
      exact ⟨hc, e, he, hb, ih.mpr ⟨m, h1, h2⟩⟩

theorem Seg_single {t : List PTE} {b c d : Option Nat} {a : Nat} :
    Seg t b c [a] d ↔ c = some a ∧ ∃ e, t[a]? = some e ∧ e.prev = b ∧ e.next = d := by
  simp only [Seg]

theorem Seg_mem {t : List PTE} {q : List Nat} :
    ∀ {b c d : Option Nat}, Seg t b c q d → ∀ a ∈ q, ∃ e, t[a]? = some e := by
  induction q with
  | nil => intro b c d _ a ha; cases ha
  | cons x q ih =>
    intro b c d hs a ha
    obtain ⟨_, e, he, _, hrest⟩ := hs
    rcases List.mem_cons.mp ha with rfl | h
    · exact ⟨e, he⟩
    · exact ih hrest a h

/-- A segment that ends in `NULL` is what `walk` returns, given enough fuel. -/
theorem walk_of_Seg {t : List PTE} {q : List Nat} :
    ∀ {b c : Option Nat} {fuel : Nat}, Seg t b c q none → q.length ≤ fuel → walk t fuel c = q := by
  induction q with
  | nil =>
    intro b c fuel hs _
    have : c = none := hs
    subst this
    cases fuel <;> rfl
  | cons a q ih =>
    intro b c fuel hs hf
    obtain ⟨hc, e, he, _, hrest⟩ := hs
    subst hc
    cases fuel with
    | zero => simp at hf
    | succ fuel =>
      simp only [walk, he]
      rw [ih hrest (by simpa using hf)]

/-! ## The well-formed queue is kept -/

theorem Seg_link_tail {t t1 : List PTE} {q0 : List Nat} {l i : Nat} {b c : Option Nat}
    (hs : Seg t b c (q0 ++ [l]) none)
    (hq0 : ∀ a ∈ q0, (t1[a]?).map (fun e => (e.prev, e.next)) =
      (t[a]?).map (fun e => (e.prev, e.next)))
    (hl : ∀ el, t[l]? = some el → ∃ el1, t1[l]? = some el1 ∧ el1.prev = el.prev ∧
      el1.next = some i)
    (hi : ∃ e1, t1[i]? = some e1 ∧ e1.prev = some l ∧ e1.next = none) :
    Seg t1 b c (q0 ++ [l] ++ [i]) none := by
  obtain ⟨m, h1, h2⟩ := Seg_append.mp hs
  obtain ⟨hm, el, hel, hp, hn⟩ := Seg_single.mp h2
  obtain ⟨el1, hel1, hp1, hn1⟩ := hl el hel
  obtain ⟨e1, he1, hpi, hni⟩ := hi
  refine Seg_append.mpr ⟨some i, Seg_append.mpr ⟨m, Seg_congr hq0 h1, ?_⟩, ?_⟩
  · exact Seg_single.mpr ⟨hm, el1, hel1, hp1.trans hp, hn1⟩
  · rw [lastOr_concat]
    exact Seg_single.mpr ⟨rfl, e1, he1, hpi, hni⟩

/-- The queue only depends on the status and the links of the entries. -/
theorem WF_of_shape {s s1 : State} {q : List Nat}
    (ht : s1.PageTable.map (fun e => (e.status, e.prev, e.next)) =
      s.PageTable.map (fun e => (e.status, e.prev, e.next)))
    (hq : s1.fifoQueue = s.fifoQueue) (hl : s1.fifoLast = s.fifoLast) (h : WF s q) :
    WF s1 q := by
  have hget : ∀ (j : Nat) (e1 : PTE), s1.PageTable[j]? = some e1 →
      ∃ e, s.PageTable[j]? = some e ∧ e1.status = e.status ∧ e1.prev = e.prev ∧
        e1.next = e.next := by
    intro j e1 he1
    have := get_of_map _ ht j
    rw [he1] at this
    cases h0 : s.PageTable[j]? with
    | none => rw [h0] at this; simp at this
    | some e =>
      rw [h0] at this
      simp only [Option.map_some', Option.some.injEq, Prod.mk.injEq] at this
      exact ⟨e, rfl, this.1, this.2.1, this.2.2⟩
  refine ⟨?_, h.nodup, ?_, hl.trans h.last, ?_⟩
  · rw [hq]
    refine Seg_congr (fun a _ => ?_) h.seg
    have := get_of_map _ ht a
    cases h1 : s1.PageTable[a]? with
    | none =>
      rw [h1] at this
      cases h0 : s.PageTable[a]? with
      | none => rfl
      | some e => rw [h0] at this; simp at this
    | some e1 =>
      obtain ⟨e, he, _, hp, hn⟩ := hget a e1 h1
      rw [he]
      simp [hp, hn]
  · intro j e1 he1
    obtain ⟨e, he, hst, _, _⟩ := hget j e1 he1
    rw [hst]
    exact h.mem j e he
  · intro j e1 he1 hj
    obtain ⟨e, he, _, hp, _⟩ := hget j e1 he1
    rw [hp]
    exact h.out j e he hj

theorem WF_recorded {s : State} {q : List Nat} (h : WF s q) (pno : Nat) (mode : Char)
    (time : Int) : WF (recorded s pno mode time) q := by
  have hm : (recorded s pno mode time).PageTable.map (fun e => (e.status, e.prev, e.next)) =
      s.PageTable.map (fun e => (e.status, e.prev, e.next)) := by
    refine upd_map (fun e : PTE => (e.status, e.prev, e.next)) (fun e => ?_) _ _
    simp only [accessed, setAccessTime]
    split
    · rfl
    · split <;> rfl
  exact WF_of_shape hm rfl rfl h

theorem WF_effects {s : State} {q : List Nat} (h : WF s q) (eff : List Effect) :
    WF { s with effects := eff } q :=
  ⟨h.seg, h.nodup, h.mem, h.last, h.out⟩

theorem WF_probed {s : State} {q : List Nat} (h : WF s q) : WF (probed s) q :=
  WF_effects h _

theorem WF_countPageHit {s : State} {q : List Nat} (h : WF s q) : WF (countPageHit s) q :=
  WF_effects h _

/-- In a well-formed state the head of the queue is its first element. -/
theorem WF_head {s : State} {q : List Nat} (h : WF s q) : s.fifoQueue = q.head? := by
  cases q with
  | nil => exact h.seg
  | cons a q => exact h.seg.1

theorem WF_nil_last {s : State} (h : WF s []) : s.fifoLast = -1 := h.last

theorem WF_concat_last {s : State} {q : List Nat} {l : Nat} (h : WF s (q ++ [l])) :
    s.fifoLast = (l : Int) := by
  rw [h.last, tailIndex_concat]

theorem loaded_get_other {s : State} {i j : Nat} (fno time : Int) (hj : j ≠ i)
    (hjl : 0 ≤ s.fifoLast → j ≠ s.fifoLast.toNat) :
    (loaded s i fno time).PageTable[j]? = s.PageTable[j]? := by
  simp only [loaded, linkedLast]
  split
  · rename_i hl
    simp [upd_get, hj, hjl hl]
  · simp [upd_get, hj]

theorem loaded_get_last {s : State} {i : Nat} (fno time : Int) (hl : 0 ≤ s.fifoLast)
    (hne : s.fifoLast.toNat ≠ i) :
    (loaded s i fno time).PageTable[s.fifoLast.toNat]? =
      (s.PageTable[s.fifoLast.toNat]?).map (setNext (some i)) := by
  simp only [loaded, linkedLast, hl, if_true]
  simp [upd_get, hne]

theorem loaded_get_new {s : State} {i : Nat} {e : PTE} (fno time : Int)
    (he : s.PageTable[i]? = some e) (hne : 0 ≤ s.fifoLast → s.fifoLast.toNat ≠ i) :
    (loaded s i fno time).PageTable[i]? =
      some (setLoaded fno time
        (if 0 ≤ s.fifoLast then setPrev (some s.fifoLast.toNat) (setNext none e)
         else setNext none e)) := by
  simp only [loaded, linkedLast]
  split
  · rename_i hl
    have h1 : ¬ i = s.fifoLast.toNat := fun h => hne hl h.symm
    simp [upd_get, he, h1]
  · simp [upd_get, he]

/-- Lines 118-136 on a well-formed queue: the page loaded becomes its last element. -/
theorem WF_loaded {s : State} {q : List Nat} (h : WF s q) {i : Nat} (fno time : Int)
    (hi : i ∉ q) (hlt : i < s.PageTable.length) : WF (loaded s i fno time) (q ++ [i]) := by
  obtain ⟨e, he⟩ : ∃ e, s.PageTable[i]? = some e := ⟨_, List.getElem?_eq_getElem hlt⟩
  rcases List.eq_nil_or_concat q with hq | ⟨q0, l, hq⟩
  · subst hq
    have hl : ¬ (0 ≤ s.fifoLast) := by
      have := WF_nil_last h
      omega
    have hnew := loaded_get_new fno time he (fun h0 => absurd h0 hl)
    simp only [hl, if_false] at hnew
    refine ⟨?_, by simp, ?_, ?_, ?_⟩
    · simp only [List.nil_append]
      refine Seg_single.mpr ⟨by simp [loaded, hl], _, hnew, ?_, rfl⟩
      exact h.out i e he hi
    · intro j ej hej
      by_cases hji : j = i
      · subst hji
        rw [hnew] at hej
        simp only [Option.some.injEq] at hej
        subst hej
        simp [setLoaded]
      · rw [loaded_get_other fno time hji (fun h0 => absurd h0 hl)] at hej
        have := h.mem j ej hej
        simp only [List.not_mem_nil, iff_false] at this
        simp [this, hji]
    · simp [loaded, tailIndex]
    · intro j ej hej hj
      have hji : j ≠ i := by
        intro hc
        apply hj
        simp [hc]
      rw [loaded_get_other fno time hji (fun h0 => absurd h0 hl)] at hej
      exact h.out j ej hej (by simp)
  · rw [List.concat_eq_append] at hq
    subst hq
    have hlast : s.fifoLast = (l : Int) := WF_concat_last h
    have hl : 0 ≤ s.fifoLast := by omega
    have hlnat : s.fifoLast.toNat = l := by omega
    have hli : l ≠ i := by
      intro hc
      apply hi
      simp [hc]
    have hl0 : l ∉ q0 := by
      have := h.nodup
      rw [List.nodup_append] at this
      intro hc
      exact this.2.2 hc (List.mem_singleton_self l) 
    have hnew := loaded_get_new fno time he (fun _ => by rw [hlnat]; exact hli)
    simp only [hl, if_true, hlnat] at hnew
    have hlastget := loaded_get_last (i := i) fno time hl (by rw [hlnat]; exact hli)
    rw [hlnat] at hlastget
    have hother : ∀ j, j ≠ i → j ≠ l →
        (loaded s i fno time).PageTable[j]? = s.PageTable[j]? := by
      intro j h1 h2
      exact loaded_get_other fno time h1 (fun _ => by rw [hlnat]; exact h2)
    refine ⟨?_, ?_, ?_, ?_, ?_⟩
    · have hhead : (loaded s i fno time).fifoQueue = s.fifoQueue := by simp [loaded, hl]
      rw [hhead]
      refine Seg_link_tail h.seg ?_ ?_ ⟨_, hnew, rfl, rfl⟩
      · intro a ha
        have ha1 : a ≠ i := fun hc => hi (by simp [← hc, ha])
        have ha2 : a ≠ l := fun hc => hl0 (hc ▸ ha)
        rw [hother a ha1 ha2]
      · intro el hel
        rw [hel] at hlastget
        exact ⟨_, hlastget, rfl, rfl⟩
    · have := h.nodup
      rw [List.nodup_append]
      exact ⟨this, by simp, by
        intro a ha hb
        simp only [List.mem_singleton] at hb
        subst hb
        exact hi ha⟩
    · intro j ej hej
      by_cases hji : j = i
      · subst hji
        rw [hnew] at hej
        simp only [Option.some.injEq] at hej
        subst hej
        simp [setLoaded]
      · by_cases hjl : j = l
        · subst hjl
          obtain ⟨el, hel⟩ := Seg_mem h.seg j (by simp)
          rw [hel] at hlastget
          rw [hlastget] at hej
          simp only [Option.map_some', Option.some.injEq] at hej
          subst hej
          have := h.mem j el hel
          simp only [setNext]
          simp [this, hji]
        · rw [hother j hji hjl] at hej
          have := h.mem j ej hej
          rw [this]
          simp [hji]
    · simp [loaded, tailIndex]
    · intro j ej hej hj
      have hji : j ≠ i := by
        intro hc
        apply hj
        simp [hc]
      have hjl : j ≠ l := by
        intro hc
        apply hj
        simp [hc]
      rw [hother j hji hjl] at hej
      exact h.out j ej hej (fun hc => hj (List.mem_append_left _ hc))

theorem evicted_get_other {s : State} {v j : Nat} {ve : PTE} (hjv : j ≠ v)
    (hjn : ∀ n, ve.next = some n → j ≠ n) :
    (evicted s v ve).PageTable[j]? = s.PageTable[j]? := by
  simp only [evicted]
  cases hn : ve.next with
  | none => simp [updOpt, upd_get, hjv]
  | some n => simp [updOpt, upd_get, hjv, hjn n hn]

theorem evicted_get_victim {s : State} {v : Nat} {ve : PTE} (hve : s.PageTable[v]? = some ve)
    (hvn : ∀ n, ve.next = some n → v ≠ n) :
    (evicted s v ve).PageTable[v]? = some (resetVictim ve) := by
  simp only [evicted]
  cases hn : ve.next with
  | none => simp [updOpt, upd_get, hve]
  | some n => simp [updOpt, upd_get, hve, hvn n hn]

theorem evicted_get_next {s : State} {v n : Nat} {ve : PTE} (hn : ve.next = some n)
    (hvn : n ≠ v) :
    (evicted s v ve).PageTable[n]? = (s.PageTable[n]?).map (setPrev none) := by
  simp only [evicted, hn, updOpt]
  simp [upd_get, hvn]

/-- Lines 95-114 on a well-formed queue of at least two pages: the head leaves the queue. -/
theorem WF_evicted {s : State} {v n : Nat} {rest : List Nat} {ve : PTE}
    (h : WF s (v :: n :: rest)) (hve : s.PageTable[v]? = some ve) :
    ve.next = some n ∧ WF (evicted s v ve) (n :: rest) := by
  obtain ⟨_, e, he, hprev, hseg⟩ := h.seg
  have hee : e = ve := by
    have : some e = some ve := he.symm.trans hve
    simpa using this
  subst hee
  obtain ⟨hn, en, hen, hpn, hsegn⟩ := hseg
  have hnd := h.nodup
  have hvn : v ≠ n := by
    intro hc
    rw [hc] at hnd
    simp at hnd
  have hvrest : v ∉ rest := by
    intro hc
    simp [hc] at hnd
  have hnrest : n ∉ rest := by
    intro hc
    simp [hc] at hnd
  have hv := evicted_get_victim (s := s) hve (fun m hm => by
    rw [hn] at hm
    simp only [Option.some.injEq] at hm
    rw [← hm]
    exact hvn)
  have hnx := evicted_get_next (s := s) hn (Ne.symm hvn)
  rw [hen] at hnx
  have hother : ∀ j, j ≠ v → j ≠ n → (evicted s v e).PageTable[j]? = s.PageTable[j]? := by
    intro j h1 h2
    exact evicted_get_other h1 (fun m hm => by
      rw [hn] at hm
      simp only [Option.some.injEq] at hm
      rw [← hm]
      exact h2)
  refine ⟨hn, ?_, ?_, ?_, ?_, ?_⟩
  · refine ⟨hn, _, hnx, rfl, ?_⟩
    refine Seg_congr (fun a ha => ?_) hsegn
    rw [hother a (fun hc => hvrest (hc ▸ ha)) (fun hc => hnrest (hc ▸ ha))]
  · exact (List.nodup_cons.mp hnd).2
  · intro j ej hej
    by_cases hjv : j = v
    · subst hjv
      rw [hv] at hej
      simp only [Option.some.injEq] at hej
      subst hej
      have h1 : ¬ (j = n ∨ j ∈ rest) := by
        rintro (hc | hc)
        · exact hvn hc
        · exact hvrest hc
      simp only [resetVictim, List.mem_cons, h1, iff_false]
      decide
    · by_cases hjn : j = n
      · subst hjn
        rw [hnx] at hej
        simp only [Option.map_some', Option.some.injEq] at hej
        subst hej
        have := h.mem j en hen
        simp only [setPrev]
        simp [this]
      · rw [hother j hjv hjn] at hej
        have := h.mem j ej hej
        rw [this]
        simp [hjv]
  · have : (evicted s v e).fifoLast = s.fifoLast := rfl
    rw [this, h.last, tailIndex_cons_cons]
  · intro j ej hej hj
    by_cases hjv : j = v
    · subst hjv
      rw [hv] at hej
      simp only [Option.some.injEq] at hej
      subst hej
      exact hprev
    · have hjn : j ≠ n := fun hc => hj (by simp [hc])
      rw [hother j hjv hjn] at hej
      refine h.out j ej hej ?_
      intro hc
      rcases List.mem_cons.mp hc with h1 | h1
      · exact hjv h1
      · exact hj h1

/-- Lines 95-136 on a queue of one page: the victim leaves an empty queue, and the page loaded
is linked behind the victim, not at the head. -/
theorem Broken_of_single {s : State} {v : Nat} {ve : PTE} (h : WF s [v])
    (hve : s.PageTable[v]? = some ve) (i : Nat) (fno time : Int) :
    Broken (loaded (evicted s v ve) i fno time) := by
  obtain ⟨_, e, he, _, hseg⟩ := h.seg
  have hee : e = ve := by
    have : some e = some ve := he.symm.trans hve
    simpa using this
  subst hee
  have hn : e.next = none := hseg
  have hl : s.fifoLast = (v : Int) := by
    rw [h.last]
    simp [tailIndex]
  have hl0 : 0 ≤ (evicted s v e).fifoLast := by
    show 0 ≤ s.fifoLast
    omega
  refine ⟨?_, ?_⟩
  · simp only [loaded, hl0, if_true]
    exact hn
  · show 0 ≤ ((i : Nat) : Int)
    omega

/-- Lines 145-151 on a segment: the page `i` is taken out. -/
theorem Seg_unlink {t : List PTE} {xs ys : List Nat} {i n : Nat} {c d : Option Nat} {p : PTE}
    (hs : Seg t none c (xs ++ i :: n :: ys) d) (hnd : (xs ++ i :: n :: ys).Nodup)
    (hp : t[i]? = some p) :
    p.prev = lastOr none xs ∧ p.next = some n ∧
    Seg (upd (updOpt t p.prev (setNext (some n))) n (setPrev p.prev)) none
      (if xs = [] then some n else c) (xs ++ n :: ys) d := by
  obtain ⟨m, h1, h2⟩ := Seg_append.mp hs
  obtain ⟨hm, e, he, hprev, hseg⟩ := h2
  have hee : e = p := by
    have : some e = some p := he.symm.trans hp
    simpa using this
  subst hee
  obtain ⟨hnext, en, hen, hpn, hsegn⟩ := hseg
  have hin : i ≠ n := by
    intro hc
    rw [hc] at hnd
    have := (List.nodup_append.mp hnd).2.1
    simp at this
  have hnys : n ∉ ys := by
    intro hc
    have := (List.nodup_append.mp hnd).2.1
    simp [hc] at this
  have hnxs : n ∉ xs := by
    intro hc
    exact (List.nodup_append.mp hnd).2.2 hc (by simp)
  have hixs : i ∉ xs := by
    intro hc
    exact (List.nodup_append.mp hnd).2.2 hc (by simp)
  refine ⟨hprev, hnext, ?_⟩
  rcases List.eq_nil_or_concat xs with hx | ⟨xs0, x, hx⟩
  · subst hx
    have hpn0 : e.prev = none := hprev
    simp only [hpn0, updOpt, List.nil_append, if_true]
    refine ⟨rfl, setPrev none en, by simp [upd_get, hen], rfl, ?_⟩
    refine Seg_congr (fun a ha => ?_) hsegn
    have : a ≠ n := fun hc => hnys (hc ▸ ha)
    simp [upd_get, this]
  · rw [List.concat_eq_append] at hx
    subst hx
    have hpx : e.prev = some x := by rw [hprev, lastOr_concat]
    have hne : ¬ (xs0 ++ [x] = []) := by simp
    simp only [hpx, updOpt, hne, if_false]
    obtain ⟨m0, g1, g2⟩ := Seg_append.mp h1
    obtain ⟨hm0, ex, hex, hpx0, hnx0⟩ := Seg_single.mp g2
    have hxn : x ≠ n := fun hc => hnxs (by simp [← hc])
    have hxys : x ∉ ys := by
      intro hc
      exact (List.nodup_append.mp hnd).2.2 (show x ∈ xs0 ++ [x] by simp) (by simp [hc])
    have hx0 : x ∉ xs0 := by
      intro hc
      exact (List.nodup_append.mp (List.nodup_append.mp hnd).1).2.2 hc (by simp)
    refine Seg_append.mpr ⟨some n, Seg_append.mpr ⟨m0, ?_, ?_⟩, ?_⟩
    · refine Seg_congr (fun a ha => ?_) g1
      have h1 : a ≠ n := fun hc => hnxs (by simp [← hc, ha])
      have h2 : a ≠ x := fun hc => hx0 (hc ▸ ha)
      simp [upd_get, h1, h2]
    · refine Seg_single.mpr ⟨hm0, setNext (some n) ex, ?_, hpx0, rfl⟩
      simp [upd_get, hxn, hex]
    · rw [lastOr_concat]
      refine ⟨rfl, setPrev (some x) en, ?_, rfl, ?_⟩
      · have : ¬ n = x := fun hc => hxn hc.symm
        simp [upd_get, this, hen]
      · refine Seg_congr (fun a ha => ?_) hsegn
        have h1 : a ≠ n := fun hc => hnys (hc ▸ ha)
        have h2 : a ≠ x := fun hc => hxys (hc ▸ ha)
        simp [upd_get, h1, h2]

theorem tailIndex_mem {q : List Nat} (hq : q ≠ []) : ∃ l, l ∈ q ∧ tailIndex q = (l : Int) ∧
    ∃ q0, q = q0 ++ [l] := by
  rcases List.eq_nil_or_concat q with h | ⟨q0, l, h⟩
  · exact absurd h hq
  · rw [List.concat_eq_append] at h
    subst h
    exact ⟨l, by simp, tailIndex_concat q0 l, q0, rfl⟩

theorem mem_moved_iff (a i n : Nat) (xs ys : List Nat) :
    a ∈ xs ++ n :: ys ++ [i] ↔ a ∈ xs ++ i :: n :: ys := by
  simp only [List.mem_append, List.mem_cons, List.mem_singleton, List.not_mem_nil, or_false]
  tauto

/-- Lines 142-159 on a well-formed queue: the page that is hit, not being the last, is moved
behind the last. -/
theorem WF_moved {s : State} {q : List Nat} (h : WF s q) {i n : Nat} {p : PTE}
    (hp : s.PageTable[i]? = some p) (hres : p.status = IN_MEMORY) (hn : p.next = some n) :
    ∃ xs ys, q = xs ++ i :: n :: ys ∧ WF (moved s i p n) (xs ++ n :: ys ++ [i]) := by
  have hiq : i ∈ q := (h.mem i p hp).mp hres
  obtain ⟨xs, tl, hq⟩ := List.append_of_mem hiq
  subst hq
  -- the successor of `i` in the list is `n`
  have htl : ∃ ys, tl = n :: ys := by
    obtain ⟨m, _, h2⟩ := Seg_append.mp h.seg
    obtain ⟨_, e, he, _, hseg⟩ := h2
    have hee : e = p := by
      have : some e = some p := he.symm.trans hp
      simpa using this
    subst hee
    cases tl with
    | nil =>
      have : e.next = none := hseg
      rw [hn] at this
      cases this
    | cons y ys =>
      have : e.next = some y := hseg.1
      rw [hn] at this
      simp only [Option.some.injEq] at this
      exact ⟨ys, by rw [this]⟩
  obtain ⟨ys, rfl⟩ := htl
  refine ⟨xs, ys, rfl, ?_⟩
  have hnd := h.nodup
  obtain ⟨hprev, _, hseg2⟩ := Seg_unlink h.seg hnd hp
  -- the last page of the queue
  have hne : xs ++ n :: ys ≠ [] := by simp
  obtain ⟨l, hl, hlast, q0, hq0⟩ := tailIndex_mem hne
  have hlast' : s.fifoLast = (l : Int) := by
    rw [h.last]
    have : tailIndex (xs ++ i :: n :: ys) = tailIndex (xs ++ n :: ys) := by
      simp [tailIndex, List.getLast?_append, List.getLast?_cons_cons]
    rw [this, hlast]
  have hlnat : s.fifoLast.toNat = l := by omega
  have hixs : i ∉ xs := fun hc => (List.nodup_append.mp hnd).2.2 hc (by simp)
  have hitl : i ∉ n :: ys := (List.nodup_cons.mp (List.nodup_append.mp hnd).2.1).1
  have hiq2 : i ∉ xs ++ n :: ys := by
    intro hc
    rcases List.mem_append.mp hc with h1 | h1
    · exact hixs h1
    · exact hitl h1
  have hli : l ≠ i := fun hc => hiq2 (hc ▸ hl)
  have hnd2 : (xs ++ n :: ys).Nodup := by
    have h1 := List.nodup_append.mp hnd
    refine List.nodup_append.mpr ⟨h1.1, (List.nodup_cons.mp h1.2.1).2, ?_⟩
    intro a ha hb
    exact h1.2.2 ha (List.mem_cons_of_mem i hb)
  have hl0 : l ∉ q0 := by
    rw [hq0] at hnd2
    intro hc
    exact (List.nodup_append.mp hnd2).2.2 hc (by simp)
  have hpq : ∀ b, p.prev = some b → b ∈ xs := by
    intro b hb
    rw [hprev] at hb
    rcases List.eq_nil_or_concat xs with hx | ⟨xs0, x, hx⟩
    · subst hx
      cases hb
    · rw [List.concat_eq_append] at hx
      subst hx
      rw [lastOr_concat] at hb
      simp only [Option.some.injEq] at hb
      simp [← hb]
  -- the table after the two phases
  have htab : (moved s i p n).PageTable =
      upd (upd (upd (upd (updOpt s.PageTable p.prev (setNext (some n))) n (setPrev p.prev))
        l (setNext (some i))) i (setPrev (some l))) i (setNext none) := by
    simp only [moved, hlnat]
  have hget2 : ∃ p2, (upd (updOpt s.PageTable p.prev (setNext (some n))) n
      (setPrev p.prev))[i]? = some p2 := by
    have hin : ¬ i = n := fun hc => hitl (by simp [hc])
    cases hb : p.prev with
    | none => exact ⟨p, by simp [updOpt, upd_get, hin, hp]⟩
    | some b =>
      have hib : ¬ i = b := fun hc => hixs (hc ▸ hpq b hb)
      exact ⟨p, by simp [updOpt, upd_get, hin, hib, hp]⟩
  obtain ⟨p2, hp2⟩ := hget2
  have hsegF : Seg (moved s i p n).PageTable none (if xs = [] then some n else s.fifoQueue)
      (xs ++ n :: ys ++ [i]) none := by
    rw [htab, hq0]
    rw [hq0] at hseg2
    refine Seg_link_tail hseg2 ?_ ?_ ?_
    · intro a ha
      have ha1 : a ≠ i := fun hc => hiq2 (by rw [hq0]; simp [← hc, ha])
      have ha2 : a ≠ l := fun hc => hl0 (hc ▸ ha)
      simp [upd_get, ha1, ha2]
    · intro el hel
      refine ⟨setNext (some i) el, ?_, rfl, rfl⟩
      simp [upd_get, hli, hel]
    · refine ⟨setNext none (setPrev (some l) p2), ?_, rfl, rfl⟩
      have : ¬ i = l := fun hc => hli hc.symm
      simp [upd_get, this, hp2]
  have hhead : (moved s i p n).fifoQueue = (if xs = [] then some n else s.fifoQueue) := by
    have hh := WF_head h
    simp only [moved, hlnat]
    rcases List.eq_nil_or_concat xs with hx | ⟨xs0, x, hx⟩
    · subst hx
      have : s.fifoQueue = some i := by simpa using hh
      simp [this, hli]
    · rw [List.concat_eq_append] at hx
      subst hx
      have hne2 : ¬ (xs0 ++ [x] = []) := by simp
      have hhd : s.fifoQueue ≠ some i := by
        rw [hh]
        intro hc
        have : i ∈ xs0 ++ [x] := by
          cases xs0 with
          | nil =>
            simp only [List.nil_append, List.cons_append, List.head?_cons,
              Option.some.injEq] at hc
            simp [hc]
          | cons y xs1 =>
            simp only [List.cons_append, List.head?_cons, Option.some.injEq] at hc
            simp [hc]
        exact hixs this
      simp [hhd, hne2]
  have hstat := moved_map PTE.status (fun _ _ => rfl) (fun _ _ => rfl) s i p n
  have hgetst : ∀ (j : Nat) (ej : PTE), (moved s i p n).PageTable[j]? = some ej →
      ∃ e0, s.PageTable[j]? = some e0 ∧ ej.status = e0.status := by
    intro j ej hej
    have := get_of_map PTE.status hstat j
    rw [hej] at this
    cases h0 : s.PageTable[j]? with
    | none => rw [h0] at this; simp at this
    | some e0 =>
      rw [h0] at this
      simp only [Option.map_some', Option.some.injEq] at this
      exact ⟨e0, rfl, this⟩
  refine ⟨?_, ?_, ?_, ?_, ?_⟩
  · rw [hhead]
    exact hsegF
  · refine List.nodup_append.mpr ⟨hnd2, by simp, ?_⟩
    intro a ha hb
    simp only [List.mem_singleton] at hb
    exact hiq2 (hb ▸ ha)
  · intro j ej hej
    obtain ⟨e0, he0, hst⟩ := hgetst j ej hej
    rw [hst, h.mem j e0 he0]
    exact (mem_moved_iff j i n xs ys).symm
  · show ((i : Nat) : Int) = tailIndex (xs ++ n :: ys ++ [i])
    rw [tailIndex_concat]
  · intro j ej hej hj
    have hjq : j ∉ xs ++ i :: n :: ys := fun hc => hj ((mem_moved_iff j i n xs ys).mpr hc)
    have hji : j ≠ i := fun hc => hjq (by simp [hc])
    have hjn : j ≠ n := fun hc => hjq (by simp [hc])
    have hjl : j ≠ l := by
      intro hc
      apply hj
      rw [hc]
      exact List.mem_append_left _ hl
    have hsame : (moved s i p n).PageTable[j]? = s.PageTable[j]? := by
      rw [htab]
      cases hb : p.prev with
      | none => simp [updOpt, upd_get, hji, hjn, hjl]
      | some b =>
        have hjb : j ≠ b := fun hc => hjq (by
          have := hpq b hb
          simp [hc, this])
        simp [updOpt, upd_get, hji, hjn, hjl, hjb]
    rw [hsame] at hej
    exact h.out j ej hej hjq

/-! ## Stamps -/

theorem lastPos_le {α : Type} (P : α → Bool) (l : List α) : lastPos P l ≤ l.length := by
  induction l with
  | nil => simp [lastPos]
  | cons a l ih =>
    simp only [lastPos, List.length_cons]
    split
    · omega
    · split <;> omega

theorem lastPos_concat {α : Type} (P : α → Bool) (l : List α) (a : α) :
    lastPos P (l ++ [a]) = if P a then l.length + 1 else lastPos P l := by
  induction l with
  | nil =>
    cases h : P a <;> simp [lastPos, h]
  | cons b l ih =>
    have ih' : lastPos P (l.append [a]) = if P a then l.length + 1 else lastPos P l := ih
    simp only [List.cons_append, lastPos, List.length_cons]
    rw [ih']
    cases h : P a
    · simp
    · simp

/-- What `lastPos` returns, when it is not `0`, is the position of an element that satisfies
`P` and after which none does. -/
theorem lastPos_spec {α : Type} (P : α → Bool) (l : List α) (k : Nat)
    (h : lastPos P l = k + 1) :
    (∃ a, l[k]? = some a ∧ P a = true) ∧ ∀ j a, k < j → l[j]? = some a → P a = false := by
  induction l generalizing k with
  | nil => simp [lastPos] at h
  | cons b l ih =>
    simp only [lastPos] at h
    split at h
    · rename_i hne
      obtain ⟨k0, hk0⟩ : ∃ k0, lastPos P l = k0 + 1 := ⟨lastPos P l - 1, by omega⟩
      have hk : k = k0 + 1 := by omega
      subst hk
      obtain ⟨h1, h2⟩ := ih k0 hk0
      refine ⟨by simpa using h1, ?_⟩
      intro j a hj hja
      cases j with
      | zero => omega
      | succ j =>
        simp only [List.getElem?_cons_succ] at hja
        exact h2 j a (by omega) hja
    · rename_i hz
      have hz' : lastPos P l = 0 := by
        by_contra hc
        exact hz hc
      split at h
      · rename_i hb
        have hk : k = 0 := by omega
        subst hk
        refine ⟨⟨b, by simp, hb⟩, ?_⟩
        intro j a hj hja
        cases j with
        | zero => omega
        | succ j =>
          simp only [List.getElem?_cons_succ] at hja
          by_contra hc
          have hPa : P a = true := by simpa using hc
          -- an element of `l` that satisfies `P` makes `lastPos P l` positive
          have hpos : ∀ (l : List α) (j : Nat) (a : α), l[j]? = some a → P a = true →
              lastPos P l ≠ 0 := by
            intro l
            induction l with
            | nil => intro j a hj; simp at hj
            | cons c l ihl =>
              intro j a hj hPa
              simp only [lastPos]
              cases j with
              | zero =>
                simp only [List.getElem?_cons_zero, Option.some.injEq] at hj
                subst hj
                split
                · omega
                · simp [hPa]
              | succ j =>
                simp only [List.getElem?_cons_succ] at hj
                have := ihl j a hj hPa
                simp [this]
          exact hpos l j a hja hPa hz'
      · omega

theorem stamp_le (s : State) (h : List (Nat × Bool)) (u : Nat) : stamp s h u ≤ h.length := by
  unfold stamp requestStamp loadStamp
  split <;> exact lastPos_le _ _

/-- The stamps after a request on page `i`: under LRU, and under FIFO when the request is a
fault, page `i` gets the position of the request; every other stamp is as before. -/
theorem stamp_concat (s : State) (h : List (Nat × Bool)) (i : Nat) (f : Bool) (u : Nat) :
    stamp s (h ++ [(i, f)]) u =
      if u = i ∧ (s.replacePolicy = REPL_LRU ∨ f = true) then h.length + 1 else stamp s h u := by
  unfold stamp requestStamp loadStamp
  by_cases hpol : s.replacePolicy = REPL_LRU
  · simp only [hpol, if_true, lastPos_concat, true_or, and_true]
    by_cases hu : i = u
    · simp [hu]
    · have : ¬ u = i := fun hc => hu hc.symm
      simp [hu, this]
  · simp only [hpol, if_false, lastPos_concat, false_or]
    by_cases hu : i = u
    · cases f <;> simp [hu]
    · have : ¬ u = i := fun hc => hu hc.symm
      simp [hu, this]

/-- The order of the stamps is kept when the page of the request is put at the end. -/
theorem sorted_concat {s w : State} {h : List (Nat × Bool)} {q q0 : List Nat} {i : Nat}
    {f : Bool} (hpol : w.replacePolicy = s.replacePolicy)
    (hf : s.replacePolicy = REPL_LRU ∨ f = true)
    (hsub : q0.Sublist q) (hi : i ∉ q0)
    (hsort : q.Pairwise (fun a b => stamp s h a < stamp s h b))
    (hpos : ∀ a ∈ q, 0 < stamp s h a) :
    (q0 ++ [i]).Pairwise (fun a b => stamp w (h ++ [(i, f)]) a < stamp w (h ++ [(i, f)]) b) ∧
    ∀ a ∈ q0 ++ [i], 0 < stamp w (h ++ [(i, f)]) a := by
  have hst : ∀ u, stamp w (h ++ [(i, f)]) u = if u = i then h.length + 1 else stamp s h u := by
    intro u
    rw [stamp_concat]
    have : stamp w h u = stamp s h u := by simp [stamp, hpol]
    rw [hpol, this]
    simp [hf]
  have hne : ∀ a ∈ q0, a ≠ i := fun a ha hc => hi (hc ▸ ha)
  constructor
  · rw [List.pairwise_append]
    refine ⟨?_, List.pairwise_singleton _ _, ?_⟩
    · refine (hsort.sublist hsub).imp_of_mem ?_
      intro a b ha hb hab
      rw [hst, hst, if_neg (hne a ha), if_neg (hne b hb)]
      exact hab
    · intro a ha b hb
      simp only [List.mem_singleton] at hb
      subst hb
      rw [hst, hst, if_neg (hne a ha), if_pos rfl]
      have := stamp_le s h a
      omega
  · intro a ha
    rcases List.mem_append.mp ha with h1 | h1
    · rw [hst, if_neg (hne a h1)]
      exact hpos a (hsub.subset h1)
    · simp only [List.mem_singleton] at h1
      subst h1
      rw [hst, if_pos rfl]
      omega

/-! ## The invariant of the reachable states -/

theorem requestPage_policy {s s' : State} {pno : Int} {mode : Char} {time r : Int}
    (h : requestPage s pno mode time = Except.ok (s', r)) :
    s'.replacePolicy = s.replacePolicy := by
  obtain ⟨_, _, p, _, hc⟩ := requestPage_cases h
  rcases hc with ⟨_, _, _, rfl⟩ | ⟨_, _, n, _, _, _, _, _, _, rfl⟩ | ⟨_, _, _, _, rfl⟩ |
    ⟨_, _, v, ve, _, _, _, _, _, rfl⟩ <;> rfl

/-- A page that is the last of the segment has no successor, and conversely. -/
theorem Seg_next_none {t : List PTE} {xs tl : List Nat} {i : Nat} {b c : Option Nat} {p : PTE}
    (hs : Seg t b c (xs ++ i :: tl) none) (hp : t[i]? = some p) (hn : p.next = none) :
    tl = [] := by
  obtain ⟨m, _, h2⟩ := Seg_append.mp hs
  obtain ⟨_, e, he, _, hseg⟩ := h2
  have hee : e = p := by
    have : some e = some p := he.symm.trans hp
    simpa using this
  subst hee
  cases tl with
  | nil => rfl
  | cons y ys =>
    have : e.next = some y := hseg.1
    rw [hn] at this
    cases this

theorem Inv_init (policy np : Int) (memory : List Int) (effects : List Effect) :
    Inv (initPageTable policy np memory effects) [] := by
  right
  have hget : ∀ (i : Nat) (e : PTE),
      (initPageTable policy np memory effects).PageTable[i]? = some e → e = initPTE i := by
    intro i e he
    simp only [initPageTable, List.getElem?_map] at he
    cases h : (List.range np.toNat)[i]? with
    | none => rw [h] at he; simp at he
    | some j =>
      rw [h] at he
      have hj := (List.getElem?_eq_some_iff.mp h).2
      simp only [List.getElem_range] at hj
      simp only [Option.map_some', Option.some.injEq] at he
      rw [← he, hj]
  refine ⟨[], ⟨rfl, List.nodup_nil, ?_, rfl, ?_⟩, List.Pairwise.nil, ?_⟩
  · intro i e he
    rw [hget i e he]
    simp only [initPTE, List.not_mem_nil, iff_false]
    decide
  · intro i e he _
    rw [hget i e he]
    rfl
  · intro a ha
    cases ha

/-- The invariant is kept by every request that returns; the history grows by the page
requested and by whether the request was a fault. -/
theorem Inv_requestPage {s s' : State} {h : List (Nat × Bool)} {pno : Int} {mode : Char}
    {time r : Int} (hinv : Inv s h) (hreq : requestPage s pno mode time = Except.ok (s', r)) :
    Inv s' (h ++ [(pno.toNat, !resident s pno.toNat)]) := by
  have hpol := requestPage_policy hreq
  obtain ⟨h0, _, p, hp, hc⟩ := requestPage_cases hreq
  have hlt : pno.toNat < s.PageTable.length := (List.getElem?_eq_some_iff.mp hp).1
  rcases hinv with hbr | ⟨q, hwf, hsort, hpos⟩
  · -- a broken state stays broken
    left
    rcases hc with ⟨_, _, _, rfl⟩ | ⟨_, _, n, _, _, _, _, _, _, rfl⟩ | ⟨_, _, _, _, rfl⟩ |
      ⟨_, _, v, ve, hv, _, _, _, _, rfl⟩
    · exact hbr
    · refine ⟨?_, ?_⟩
      · show (if s.fifoQueue = some pno.toNat then _ else s.fifoQueue) = none
        rw [hbr.1]
        simp
      · show 0 ≤ ((pno.toNat : Nat) : Int)
        omega
    · refine ⟨?_, ?_⟩
      · show (if 0 ≤ s.fifoLast then s.fifoQueue else some pno.toNat) = none
        rw [if_pos hbr.2]
        exact hbr.1
      · show 0 ≤ ((pno.toNat : Nat) : Int)
        omega
    · rw [hbr.1] at hv
      cases hv
  · rcases hc with ⟨hm, hplain, _, rfl⟩ | ⟨hm, hlru, n, hn, _, _, _, _, _, rfl⟩ |
      ⟨hf, _, _, _, rfl⟩ | ⟨hf, _, v, ve, hv, hve, _, _, _, rfl⟩
    · -- a hit that leaves the queue alone
      right
      have hres : resident s pno.toNat = true := (resident_eq_true hp).mpr hm
      refine ⟨q, WF_recorded (WF_countPageHit hwf) _ _ _, ?_⟩
      rw [hres]
      by_cases hpolicy : s.replacePolicy = REPL_LRU
      · -- under LRU the page is the last of the queue
        have hn : p.next = none := by
          rcases hplain with h1 | h1
          · exact absurd hpolicy h1
          · exact h1
        have hiq : pno.toNat ∈ q := (hwf.mem _ p hp).mp hm
        obtain ⟨xs, tl, hq⟩ := List.append_of_mem hiq
        subst hq
        have htl := Seg_next_none hwf.seg hp hn
        subst htl
        have hix : pno.toNat ∉ xs := by
          intro hcx
          exact (List.nodup_append.mp hwf.nodup).2.2 hcx (by simp)
        exact sorted_concat (f := false) (w := recorded (countPageHit s) pno.toNat mode time)
          rfl (Or.inl hpolicy) (List.sublist_append_left xs [pno.toNat]) hix hsort hpos
      · have hst : ∀ u, stamp (recorded (countPageHit s) pno.toNat mode time)
            (h ++ [(pno.toNat, !true)]) u = stamp s h u := by
          intro u
          rw [stamp_concat]
          have h1 : (recorded (countPageHit s) pno.toNat mode time).replacePolicy =
              s.replacePolicy := rfl
          have h2 : stamp (recorded (countPageHit s) pno.toNat mode time) h u = stamp s h u := by
            simp [stamp, h1]
          rw [h1, h2]
          simp [hpolicy]
        refine ⟨?_, ?_⟩
        · exact hsort.imp (fun {a b} hab => by rw [hst, hst]; exact hab)
        · intro a ha
          rw [hst]
          exact hpos a ha
    · -- a hit that moves the page to the end
      right
      have hres : resident s pno.toNat = true := (resident_eq_true hp).mpr hm
      obtain ⟨xs, ys, hq, hwf2⟩ := WF_moved (WF_countPageHit hwf) hp hm hn
      subst hq
      refine ⟨_, WF_recorded hwf2 _ _ _, ?_⟩
      rw [hres]
      have hnd := hwf.nodup
      have hi : pno.toNat ∉ xs ++ n :: ys := by
        intro hcx
        rcases List.mem_append.mp hcx with h1 | h1
        · exact (List.nodup_append.mp hnd).2.2 h1 (by simp)
        · exact (List.nodup_cons.mp (List.nodup_append.mp hnd).2.1).1 h1
      have hsub : (xs ++ n :: ys).Sublist (xs ++ pno.toNat :: n :: ys) :=
        List.Sublist.append_left (List.sublist_cons_self _ _) xs
      exact sorted_concat (f := false)
        (w := recorded (moved (countPageHit s) pno.toNat p n) pno.toNat mode time)
        rfl (Or.inl hlru) hsub hi hsort hpos
    · -- a fault served by a free frame
      right
      have hnres : resident s pno.toNat = false :=
        (resident_eq_false hp).mpr (not_IN_MEMORY hf)
      have hi : pno.toNat ∉ q := fun hcx =>
        not_IN_MEMORY hf ((hwf.mem _ p hp).mpr hcx)
      refine ⟨q ++ [pno.toNat], WF_recorded (WF_loaded (WF_probed hwf) _ _ hi hlt) _ _ _, ?_⟩
      rw [hnres]
      exact sorted_concat (f := !false)
        (w := recorded (loaded (probed s) pno.toNat (findFreeFrame s).2 time) pno.toNat mode time)
        rfl (Or.inr rfl) (List.Sublist.refl q) hi hsort hpos
    · -- a fault served by the frame of the victim
      have hnres : resident s pno.toNat = false :=
        (resident_eq_false hp).mpr (not_IN_MEMORY hf)
      have hi : pno.toNat ∉ q := fun hcx =>
        not_IN_MEMORY hf ((hwf.mem _ p hp).mpr hcx)
      have hhead := WF_head hwf
      rw [hv] at hhead
      cases q with
      | nil => cases hhead
      | cons v0 rest =>
        simp only [List.head?_cons, Option.some.injEq] at hhead
        subst hhead
        cases rest with
        | nil =>
          left
          exact Broken_of_single (WF_probed hwf) hve pno.toNat ve.frame time
        | cons n rest =>
          right
          obtain ⟨_, hwf2⟩ := WF_evicted (WF_probed hwf) hve
          have hi2 : pno.toNat ∉ n :: rest := fun hcx => hi (List.mem_cons_of_mem _ hcx)
          have hlt2 : pno.toNat < (evicted (probed s) v ve).PageTable.length := by
            rw [evicted_length]
            exact hlt
          refine ⟨(n :: rest) ++ [pno.toNat],
            WF_recorded (WF_loaded hwf2 _ _ hi2 hlt2) _ _ _, ?_⟩
          rw [hnres]
          exact sorted_concat (f := !false)
            (w := recorded (loaded (evicted (probed s) v ve) pno.toNat ve.frame time)
              pno.toNat mode time)
            rfl (Or.inr rfl) (List.sublist_cons_self v (n :: rest)) hi2 hsort hpos

/-! ## Runs and their history -/

theorem Inv_runRequests (reqs : List Req) :
    ∀ (s s' : State) (h : List (Nat × Bool)), Inv s h → runRequests s reqs = Except.ok s' →
      Inv s' (h ++ history s reqs) := by
  induction reqs with
  | nil =>
    intro s s' h hinv hrun
    simp only [runRequests, Except.ok.injEq] at hrun
    subst hrun
    simpa [history] using hinv
  | cons r rest ih =>
    intro s s' h hinv hrun
    obtain ⟨s1, f, hreq, hrest⟩ := runRequests_cons_ok.mp hrun
    have h1 := Inv_requestPage hinv hreq
    have h2 := ih s1 s' _ h1 hrest
    simp only [history, hreq]
    simpa using h2

/-- The invariant holds in every state reached from `initPageTable`. -/
theorem Inv_reachable {policy np : Int} {memory : List Int} {effects : List Effect}
    {pre : List Req} {s : State}
    (hrun : runRequests (initPageTable policy np memory effects) pre = Except.ok s) :
    Inv s (history (initPageTable policy np memory effects) pre) := by
  have := Inv_runRequests pre _ s [] (Inv_init policy np memory effects) hrun
  simpa using this

theorem policy_runRequests (reqs : List Req) :
    ∀ (s s' : State), runRequests s reqs = Except.ok s' →
      s'.replacePolicy = s.replacePolicy := by
  induction reqs with
  | nil =>
    intro s s' hrun
    simp only [runRequests, Except.ok.injEq] at hrun
    rw [hrun]
  | cons r rest ih =>
    intro s s' hrun
    obtain ⟨s1, f, hreq, hrest⟩ := runRequests_cons_ok.mp hrun
    rw [ih s1 s' hrest, requestPage_policy hreq]

/-! ## The entries after a request that evicts -/

theorem data_setPrev (v : Option Nat) (e : PTE) : data (setPrev v e) = data e := rfl

theorem data_setNext (v : Option Nat) (e : PTE) : data (setNext v e) = data e := rfl

/-- The entries, links apart, after a request on page `i` that evicts the page `v`: the entry of
`v` is reset, the entry of `i` is the one of a page just loaded and accessed, the other entries
are as before. -/
theorem evict_step_entries (s : State) (v i : Nat) (ve p : PTE) (mode : Char) (time : Int)
    (hve : s.PageTable[v]? = some ve) (hp : s.PageTable[i]? = some p) (hvi : v ≠ i) :
    (∀ j, j ≠ i → j ≠ v →
      ((recorded (loaded (evicted (probed s) v ve) i ve.frame time) i mode time).PageTable[j]?).map
        data = (s.PageTable[j]?).map data) ∧
    (∃ e1, (recorded (loaded (evicted (probed s) v ve) i ve.frame time) i mode
        time).PageTable[v]? = some e1 ∧ data e1 = data (resetVictim ve)) ∧
    (∃ e1, (recorded (loaded (evicted (probed s) v ve) i ve.frame time) i mode
        time).PageTable[i]? = some e1 ∧
      data e1 = data (accessed mode time (setLoaded ve.frame time p))) := by
  -- the table after the eviction
  have hE : ∀ j, ((evicted (probed s) v ve).PageTable[j]?).map data =
      if j = v then some (data (resetVictim ve)) else (s.PageTable[j]?).map data := by
    intro j
    have hT := get_of_map data
      (updOpt_map data (data_setPrev none) s.PageTable ve.next) j
    show ((upd (updOpt s.PageTable ve.next (setPrev none)) v resetVictim)[j]?).map data = _
    rw [upd_get]
    by_cases hjv : j = v
    · subst hjv
      rw [hve] at hT
      simp only [if_true]
      cases hx : (updOpt s.PageTable ve.next (setPrev none))[j]? with
      | none => rw [hx] at hT; simp at hT
      | some x =>
        rw [hx] at hT
        simp only [Option.map_some', Option.some.injEq] at hT
        simp only [Option.map_some', Option.some.injEq]
        simp only [data, Prod.mk.injEq] at hT ⊢
        simp [resetVictim, hT]
    · simp only [hjv, if_false]
      exact hT
  -- the table after the load
  have hL : ∀ j, j ≠ i →
      ((loaded (evicted (probed s) v ve) i ve.frame time).PageTable[j]?).map data =
      ((evicted (probed s) v ve).PageTable[j]?).map data := by
    intro j hji
    show ((upd (linkedLast (evicted (probed s) v ve) i) i (setLoaded ve.frame time))[j]?).map
      data = _
    rw [upd_get, if_neg hji]
    exact get_of_map data (linkedLast_map data data_setPrev data_setNext _ i) j
  have hR : ∀ j, j ≠ i →
      (recorded (loaded (evicted (probed s) v ve) i ve.frame time) i mode time).PageTable[j]? =
      (loaded (evicted (probed s) v ve) i ve.frame time).PageTable[j]? := by
    intro j hji
    show (upd _ i (accessed mode time))[j]? = _
    rw [upd_get, if_neg hji]
  refine ⟨?_, ?_, ?_⟩
  · intro j hji hjv
    rw [hR j hji, hL j hji, hE j, if_neg hjv]
  · have := hE v
    rw [if_pos rfl, ← hL v hvi, ← hR v hvi] at this
    cases hx : (recorded (loaded (evicted (probed s) v ve) i ve.frame time) i mode
        time).PageTable[v]? with
    | none => rw [hx] at this; simp at this
    | some e1 =>
      rw [hx] at this
      simp only [Option.map_some', Option.some.injEq] at this
      exact ⟨e1, rfl, this⟩
  · have hEi := hE i
    rw [if_neg (Ne.symm hvi), hp] at hEi
    have hLi := get_of_map data
      (linkedLast_map data data_setPrev data_setNext (evicted (probed s) v ve) i) i
    rw [hEi] at hLi
    cases hx : (linkedLast (evicted (probed s) v ve) i)[i]? with
    | none => rw [hx] at hLi; simp at hLi
    | some x =>
      rw [hx] at hLi
      simp only [Option.map_some', Option.some.injEq] at hLi
      refine ⟨accessed mode time (setLoaded ve.frame time x), ?_, ?_⟩
      · show (upd (upd (linkedLast (evicted (probed s) v ve) i) i (setLoaded ve.frame time)) i
          (accessed mode time))[i]? = _
        rw [upd_upd]
        exact upd_get_self _ hx
      · simp only [data, Prod.mk.injEq] at hLi ⊢
        simp only [accessed, setAccessTime, setLoaded, countPeek, countPoke]
        split
        · simp [hLi]
        · split <;> simp [hLi]

/-! ## The victim of an eviction -/

/-- In a well-formed state `queue` returns the list of the queue. -/
theorem WF_queue {s : State} {q : List Nat} (h : WF s q) : queue s = q := by
  have hsub : q ⊆ List.range s.PageTable.length := by
    intro a ha
    obtain ⟨e, he⟩ := Seg_mem h.seg a ha
    exact List.mem_range.mpr (List.getElem?_eq_some_iff.mp he).1
  have hlen : q.length ≤ s.PageTable.length := by
    have := (List.subperm_of_subset h.nodup hsub).length_le
    simpa using this
  exact walk_of_Seg h.seg hlen

theorem queue_of_head_none {s : State} (h : s.fifoQueue = none) : queue s = [] := by
  unfold queue
  rw [h]
  cases s.PageTable.length <;> rfl

/-- A request that evicts, in a state reached from `initPageTable`: the queue is well formed,
its head `v` is the victim, the stamp of `v` is the least among the resident pages, and the
state after the request is known in closed form. -/
theorem evicting_request {policy np : Int} {memory : List Int} {effects : List Effect}
    {pre : List Req} {s s' : State} {pno : Int} {mode : Char} {time r : Int}
    (hrun : runRequests (initPageTable policy np memory effects) pre = Except.ok s)
    (hreq : requestPage s pno mode time = Except.ok (s', r))
    (hfault : resident s pno.toNat = false) (hfull : memoryFull s = true) :
    ∃ v ve p rest, s.fifoQueue = some v ∧ s.PageTable[v]? = some ve ∧
      s.PageTable[pno.toNat]? = some p ∧ WF s (v :: rest) ∧ v ≠ pno.toNat ∧ r = ve.frame ∧
      s' = recorded (loaded (evicted (probed s) v ve) pno.toNat ve.frame time) pno.toNat mode
        time ∧
      0 < stamp s (history (initPageTable policy np memory effects) pre) v ∧
      ∀ u ∈ rest, stamp s (history (initPageTable policy np memory effects) pre) v <
        stamp s (history (initPageTable policy np memory effects) pre) u := by
  obtain ⟨_, _, p, hp, hc⟩ := requestPage_cases hreq
  have hnotmem : p.status ≠ IN_MEMORY := (resident_eq_false hp).mp hfault
  have hNONE : (findFreeFrame s).2 = NONE := by simpa [memoryFull] using hfull
  rcases hc with ⟨hm, _⟩ | ⟨hm, _⟩ | ⟨_, hfree, _⟩ | ⟨_, _, v, ve, hv, hve, _, _, hr, hs'⟩
  · exact absurd hm hnotmem
  · exact absurd hm hnotmem
  · exact absurd hNONE hfree
  · rcases Inv_reachable hrun with hbr | ⟨q, hwf, hsort, hpos⟩
    · rw [hbr.1] at hv
      cases hv
    · have hhead := WF_head hwf
      rw [hv] at hhead
      cases q with
      | nil => cases hhead
      | cons v0 rest =>
        simp only [List.head?_cons, Option.some.injEq] at hhead
        subst hhead
        have hvres : ve.status = IN_MEMORY := (hwf.mem v ve hve).mpr (by simp)
        have hvi : v ≠ pno.toNat := by
          intro hcx
          rw [hcx, hp] at hve
          simp only [Option.some.injEq] at hve
          rw [hve] at hnotmem
          exact hnotmem hvres
        exact ⟨v, ve, p, rest, hv, hve, hp, hwf, hvi, hr, hs', hpos v (by simp),
          (List.pairwise_cons.mp hsort).1⟩

/-- The pages resident after a request that evicts `v`: `v` is not, the others are as
before. -/
theorem evict_step_resident (s : State) (v i : Nat) (ve p : PTE) (mode : Char) (time : Int)
    (hve : s.PageTable[v]? = some ve) (hp : s.PageTable[i]? = some p) (hvi : v ≠ i) :
    resident (recorded (loaded (evicted (probed s) v ve) i ve.frame time) i mode time) v = false ∧
    ∀ u, u ≠ v → resident s u = true →
      resident (recorded (loaded (evicted (probed s) v ve) i ve.frame time) i mode time) u =
        true := by
  obtain ⟨hother, ⟨e1, he1, hd1⟩, ⟨e2, he2, hd2⟩⟩ :=
    evict_step_entries s v i ve p mode time hve hp hvi
  constructor
  · rw [resident_eq_false he1]
    have : e1.status = ON_DISK := by
      simp only [data, Prod.mk.injEq] at hd1
      exact hd1.1
    rw [this]
    decide
  · intro u huv hu
    by_cases hui : u = i
    · subst hui
      rw [resident_eq_true he2]
      simp only [data, Prod.mk.injEq] at hd2
      rw [hd2.1]
      simp only [accessed, setAccessTime]
      split
      · rfl
      · split <;> rfl
    · have := hother u hui huv
      cases hx : s.PageTable[u]? with
      | none => simp [resident, hx] at hu
      | some eu =>
        rw [hx] at this
        have hst : eu.status = IN_MEMORY := (resident_eq_true hx).mp hu
        cases hy : (recorded (loaded (evicted (probed s) v ve) i ve.frame time) i mode
            time).PageTable[u]? with
        | none => rw [hy] at this; simp at this
        | some e3 =>
          rw [hy] at this
          simp only [Option.map_some', Option.some.injEq, data, Prod.mk.injEq] at this
          rw [resident_eq_true hy, this.1, hst]

/-- C2: under FIFO, in a state reached from `initPageTable` by requests that returned, a request
that evicts (the page is not resident, no frame is free) evicts the head `v` of the queue, and
`v` is the resident page that was loaded first: the position in the request sequence of the most
recent fault on `v` is smaller than that of every other resident page. Hits are not faults, so
they do not count. Only `v` stops being resident. -/
theorem fifo_evicts_earliest_loaded (np : Int) (memory : List Int) (effects : List Effect)
    (pre : List Req) (s s' : State) (pno : Int) (mode : Char) (time r : Int)
    (hrun : runRequests (initPageTable REPL_FIFO np memory effects) pre = Except.ok s)
    (hreq : requestPage s pno mode time = Except.ok (s', r))
    (hfault : resident s pno.toNat = false) (hfull : memoryFull s = true) :
    ∃ v, s.fifoQueue = some v ∧ resident s v = true ∧ resident s' v = false ∧
      (∀ u, u ≠ v → resident s u = true → resident s' u = true) ∧
      0 < loadStamp (history (initPageTable REPL_FIFO np memory effects) pre) v ∧
      ∀ u, resident s u = true → u ≠ v →
        loadStamp (history (initPageTable REPL_FIFO np memory effects) pre) v <
          loadStamp (history (initPageTable REPL_FIFO np memory effects) pre) u := by
  obtain ⟨v, ve, p, rest, hv, hve, hp, hwf, hvi, _, hs', hpos, hmin⟩ :=
    evicting_request hrun hreq hfault hfull
  have hpol : s.replacePolicy = REPL_FIFO := policy_runRequests pre _ s hrun
  have hst : ∀ u, stamp s (history (initPageTable REPL_FIFO np memory effects) pre) u =
      loadStamp (history (initPageTable REPL_FIFO np memory effects) pre) u := by
    intro u
    have : ¬ (REPL_FIFO = REPL_LRU) := by decide
    simp [stamp, hpol, this]
  obtain ⟨hr1, hr2⟩ := evict_step_resident s v pno.toNat ve p mode time hve hp hvi
  refine ⟨v, hv, (resident_eq_true hve).mpr ((hwf.mem v ve hve).mpr (by simp)), ?_, ?_, ?_, ?_⟩
  · rw [hs']; exact hr1
  · rw [hs']; exact hr2
  · rw [← hst]; exact hpos
  · intro u hu huv
    cases hx : s.PageTable[u]? with
    | none => simp [resident, hx] at hu
    | some eu =>
      have hmem := (hwf.mem u eu hx).mp ((resident_eq_true hx).mp hu)
      rcases List.mem_cons.mp hmem with h1 | h1
      · exact absurd h1 huv
      · rw [← hst, ← hst]
        exact hmin u h1

/-- C3: under LRU, in a state reached from `initPageTable` by requests that returned, a request
that evicts (the page is not resident, no frame is free) evicts the head `v` of the queue, and
`v` is the resident page that was requested least recently: the position in the request sequence
of the most recent request on `v`, hit or load, is smaller than that of every other resident
page. In particular the victim is never a page `a` that was requested after the last request on
some resident page `u`. Only `v` stops being resident. -/
theorem lru_evicts_least_recently_used (np : Int) (memory : List Int) (effects : List Effect)
    (pre : List Req) (s s' : State) (pno : Int) (mode : Char) (time r : Int)
    (hrun : runRequests (initPageTable REPL_LRU np memory effects) pre = Except.ok s)
    (hreq : requestPage s pno mode time = Except.ok (s', r))
    (hfault : resident s pno.toNat = false) (hfull : memoryFull s = true) :
    ∃ v, s.fifoQueue = some v ∧ resident s v = true ∧ resident s' v = false ∧
      (∀ u, u ≠ v → resident s u = true → resident s' u = true) ∧
      0 < requestStamp (history (initPageTable REPL_LRU np memory effects) pre) v ∧
      (∀ u, resident s u = true → u ≠ v →
        requestStamp (history (initPageTable REPL_LRU np memory effects) pre) v <
          requestStamp (history (initPageTable REPL_LRU np memory effects) pre) u) ∧
      (∀ a u, resident s u = true →
        requestStamp (history (initPageTable REPL_LRU np memory effects) pre) u <
          requestStamp (history (initPageTable REPL_LRU np memory effects) pre) a → v ≠ a) := by
  obtain ⟨v, ve, p, rest, hv, hve, hp, hwf, hvi, _, hs', hpos, hmin⟩ :=
    evicting_request hrun hreq hfault hfull
  have hpol : s.replacePolicy = REPL_LRU := policy_runRequests pre _ s hrun
  have hst : ∀ u, stamp s (history (initPageTable REPL_LRU np memory effects) pre) u =
      requestStamp (history (initPageTable REPL_LRU np memory effects) pre) u := by
    intro u
    simp [stamp, hpol]
  obtain ⟨hr1, hr2⟩ := evict_step_resident s v pno.toNat ve p mode time hve hp hvi
  have hlt : ∀ u, resident s u = true → u ≠ v →
      requestStamp (history (initPageTable REPL_LRU np memory effects) pre) v <
        requestStamp (history (initPageTable REPL_LRU np memory effects) pre) u := by
    intro u hu huv
    cases hx : s.PageTable[u]? with
    | none => simp [resident, hx] at hu
    | some eu =>
      have hmem := (hwf.mem u eu hx).mp ((resident_eq_true hx).mp hu)
      rcases List.mem_cons.mp hmem with h1 | h1
      · exact absurd h1 huv
      · rw [← hst, ← hst]
        exact hmin u h1
  refine ⟨v, hv, (resident_eq_true hve).mpr ((hwf.mem v ve hve).mpr (by simp)), ?_, ?_, ?_,
    hlt, ?_⟩
  · rw [hs']; exact hr1
  · rw [hs']; exact hr2
  · rw [← hst]; exact hpos
  · intro a u hu hua hva
    subst hva
    by_cases huv : u = v
    · subst huv
      omega
    · have := hlt u hu huv
      omega

/-- Witness of C2: two frames, pages 0 and 1 loaded, page 0 hit; the read of page 2 evicts
page 0 all the same. -/
theorem fifo_evicts_earliest_loaded_witness :
    runRequests (initPageTable REPL_FIFO 4 (initMemory 2) []) hitTrace =
      Except.ok (afterHit REPL_FIFO) ∧
    requestPage (afterHit REPL_FIFO) 2 'r' 4 = Except.ok (afterHitFault REPL_FIFO, 0) ∧
    resident (afterHit REPL_FIFO) (2 : Int).toNat = false ∧
    memoryFull (afterHit REPL_FIFO) = true ∧
    ∃ v, (afterHit REPL_FIFO).fifoQueue = some v ∧ resident (afterHit REPL_FIFO) v = true ∧
      resident (afterHitFault REPL_FIFO) v = false ∧
      (∀ u, u ≠ v → resident (afterHit REPL_FIFO) u = true →
        resident (afterHitFault REPL_FIFO) u = true) ∧
      0 < loadStamp (history (initPageTable REPL_FIFO 4 (initMemory 2) []) hitTrace) v ∧
      ∀ u, resident (afterHit REPL_FIFO) u = true → u ≠ v →
        loadStamp (history (initPageTable REPL_FIFO 4 (initMemory 2) []) hitTrace) v <
          loadStamp (history (initPageTable REPL_FIFO 4 (initMemory 2) []) hitTrace) u :=
  ⟨rfl, rfl, rfl, rfl,
    fifo_evicts_earliest_loaded 4 (initMemory 2) [] hitTrace (afterHit REPL_FIFO)
      (afterHitFault REPL_FIFO) 2 'r' 4 0 rfl rfl rfl rfl⟩

/-- Witness of C3: the same trace under LRU; the victim is the head of the queue (page 1, in
frame 1). -/
theorem lru_evicts_least_recently_used_witness :
    runRequests (initPageTable REPL_LRU 4 (initMemory 2) []) hitTrace =
      Except.ok (afterHit REPL_LRU) ∧
    requestPage (afterHit REPL_LRU) 2 'r' 4 = Except.ok (afterHitFault REPL_LRU, 1) ∧
    resident (afterHit REPL_LRU) (2 : Int).toNat = false ∧
    memoryFull (afterHit REPL_LRU) = true ∧
    ∃ v, (afterHit REPL_LRU).fifoQueue = some v ∧ resident (afterHit REPL_LRU) v = true ∧
      resident (afterHitFault REPL_LRU) v = false ∧
      (∀ u, u ≠ v → resident (afterHit REPL_LRU) u = true →
        resident (afterHitFault REPL_LRU) u = true) ∧
      0 < requestStamp (history (initPageTable REPL_LRU 4 (initMemory 2) []) hitTrace) v ∧
      (∀ u, resident (afterHit REPL_LRU) u = true → u ≠ v →
        requestStamp (history (initPageTable REPL_LRU 4 (initMemory 2) []) hitTrace) v <
          requestStamp (history (initPageTable REPL_LRU 4 (initMemory 2) []) hitTrace) u) ∧
      (∀ a u, resident (afterHit REPL_LRU) u = true →
        requestStamp (history (initPageTable REPL_LRU 4 (initMemory 2) []) hitTrace) u <
          requestStamp (history (initPageTable REPL_LRU 4 (initMemory 2) []) hitTrace) a →
        v ≠ a) :=
  ⟨rfl, rfl, rfl, rfl,
    lru_evicts_least_recently_used 4 (initMemory 2) [] hitTrace (afterHit REPL_LRU)
      (afterHitFault REPL_LRU) 2 'r' 4 1 rfl rfl rfl rfl⟩

/-- C9: a request that evicts, in a state reached from `initPageTable` by requests that
returned. The victim `v` is the head of the queue and is not the page requested. After the call
`v` has status `ON_DISK`, `modified = 0`, `frame`, `accessTime` and `loadTime` equal to `NONE`,
its counters are as before and it is not in the queue; the page requested holds the frame that
`v` held, which is the frame returned. -/
theorem evicted_victim_reset (policy np : Int) (memory : List Int) (effects : List Effect)
    (pre : List Req) (s s' : State) (pno : Int) (mode : Char) (time r : Int)
    (hrun : runRequests (initPageTable policy np memory effects) pre = Except.ok s)
    (hreq : requestPage s pno mode time = Except.ok (s', r))
    (hfault : resident s pno.toNat = false) (hfull : memoryFull s = true) :
    ∃ v ve, s.fifoQueue = some v ∧ s.PageTable[v]? = some ve ∧ ve.status = IN_MEMORY ∧
      v ≠ pno.toNat ∧
      (∃ e1, s'.PageTable[v]? = some e1 ∧ e1.status = ON_DISK ∧ e1.modified = 0 ∧
        e1.frame = NONE ∧ e1.accessTime = NONE ∧ e1.loadTime = NONE ∧
        e1.nPeeks = ve.nPeeks ∧ e1.nPokes = ve.nPokes) ∧
      v ∉ queue s' ∧
      (∃ e2, s'.PageTable[pno.toNat]? = some e2 ∧ e2.status = IN_MEMORY ∧
        e2.frame = ve.frame) ∧
      r = ve.frame := by
  obtain ⟨v, ve, p, rest, hv, hve, hp, hwf, hvi, hr, hs', _, _⟩ :=
    evicting_request hrun hreq hfault hfull
  obtain ⟨_, ⟨e1, he1, hd1⟩, ⟨e2, he2, hd2⟩⟩ :=
    evict_step_entries s v pno.toNat ve p mode time hve hp hvi
  have hlt : pno.toNat < s.PageTable.length := (List.getElem?_eq_some_iff.mp hp).1
  have hi : pno.toNat ∉ v :: rest := by
    intro hcx
    have := (hwf.mem _ p hp).mpr hcx
    exact (resident_eq_false hp).mp hfault this
  refine ⟨v, ve, hv, hve, (hwf.mem v ve hve).mpr (by simp), hvi, ?_, ?_, ?_, hr⟩
  · rw [hs']
    simp only [data, resetVictim, Prod.mk.injEq] at hd1
    exact ⟨e1, he1, hd1.1, hd1.2.1, hd1.2.2.1, hd1.2.2.2.1, hd1.2.2.2.2.1, hd1.2.2.2.2.2.1,
      hd1.2.2.2.2.2.2⟩
  · rw [hs']
    cases rest with
    | nil =>
      have hb := Broken_of_single (WF_probed hwf) hve pno.toNat ve.frame time
      have hq : queue (recorded (loaded (evicted (probed s) v ve) pno.toNat ve.frame time)
          pno.toNat mode time) = [] := queue_of_head_none hb.1
      rw [hq]
      simp
    | cons n rest =>
      obtain ⟨_, hwf2⟩ := WF_evicted (WF_probed hwf) hve
      have hi2 : pno.toNat ∉ n :: rest := fun hcx => hi (List.mem_cons_of_mem _ hcx)
      have hlt2 : pno.toNat < (evicted (probed s) v ve).PageTable.length := by
        rw [evicted_length]
        exact hlt
      have hwf3 := WF_recorded (WF_loaded hwf2 ve.frame time hi2 hlt2) pno.toNat mode time
      rw [WF_queue hwf3]
      intro hcx
      rcases List.mem_append.mp hcx with h1 | h1
      · exact (List.nodup_cons.mp hwf.nodup).1 h1
      · simp only [List.mem_singleton] at h1
        exact hvi h1
  · rw [hs']
    refine ⟨e2, he2, ?_, ?_⟩
    · simp only [data, Prod.mk.injEq] at hd2
      rw [hd2.1]
      simp only [accessed, setAccessTime]
      split
      · rfl
      · split <;> rfl
    · simp only [data, Prod.mk.injEq] at hd2
      rw [hd2.2.2.1]
      simp only [accessed, setAccessTime]
      split
      · rfl
      · split <;> rfl

/-- Witness of C9: the eviction of page 0 by the read of page 2 at the end of `hitTrace`, under
FIFO. -/
theorem evicted_victim_reset_witness :
    runRequests (initPageTable REPL_FIFO 4 (initMemory 2) []) hitTrace =
      Except.ok (afterHit REPL_FIFO) ∧
    requestPage (afterHit REPL_FIFO) 2 'r' 4 = Except.ok (afterHitFault REPL_FIFO, 0) ∧
    resident (afterHit REPL_FIFO) (2 : Int).toNat = false ∧
    memoryFull (afterHit REPL_FIFO) = true ∧
    ∃ v ve, (afterHit REPL_FIFO).fifoQueue = some v ∧
      (afterHit REPL_FIFO).PageTable[v]? = some ve ∧ ve.status = IN_MEMORY ∧
      v ≠ (2 : Int).toNat ∧
      (∃ e1, (afterHitFault REPL_FIFO).PageTable[v]? = some e1 ∧ e1.status = ON_DISK ∧
        e1.modified = 0 ∧ e1.frame = NONE ∧ e1.accessTime = NONE ∧ e1.loadTime = NONE ∧
        e1.nPeeks = ve.nPeeks ∧ e1.nPokes = ve.nPokes) ∧
      v ∉ queue (afterHitFault REPL_FIFO) ∧
      (∃ e2, (afterHitFault REPL_FIFO).PageTable[(2 : Int).toNat]? = some e2 ∧
        e2.status = IN_MEMORY ∧ e2.frame = ve.frame) ∧
      (0 : Int) = ve.frame :=
  ⟨rfl, rfl, rfl, rfl,
    evicted_victim_reset REPL_FIFO 4 (initMemory 2) [] hitTrace (afterHit REPL_FIFO)
      (afterHitFault REPL_FIFO) 2 'r' 4 0 rfl rfl rfl rfl⟩

/-! ## Scenarios -/

/-- C10: FIFO, four pages, two free frames, the requests `(0,'r',1)`, `(1,'r',2)`, `(2,'r',3)`,
`(0,'r',4)`. After the second request the resident pages are 0 and 1. The third request is a
fault with no free frame and evicts page 0, the head of the queue. The fourth request is a fault
again and evicts page 1. At the end the resident pages are 2 and 0, the queue is page 2 (head)
then page 0 (tail), `countPageFault` was called four times and `countPageHit` never. -/
theorem fifo_scenario :
    runRequests (initState REPL_FIFO 4 2) (fifoTrace.take 2) = Except.ok (fifoAfter 2) ∧
    requestPage (fifoAfter 2) 2 'r' 3 = Except.ok (fifoAfter 3, 0) ∧
    requestPage (fifoAfter 3) 0 'r' 4 = Except.ok (fifoAfter 4, 1) ∧
    runRequests (initState REPL_FIFO 4 2) fifoTrace = Except.ok (fifoAfter 4) ∧
    (List.range 4).filter (resident (fifoAfter 2)) = [0, 1] ∧
    (resident (fifoAfter 2) 2 = false ∧ memoryFull (fifoAfter 2) = true ∧
      (fifoAfter 2).fifoQueue = some 0 ∧
      (List.range 4).filter (resident (fifoAfter 3)) = [1, 2] ∧
      ((fifoAfter 3).PageTable[0]?).map PTE.status = some ON_DISK) ∧
    (resident (fifoAfter 3) 0 = false ∧ memoryFull (fifoAfter 3) = true ∧
      (fifoAfter 3).fifoQueue = some 1 ∧
      ((fifoAfter 4).PageTable[1]?).map PTE.status = some ON_DISK) ∧
    (List.range 4).filter (resident (fifoAfter 4)) = [0, 2] ∧
    queue (fifoAfter 4) = [2, 0] ∧
    (fifoAfter 4).fifoQueue = some 2 ∧ (fifoAfter 4).fifoLast = 0 ∧
    history (initState REPL_FIFO 4 2) fifoTrace = [(0, true), (1, true), (2, true), (0, true)] ∧
    (fifoAfter 4).effects.count Effect.countPageFault = 4 ∧
    (fifoAfter 4).effects.count Effect.countPageHit = 0 := by
  refine ⟨rfl, rfl, rfl, rfl, rfl, ⟨rfl, rfl, rfl, rfl, rfl⟩, ⟨rfl, rfl, rfl, rfl⟩, rfl, rfl,
    rfl, rfl, rfl, ?_, ?_⟩ <;> decide

/-- C5 fails on the code: with one frame the third fault dereferences `fifoQueue`, which is
`NULL`, although the page number is in range. The first two requests return. -/
theorem one_frame_third_fault_aborts :
    runRequests (initState REPL_FIFO 3 1) [⟨0, 'r', 1⟩, ⟨1, 'r', 2⟩] =
      Except.ok oneFrameSecond ∧
    (0 : Int) ≤ 2 ∧ (2 : Int) < oneFrameSecond.nPages ∧
    requestPage oneFrameSecond 2 'r' 3 = Except.error Err.nullPointer := by
  refine ⟨rfl, by decide, by decide, rfl⟩

/-- C8 fails on the code: with one frame the second request is a fault that returns, and the
page it loads (page 1) is resident but is not in the queue: `fifoQueue` is `NULL`, the queue met
from the head is empty. Only the tail index `fifoLast` names page 1. -/
theorem one_frame_loaded_page_not_queued :
    runRequests (initState REPL_FIFO 3 1) [⟨0, 'r', 1⟩] = Except.ok oneFrameFirst ∧
    resident oneFrameFirst 1 = false ∧
    requestPage oneFrameFirst 1 'r' 2 = Except.ok (oneFrameSecond, 0) ∧
    resident oneFrameSecond 1 = true ∧
    oneFrameSecond.fifoQueue = none ∧
    queue oneFrameSecond = [] ∧
    1 ∉ queue oneFrameSecond ∧
    (queue oneFrameSecond).getLast? ≠ some 1 ∧
    oneFrameSecond.fifoLast = 1 := by
  refine ⟨rfl, rfl, rfl, rfl, rfl, rfl, ?_, ?_, rfl⟩ <;> decide

/-! ## The page that is loaded -/

/-- What holds of a fault in every state (the part of C8 that the code satisfies): the entry of
the page is that of a page just loaded into the frame returned, which is the free frame found or
the frame of the victim; `fifoLast` names the page; `loadFrame` and `countPageFault` are called
once each. -/
theorem fault_postcondition {s s' : State} {pno : Int} {mode : Char} {time r : Int}
    (hreq : requestPage s pno mode time = Except.ok (s', r))
    (hfault : resident s pno.toNat = false) :
    (∃ e1, s'.PageTable[pno.toNat]? = some e1 ∧ e1.status = IN_MEMORY ∧ e1.frame = r ∧
      e1.loadTime = time ∧ e1.accessTime = time ∧ (e1.modified = 1 ↔ mode = 'w') ∧
      (e1.modified = 0 ∨ e1.modified = 1)) ∧
    s'.fifoLast = pno ∧
    (memoryFull s = false → r = (findFreeFrame s).2) ∧
    (memoryFull s = true → ∃ v ve, s.fifoQueue = some v ∧ s.PageTable[v]? = some ve ∧
      r = ve.frame) ∧
    (∃ new, s'.effects = s.effects ++ new ∧ new.count (Effect.loadFrame r pno time) = 1 ∧
      new.count Effect.countPageFault = 1) := by
  obtain ⟨h0, _, p, hp, hc⟩ := requestPage_cases hreq
  have hcast : ((pno.toNat : Nat) : Int) = pno := Int.toNat_of_nonneg h0
  have hlt : pno.toNat < s.PageTable.length := (List.getElem?_eq_some_iff.mp hp).1
  have hnotmem : p.status ≠ IN_MEMORY := (resident_eq_false hp).mp hfault
  have hentry : ∀ (x : State) (fno : Int), pno.toNat < x.PageTable.length →
      ∃ e1, (recorded (loaded x pno.toNat fno time) pno.toNat mode time).PageTable[pno.toNat]? =
          some e1 ∧ e1.status = IN_MEMORY ∧ e1.frame = fno ∧ e1.loadTime = time ∧
        e1.accessTime = time ∧ (e1.modified = 1 ↔ mode = 'w') ∧
        (e1.modified = 0 ∨ e1.modified = 1) := by
    intro x fno hx
    obtain ⟨e0, he0⟩ := loaded_get_self fno time hx
    refine ⟨accessed mode time (setLoaded fno time e0), upd_get_self _ he0, ?_⟩
    by_cases hr : mode = 'r'
    · subst hr
      simp [accessed, setAccessTime, setLoaded, countPeek]
    · by_cases hw : mode = 'w'
      · subst hw
        simp [accessed, setAccessTime, setLoaded, countPoke]
      · simp [accessed, setAccessTime, setLoaded, hr, hw]
  rcases hc with ⟨hm, _⟩ | ⟨hm, _⟩ | ⟨_, hfree, _, hr, rfl⟩ |
    ⟨_, hfull, v, ve, hv, hve, _, _, hr, rfl⟩
  · exact absurd hm hnotmem
  · exact absurd hm hnotmem
  · subst hr
    refine ⟨hentry (probed s) _ hlt, hcast, fun _ => rfl, ?_, ?_⟩
    · intro hfull
      have : (findFreeFrame s).2 = NONE := by simpa [memoryFull] using hfull
      exact absurd this hfree
    · refine ⟨[Effect.findFreeFrame, Effect.loadFrame (findFreeFrame s).2 pno time,
        Effect.countPageFault], ?_, ?_, ?_⟩
      · simp [recorded, loaded, probed, findFreeFrame, hcast]
      · simp [List.count_cons]
      · simp [List.count_cons]
  · subst hr
    have hlt2 : pno.toNat < (evicted (probed s) v ve).PageTable.length := by
      rw [evicted_length]
      exact hlt
    refine ⟨hentry (evicted (probed s) v ve) _ hlt2, hcast, ?_, fun _ => ⟨v, ve, hv, hve, rfl⟩,
      ?_⟩
    · intro hnf
      have : memoryFull s = true := by simpa [memoryFull] using hfull
      rw [this] at hnf
      cases hnf
    · by_cases hmod : ve.modified = 0
      · refine ⟨[Effect.findFreeFrame, Effect.loadFrame ve.frame pno time,
          Effect.countPageFault], ?_, ?_, ?_⟩
        · simp [recorded, loaded, evicted, probed, findFreeFrame, hcast, hmod]
        · simp [List.count_cons]
        · simp [List.count_cons]
      · refine ⟨[Effect.findFreeFrame, Effect.saveFrame ve.frame,
          Effect.loadFrame ve.frame pno time, Effect.countPageFault], ?_, ?_, ?_⟩
        · simp [recorded, loaded, evicted, probed, findFreeFrame, hcast, hmod]
        · simp [List.count_cons]
        · simp [List.count_cons]

/-- What holds of a hit in every state: the frame returned is the frame of the page, which is
unchanged. -/
theorem hit_returns_frame {s s' : State} {pno : Int} {mode : Char} {time r : Int} {p : PTE}
    (hreq : requestPage s pno mode time = Except.ok (s', r))
    (hp : s.PageTable[pno.toNat]? = some p) (hres : p.status = IN_MEMORY) :
    r = p.frame ∧ ∃ e1, s'.PageTable[pno.toNat]? = some e1 ∧ e1.frame = r := by
  obtain ⟨_, _, _, _, s1, _, hrec⟩ := requestPage_ok.mp hreq
  obtain ⟨p1, hp1, hr1, hs1⟩ := recordAccess_ok.mp hrec
  obtain ⟨_, _, p0, hp0, hc⟩ := requestPage_cases hreq
  have hpp : p0 = p := by
    have : some p0 = some p := hp0.symm.trans hp
    simpa using this
  subst hpp
  have hnot : ¬ (p0.status = NOT_USED ∨ p0.status = ON_DISK) := by
    rw [hres]
    decide
  have hr : r = p0.frame := by
    rcases hc with ⟨_, _, hr, _⟩ | ⟨_, _, n, _, _, _, _, _, hr, _⟩ | ⟨hf, _⟩ | ⟨hf, _⟩
    · exact hr
    · exact hr
    · exact absurd hf hnot
    · exact absurd hf hnot
  refine ⟨hr, accessed mode time p1, ?_, ?_⟩
  · rw [hs1]
    exact upd_get_self _ hp1
  · rw [hr1]
    simp only [accessed, setAccessTime]
    split
    · rfl
    · split <;> rfl

/-- The queue after a fault on a well-formed queue `q`: the page loaded is its last element when
a frame was free and when the eviction leaves a page in the queue. (When the victim was the only
page of the queue, the state after the call is `Broken`.) -/
theorem fault_queue_tail {s s' : State} {q : List Nat} {pno : Int} {mode : Char} {time r : Int}
    (hwf : WF s q) (hreq : requestPage s pno mode time = Except.ok (s', r))
    (hfault : resident s pno.toNat = false) :
    (memoryFull s = false → WF s' (q ++ [pno.toNat]) ∧ queue s' = q ++ [pno.toNat]) ∧
    (memoryFull s = true → 2 ≤ q.length →
      WF s' (q.tail ++ [pno.toNat]) ∧ queue s' = q.tail ++ [pno.toNat]) ∧
    (memoryFull s = true → q.length < 2 → Broken s' ∧ queue s' = []) := by
  obtain ⟨_, _, p, hp, hc⟩ := requestPage_cases hreq
  have hlt : pno.toNat < s.PageTable.length := (List.getElem?_eq_some_iff.mp hp).1
  have hnotmem : p.status ≠ IN_MEMORY := (resident_eq_false hp).mp hfault
  have hi : pno.toNat ∉ q := fun hcx => hnotmem ((hwf.mem _ p hp).mpr hcx)
  rcases hc with ⟨hm, _⟩ | ⟨hm, _⟩ | ⟨_, hfree, _, _, rfl⟩ |
    ⟨_, hfull, v, ve, hv, hve, _, _, _, rfl⟩
  · exact absurd hm hnotmem
  · exact absurd hm hnotmem
  · have hmf : memoryFull s = false := by simpa [memoryFull] using hfree
    have hwf2 := WF_recorded (WF_loaded (WF_probed hwf) (findFreeFrame s).2 time hi hlt)
      pno.toNat mode time
    refine ⟨fun _ => ⟨hwf2, WF_queue hwf2⟩, ?_, ?_⟩
    · intro hx
      rw [hmf] at hx
      cases hx
    · intro hx
      rw [hmf] at hx
      cases hx
  · have hmf : memoryFull s = true := by simpa [memoryFull] using hfull
    have hhead := WF_head hwf
    rw [hv] at hhead
    cases q with
    | nil => cases hhead
    | cons v0 rest =>
      simp only [List.head?_cons, Option.some.injEq] at hhead
      subst hhead
      refine ⟨?_, ?_, ?_⟩
      · intro hx
        rw [hmf] at hx
        cases hx
      · intro _ hlen
        cases rest with
        | nil => simp at hlen
        | cons n rest =>
          obtain ⟨_, hwf2⟩ := WF_evicted (WF_probed hwf) hve
          have hi2 : pno.toNat ∉ n :: rest := fun hcx => hi (List.mem_cons_of_mem _ hcx)
          have hlt2 : pno.toNat < (evicted (probed s) v ve).PageTable.length := by
            rw [evicted_length]
            exact hlt
          have hwf3 := WF_recorded (WF_loaded hwf2 ve.frame time hi2 hlt2) pno.toNat mode time
          exact ⟨hwf3, WF_queue hwf3⟩
      · intro _ hlen
        cases rest with
        | nil =>
          have hb := Broken_of_single (WF_probed hwf) hve pno.toNat ve.frame time
          exact ⟨hb, queue_of_head_none hb.1⟩
        | cons n rest =>
          simp only [List.length_cons] at hlen
          omega

/-! ## The entries after a request -/

theorem data_accessed_setLoaded (mode : Char) (fno time : Int) {x y : PTE}
    (h1 : x.nPeeks = y.nPeeks) (h2 : x.nPokes = y.nPokes) :
    data (accessed mode time (setLoaded fno time x)) =
      data (accessed mode time (setLoaded fno time y)) := by
  simp only [data, accessed, setAccessTime, setLoaded, countPeek, countPoke]
  split
  · simp [h1, h2]
  · split <;> simp [h1, h2]

theorem data_accessed_congr (mode : Char) (time : Int) {x y : PTE} (h : data x = data y) :
    data (accessed mode time x) = data (accessed mode time y) := by
  simp only [data, Prod.mk.injEq] at h
  simp only [data, accessed, setAccessTime, countPeek, countPoke]
  split
  · simp [h]
  · split <;> simp [h]

/-- The entry of the page loaded by a fault, links apart. -/
theorem loaded_entry_data (y : State) (i : Nat) (p0 : PTE) (fno time : Int) (mode : Char)
    (hp : y.PageTable[i]? = some p0) :
    ∃ e1, (recorded (loaded y i fno time) i mode time).PageTable[i]? = some e1 ∧
      data e1 = data (accessed mode time (setLoaded fno time p0)) := by
  have hL := get_of_map (fun e : PTE => (e.nPeeks, e.nPokes))
    (linkedLast_map (fun e : PTE => (e.nPeeks, e.nPokes)) (fun _ _ => rfl) (fun _ _ => rfl) y i) i
  rw [hp] at hL
  cases hx : (linkedLast y i)[i]? with
  | none => rw [hx] at hL; simp at hL
  | some x =>
    rw [hx] at hL
    simp only [Option.map_some', Option.some.injEq, Prod.mk.injEq] at hL
    refine ⟨accessed mode time (setLoaded fno time x), ?_, data_accessed_setLoaded mode fno time
      hL.1 hL.2⟩
    show (upd (upd (linkedLast y i) i (setLoaded fno time)) i (accessed mode time))[i]? = _
    rw [upd_upd]
    exact upd_get_self _ hx

/-- The entries other than the page loaded, links apart, are not changed by the load. -/
theorem loaded_other_data (y : State) (i j : Nat) (fno time : Int) (mode : Char) (hj : j ≠ i) :
    ((recorded (loaded y i fno time) i mode time).PageTable[j]?).map data =
      (y.PageTable[j]?).map data := by
  show ((upd (upd (linkedLast y i) i (setLoaded fno time)) i (accessed mode time))[j]?).map data
    = _
  rw [upd_get, if_neg hj, upd_get, if_neg hj]
  exact get_of_map data (linkedLast_map data data_setPrev data_setNext y i) j

/-- The entries after the eviction, links apart: the victim is reset, the others are as
before. -/
theorem evicted_data (s : State) (v : Nat) (ve : PTE) (hve : s.PageTable[v]? = some ve)
    (j : Nat) :
    ((evicted s v ve).PageTable[j]?).map data =
      if j = v then some (data (resetVictim ve)) else (s.PageTable[j]?).map data := by
  have hT := get_of_map data (updOpt_map data (data_setPrev none) s.PageTable ve.next) j
  show ((upd (updOpt s.PageTable ve.next (setPrev none)) v resetVictim)[j]?).map data = _
  rw [upd_get]
  by_cases hjv : j = v
  · subst hjv
    rw [hve] at hT
    simp only [if_true]
    cases hx : (updOpt s.PageTable ve.next (setPrev none))[j]? with
    | none => rw [hx] at hT; simp at hT
    | some x =>
      rw [hx] at hT
      simp only [Option.map_some', Option.some.injEq] at hT
      simp only [Option.map_some', Option.some.injEq]
      simp only [data, Prod.mk.injEq] at hT ⊢
      simp [resetVictim, hT]
  · simp only [hjv, if_false]
    exact hT

/-- The entries after a request on page `i`, links apart. The entry of `i` is that of a page
accessed (hit) or loaded into the frame returned and accessed (fault); when the request evicts,
the entry of the victim, the head of the queue, is reset; every other entry is as before. -/
theorem requestPage_data {s s' : State} {pno : Int} {mode : Char} {time r : Int}
    (hreq : requestPage s pno mode time = Except.ok (s', r)) :
    ∃ p, s.PageTable[pno.toNat]? = some p ∧
      (∃ e1, s'.PageTable[pno.toNat]? = some e1 ∧
        ((p.status = IN_MEMORY ∧ data e1 = data (accessed mode time p)) ∨
         (p.status ≠ IN_MEMORY ∧ data e1 = data (accessed mode time (setLoaded r time p))))) ∧
      (∀ j, j ≠ pno.toNat →
        (resident s pno.toNat = false → memoryFull s = true → s.fifoQueue ≠ some j) →
        (s'.PageTable[j]?).map data = (s.PageTable[j]?).map data) ∧
      (resident s pno.toNat = false → memoryFull s = true →
        ∃ v ve, s.fifoQueue = some v ∧ s.PageTable[v]? = some ve ∧
          (v ≠ pno.toNat → ∃ e1, s'.PageTable[v]? = some e1 ∧
            data e1 = data (resetVictim ve))) := by
  obtain ⟨_, _, p, hp, hc⟩ := requestPage_cases hreq
  refine ⟨p, hp, ?_⟩
  have hhit : ∀ x : State, x.PageTable.map data = s.PageTable.map data →
      (∃ e1, (recorded x pno.toNat mode time).PageTable[pno.toNat]? = some e1 ∧
        data e1 = data (accessed mode time p)) ∧
      ∀ j, j ≠ pno.toNat →
        ((recorded x pno.toNat mode time).PageTable[j]?).map data =
          (s.PageTable[j]?).map data := by
    intro x hx
    constructor
    · have := get_of_map data hx pno.toNat
      rw [hp] at this
      cases h1 : x.PageTable[pno.toNat]? with
      | none => rw [h1] at this; simp at this
      | some x1 =>
        rw [h1] at this
        simp only [Option.map_some', Option.some.injEq] at this
        exact ⟨accessed mode time x1, upd_get_self _ h1, data_accessed_congr mode time this⟩
    · intro j hj
      show ((upd x.PageTable pno.toNat (accessed mode time))[j]?).map data = _
      rw [upd_get, if_neg hj]
      exact get_of_map data hx j
  rcases hc with ⟨hm, _, _, rfl⟩ | ⟨hm, _, n, _, _, _, _, _, _, rfl⟩ | ⟨hf, hfree, _, hr, rfl⟩ |
    ⟨hf, hfull, v, ve, hv, hve, _, _, hr, rfl⟩
  · obtain ⟨h1, h2⟩ := hhit (countPageHit s) rfl
    obtain ⟨e1, he1, hd⟩ := h1
    refine ⟨⟨e1, he1, Or.inl ⟨hm, hd⟩⟩, fun j hj _ => h2 j hj, ?_⟩
    intro hres
    rw [(resident_eq_true hp).mpr hm] at hres
    cases hres
  · obtain ⟨h1, h2⟩ := hhit (moved (countPageHit s) pno.toNat p n)
      (moved_map data data_setPrev data_setNext _ _ _ _)
    obtain ⟨e1, he1, hd⟩ := h1
    refine ⟨⟨e1, he1, Or.inl ⟨hm, hd⟩⟩, fun j hj _ => h2 j hj, ?_⟩
    intro hres
    rw [(resident_eq_true hp).mpr hm] at hres
    cases hres
  · subst hr
    obtain ⟨e1, he1, hd⟩ := loaded_entry_data (probed s) pno.toNat p (findFreeFrame s).2 time
      mode hp
    refine ⟨⟨e1, he1, Or.inr ⟨not_IN_MEMORY hf, hd⟩⟩, ?_, ?_⟩
    · intro j hj _
      exact loaded_other_data (probed s) pno.toNat j _ time mode hj
    · intro _ hfull
      have : (findFreeFrame s).2 = NONE := by simpa [memoryFull] using hfull
      exact absurd this hfree
  · subst hr
    have hcnt := get_of_map (fun e : PTE => (e.nPeeks, e.nPokes))
      (evicted_map (fun e : PTE => (e.nPeeks, e.nPokes)) (fun _ _ => rfl) (fun _ => rfl)
        (probed s) v ve) pno.toNat
    have hp' : (probed s).PageTable[pno.toNat]? = some p := hp
    rw [hp'] at hcnt
    cases hy : (evicted (probed s) v ve).PageTable[pno.toNat]? with
    | none => rw [hy] at hcnt; simp at hcnt
    | some y =>
      rw [hy] at hcnt
      simp only [Option.map_some', Option.some.injEq, Prod.mk.injEq] at hcnt
      obtain ⟨e1, he1, hd⟩ := loaded_entry_data (evicted (probed s) v ve) pno.toNat y ve.frame
        time mode hy
      refine ⟨⟨e1, he1, Or.inr ⟨not_IN_MEMORY hf, ?_⟩⟩, ?_, ?_⟩
      · rw [hd]
        exact data_accessed_setLoaded mode ve.frame time hcnt.1 hcnt.2
      · intro j hj hvj
        have hjv : j ≠ v := by
          intro hcx
          apply hvj ((resident_eq_false hp).mpr (not_IN_MEMORY hf))
            (by simpa [memoryFull] using hfull)
          rw [hv, hcx]
        rw [loaded_other_data (evicted (probed s) v ve) pno.toNat j _ time mode hj,
          evicted_data (probed s) v ve hve j, if_neg hjv]
        rfl
      · intro _ _
        refine ⟨v, ve, hv, hve, fun hvi => ?_⟩
        have := loaded_other_data (evicted (probed s) v ve) pno.toNat v ve.frame time mode hvi
        rw [evicted_data (probed s) v ve hve v, if_pos rfl] at this
        cases hx : (recorded (loaded (evicted (probed s) v ve) pno.toNat ve.frame time) pno.toNat
            mode time).PageTable[v]? with
        | none => rw [hx] at this; simp at this
        | some e2 =>
          rw [hx] at this
          simp only [Option.map_some', Option.some.injEq] at this
          exact ⟨e2, rfl, this⟩

/-! ## The frame condition -/

theorem data_fields {x y : PTE} (h : data x = data y) :
    x.status = y.status ∧ x.modified = y.modified ∧ x.frame = y.frame ∧
    x.accessTime = y.accessTime ∧ x.loadTime = y.loadTime ∧ x.nPeeks = y.nPeeks ∧
    x.nPokes = y.nPokes := by
  simpa [data] using h

theorem requestPage_length {s s' : State} {pno : Int} {mode : Char} {time r : Int}
    (hreq : requestPage s pno mode time = Except.ok (s', r)) :
    s'.PageTable.length = s.PageTable.length := by
  obtain ⟨_, _, p, _, hc⟩ := requestPage_cases hreq
  rcases hc with ⟨_, _, _, rfl⟩ | ⟨_, _, n, _, _, _, _, _, _, rfl⟩ | ⟨_, _, _, _, rfl⟩ |
    ⟨_, _, v, ve, _, _, _, _, _, rfl⟩
  · simp [recorded_length, countPageHit]
  · simp [recorded_length, moved_length, countPageHit]
  · simp [recorded_length, loaded_length, probed, findFreeFrame]
  · simp [recorded_length, loaded_length, evicted_length, probed, findFreeFrame]

/-- C20: the frame condition of `requestPage`. After a request on page `pno` that returns, every
entry other than `pno` and, when the request evicts, other than the victim (the head of the
queue) has the same `status`, `modified`, `frame`, `accessTime`, `loadTime`, `nPeeks` and
`nPokes` as before; on a hit this holds of every entry other than `pno`. No entry is added or
removed. -/
theorem frame_condition {s s' : State} {pno : Int} {mode : Char} {time r : Int}
    (hreq : requestPage s pno mode time = Except.ok (s', r)) :
    s'.PageTable.length = s.PageTable.length ∧
    (∀ (j : Nat) (e : PTE), s.PageTable[j]? = some e → j ≠ pno.toNat →
      (resident s pno.toNat = false → memoryFull s = true → s.fifoQueue ≠ some j) →
      ∃ e1, s'.PageTable[j]? = some e1 ∧ e1.status = e.status ∧ e1.modified = e.modified ∧
        e1.frame = e.frame ∧ e1.accessTime = e.accessTime ∧ e1.loadTime = e.loadTime ∧
        e1.nPeeks = e.nPeeks ∧ e1.nPokes = e.nPokes) ∧
    (resident s pno.toNat = true →
      ∀ (j : Nat) (e : PTE), s.PageTable[j]? = some e → j ≠ pno.toNat →
      ∃ e1, s'.PageTable[j]? = some e1 ∧ e1.status = e.status ∧ e1.modified = e.modified ∧
        e1.frame = e.frame ∧ e1.accessTime = e.accessTime ∧ e1.loadTime = e.loadTime ∧
        e1.nPeeks = e.nPeeks ∧ e1.nPokes = e.nPokes) := by
  obtain ⟨p, hp, _, hother, _⟩ := requestPage_data hreq
  have key : ∀ (j : Nat) (e : PTE), s.PageTable[j]? = some e → j ≠ pno.toNat →
      (resident s pno.toNat = false → memoryFull s = true → s.fifoQueue ≠ some j) →
      ∃ e1, s'.PageTable[j]? = some e1 ∧ e1.status = e.status ∧ e1.modified = e.modified ∧
        e1.frame = e.frame ∧ e1.accessTime = e.accessTime ∧ e1.loadTime = e.loadTime ∧
        e1.nPeeks = e.nPeeks ∧ e1.nPokes = e.nPokes := by
    intro j e he hj hv
    have := hother j hj hv
    rw [he] at this
    cases hx : s'.PageTable[j]? with
    | none => rw [hx] at this; simp at this
    | some e1 =>
      rw [hx] at this
      simp only [Option.map_some', Option.some.injEq] at this
      exact ⟨e1, rfl, data_fields this⟩
  refine ⟨requestPage_length hreq, key, ?_⟩
  intro hres j e he hj
  refine key j e he hj ?_
  intro hnres
  rw [hres] at hnres
  cases hnres

/-- Witness of C20: the read of page 2 at the end of `hitTrace` under FIFO, which evicts
page 0. -/
theorem frame_condition_witness :
    requestPage (afterHit REPL_FIFO) 2 'r' 4 = Except.ok (afterHitFault REPL_FIFO, 0) ∧
    (afterHitFault REPL_FIFO).PageTable.length = (afterHit REPL_FIFO).PageTable.length ∧
    (∀ (j : Nat) (e : PTE), (afterHit REPL_FIFO).PageTable[j]? = some e → j ≠ (2 : Int).toNat →
      (resident (afterHit REPL_FIFO) (2 : Int).toNat = false →
        memoryFull (afterHit REPL_FIFO) = true → (afterHit REPL_FIFO).fifoQueue ≠ some j) →
      ∃ e1, (afterHitFault REPL_FIFO).PageTable[j]? = some e1 ∧ e1.status = e.status ∧
        e1.modified = e.modified ∧ e1.frame = e.frame ∧ e1.accessTime = e.accessTime ∧
        e1.loadTime = e.loadTime ∧ e1.nPeeks = e.nPeeks ∧ e1.nPokes = e.nPokes) ∧
    (resident (afterHit REPL_FIFO) (2 : Int).toNat = true →
      ∀ (j : Nat) (e : PTE), (afterHit REPL_FIFO).PageTable[j]? = some e →
      j ≠ (2 : Int).toNat →
      ∃ e1, (afterHitFault REPL_FIFO).PageTable[j]? = some e1 ∧ e1.status = e.status ∧
        e1.modified = e.modified ∧ e1.frame = e.frame ∧ e1.accessTime = e.accessTime ∧
        e1.loadTime = e.loadTime ∧ e1.nPeeks = e.nPeeks ∧ e1.nPokes = e.nPokes) :=
  ⟨rfl, @frame_condition (afterHit REPL_FIFO) (afterHitFault REPL_FIFO) 2 'r' 4 0 rfl⟩

/-! ## Hits under FIFO -/

theorem walk_congr {t t1 : List PTE} (h : t1.map PTE.next = t.map PTE.next) :
    ∀ (fuel : Nat) (c : Option Nat), walk t1 fuel c = walk t fuel c := by
  intro fuel
  induction fuel with
  | zero => intro c; cases c <;> rfl
  | succ fuel ih =>
    intro c
    cases c with
    | none => rfl
    | some i =>
      have hi := get_of_map PTE.next h i
      cases h1 : t1[i]? with
      | none =>
        rw [h1] at hi
        cases h0 : t[i]? with
        | none => simp [walk, h1, h0]
        | some e => rw [h0] at hi; simp at hi
      | some e1 =>
        rw [h1] at hi
        cases h0 : t[i]? with
        | none => rw [h0] at hi; simp at hi
        | some e =>
          rw [h0] at hi
          simp only [Option.map_some', Option.some.injEq] at hi
          simp only [walk, h1, h0, hi, ih]

/-- C15: under FIFO a hit leaves the replacement queue untouched: `fifoQueue`, `fifoLast` and
the `prev` and `next` of every entry are the same before and after the call (and so is the list
met from the head). -/
theorem fifo_hit_keeps_queue {s s' : State} {pno : Int} {mode : Char} {time r : Int}
    (hpol : s.replacePolicy = REPL_FIFO)
    (hreq : requestPage s pno mode time = Except.ok (s', r))
    (hres : resident s pno.toNat = true) :
    s'.fifoQueue = s.fifoQueue ∧ s'.fifoLast = s.fifoLast ∧
    s'.PageTable.map (fun e => (e.prev, e.next)) =
      s.PageTable.map (fun e => (e.prev, e.next)) ∧
    queue s' = queue s := by
  obtain ⟨_, _, p, hp, hc⟩ := requestPage_cases hreq
  have hm : p.status = IN_MEMORY := (resident_eq_true hp).mp hres
  have hne : ¬ (p.status = NOT_USED ∨ p.status = ON_DISK) := by
    rw [hm]
    decide
  have hfifo : s.replacePolicy ≠ REPL_LRU := by
    rw [hpol]
    decide
  rcases hc with ⟨_, _, _, rfl⟩ | ⟨_, hlru, _⟩ | ⟨hf, _⟩ | ⟨hf, _⟩
  · have hlinks : ∀ e, ((accessed mode time e).prev, (accessed mode time e).next) =
        (e.prev, e.next) := by
      intro e
      simp only [accessed, setAccessTime]
      split
      · rfl
      · split <;> rfl
    have hnext : ∀ e, (accessed mode time e).next = e.next := fun e =>
      (Prod.mk.injEq _ _ _ _ ▸ hlinks e).2
    refine ⟨rfl, rfl, upd_map (fun e : PTE => (e.prev, e.next)) hlinks _ _, ?_⟩
    unfold queue
    rw [recorded_length]
    exact walk_congr (upd_map PTE.next hnext _ _) _ _
  · exact absurd hlru hfifo
  · exact absurd hf hne
  · exact absurd hf hne

/-- Witness of C15: two frames, pages 0 and 1 loaded, a read of page 0 (the head). -/
theorem fifo_hit_keeps_queue_witness :
    (fifoAfter 2).replacePolicy = REPL_FIFO ∧
    requestPage (fifoAfter 2) 0 'r' 5 = Except.ok (fifoHitAfter, 0) ∧
    resident (fifoAfter 2) (0 : Int).toNat = true ∧
    fifoHitAfter.fifoQueue = (fifoAfter 2).fifoQueue ∧
    fifoHitAfter.fifoLast = (fifoAfter 2).fifoLast ∧
    fifoHitAfter.PageTable.map (fun e => (e.prev, e.next)) =
      (fifoAfter 2).PageTable.map (fun e => (e.prev, e.next)) ∧
    queue fifoHitAfter = queue (fifoAfter 2) :=
  ⟨rfl, rfl, rfl, @fifo_hit_keeps_queue (fifoAfter 2) fifoHitAfter 0 'r' 5 0 rfl rfl rfl⟩

/-! ## More scenarios -/

/-- C11: four pages, two frames. After `(0,'r',1)`, `(1,'r',2)`, `(2,'r',3)`, `(0,'r',4)` the
page table, the queue (page 2, then page 0), the memory and the effect log are the same under
LRU and under FIFO. The fifth request `(2,'r',5)` is a hit under both. After it, under LRU page 0
is the head and page 2 the tail (the next victim is page 0); under FIFO the queue is as before,
page 2 being the head (the next victim is page 2). -/
theorem lru_fifo_scenario :
    runRequests (initState REPL_LRU 4 2) fifoTrace = Except.ok (lruAfter 4) ∧
    runRequests (initState REPL_FIFO 4 2) fifoTrace = Except.ok (fifoAfter 4) ∧
    (lruAfter 4).PageTable = (fifoAfter 4).PageTable ∧
    (lruAfter 4).fifoQueue = (fifoAfter 4).fifoQueue ∧
    (lruAfter 4).fifoLast = (fifoAfter 4).fifoLast ∧
    (lruAfter 4).memory = (fifoAfter 4).memory ∧
    (lruAfter 4).effects = (fifoAfter 4).effects ∧
    queue (lruAfter 4) = [2, 0] ∧ queue (fifoAfter 4) = [2, 0] ∧
    resident (lruAfter 4) 2 = true ∧ resident (fifoAfter 4) 2 = true ∧
    requestPage (lruAfter 4) 2 'r' 5 = Except.ok (afterFifth REPL_LRU, 0) ∧
    requestPage (fifoAfter 4) 2 'r' 5 = Except.ok (afterFifth REPL_FIFO, 0) ∧
    (afterFifth REPL_LRU).effects = (lruAfter 4).effects ++ [Effect.countPageHit] ∧
    (afterFifth REPL_FIFO).effects = (fifoAfter 4).effects ++ [Effect.countPageHit] ∧
    queue (afterFifth REPL_LRU) = [0, 2] ∧
    (afterFifth REPL_LRU).fifoQueue = some 0 ∧ (afterFifth REPL_LRU).fifoLast = 2 ∧
    queue (afterFifth REPL_FIFO) = [2, 0] ∧
    (afterFifth REPL_FIFO).fifoQueue = some 2 ∧ (afterFifth REPL_FIFO).fifoLast = 0 ∧
    (afterFifth REPL_FIFO).fifoQueue = (fifoAfter 4).fifoQueue ∧
    (afterFifth REPL_FIFO).PageTable.map (fun e => (e.prev, e.next)) =
      (fifoAfter 4).PageTable.map (fun e => (e.prev, e.next)) := by
  refine ⟨rfl, rfl, by decide, by decide, by decide, by decide, by decide, rfl, rfl, rfl, rfl,
    rfl, rfl, rfl, rfl, rfl, rfl, rfl, rfl, rfl, rfl, by decide, by decide⟩

/-- C13 fails on the code: with one frame, after the reads of page 0 and of page 1, page 1 is
`IN_MEMORY` but is not met from `fifoQueue`, which is `NULL`. -/
theorem one_frame_resident_not_reachable :
    runRequests (initState REPL_FIFO 3 1) [⟨0, 'r', 1⟩, ⟨1, 'r', 2⟩] =
      Except.ok oneFrameSecond ∧
    (oneFrameSecond.PageTable[1]?).map PTE.status = some IN_MEMORY ∧
    oneFrameSecond.fifoQueue = none ∧
    walk oneFrameSecond.PageTable oneFrameSecond.PageTable.length oneFrameSecond.fifoQueue = [] ∧
    ¬ (1 ∈ queue oneFrameSecond ↔ resident oneFrameSecond 1 = true) := by
  refine ⟨rfl, rfl, rfl, rfl, ?_⟩
  have hq : queue oneFrameSecond = [] := rfl
  have hr : resident oneFrameSecond 1 = true := rfl
  rw [hq, hr]
  simp

/-- C18 fails on the code as stated: in the FIFO scenario the times `1, 2, 3, 4` do not
decrease, page 0 has `accessTime = 1` after the second request, and the third request, which
evicts it, sets its `accessTime` to `NONE`, which is less. -/
theorem accessTime_drops_at_eviction :
    runRequests (initState REPL_FIFO 4 2) fifoTrace = Except.ok (fifoAfter 4) ∧
    (fifoTrace.map Req.time).Pairwise (fun a b => a ≤ b) ∧
    requestPage (fifoAfter 2) 2 'r' 3 = Except.ok (fifoAfter 3, 0) ∧
    ((fifoAfter 2).PageTable[0]?).map PTE.accessTime = some 1 ∧
    ((fifoAfter 3).PageTable[0]?).map PTE.accessTime = some NONE ∧
    NONE < (1 : Int) := by
  refine ⟨rfl, ?_, rfl, rfl, rfl, ?_⟩ <;> decide

/-! ## Hits under LRU -/

/-- In a memory-safe state a request on a resident page returns, with the frame of the page. -/
theorem hit_returns {s : State} (hs : Safe s) {p : Nat} {e : PTE}
    (hp : s.PageTable[p]? = some e) (hres : e.status = IN_MEMORY) (mode : Char) (t : Int) :
    ∃ s', requestPage s p mode t = Except.ok (s', e.frame) := by
  have hlt : p < s.PageTable.length := (List.getElem?_eq_some_iff.mp hp).1
  have hcast : ((p : Nat) : Int).toNat = p := Int.toNat_natCast p
  have hlt2 : ((p : Nat) : Int) < s.nPages := by
    have := hs.len
    omega
  have htouch : ∃ s1, touchPage (countPageHit s) p = Except.ok s1 ∧
      ∃ e1, s1.PageTable[p]? = some e1 ∧ e1.frame = e.frame := by
    by_cases hpol : s.replacePolicy = REPL_LRU
    · cases hn : e.next with
      | none =>
        exact ⟨countPageHit s, touchPage_ok.mpr ⟨e, hp, Or.inr (Or.inl ⟨hpol, hn, rfl⟩)⟩,
          e, hp, rfl⟩
      | some n =>
        have hptr := hs.ptr p e hp
        have hl0 : 0 ≤ s.fifoLast := by
          by_contra hneg
          have := hs.fresh (by omega) p e hp
          rw [hn] at this
          cases this
        have hl1 : s.fifoLast.toNat < s.PageTable.length := by
          have := hs.last
          omega
        refine ⟨moved (countPageHit s) p e n, touchPage_ok.mpr ⟨e, hp, Or.inr (Or.inr
          ⟨hpol, n, hn, hptr.2, hptr.1 n hn, hl0, hl1, rfl⟩)⟩, ?_⟩
        have hmap := get_of_map PTE.frame
          (moved_map PTE.frame (fun _ _ => rfl) (fun _ _ => rfl) (countPageHit s) p e n) p
        have hp' : (countPageHit s).PageTable[p]? = some e := hp
        rw [hp'] at hmap
        cases h1 : (moved (countPageHit s) p e n).PageTable[p]? with
        | none => rw [h1] at hmap; simp at hmap
        | some e1 =>
          rw [h1] at hmap
          simp only [Option.map_some', Option.some.injEq] at hmap
          exact ⟨e1, rfl, hmap⟩
    · exact ⟨countPageHit s, touchPage_ok.mpr ⟨e, hp, Or.inl ⟨hpol, rfl⟩⟩, e, hp, rfl⟩
  obtain ⟨s1, hs1, e1, he1, hfr⟩ := htouch
  refine ⟨recorded s1 p mode t, requestPage_ok.mpr ⟨by omega, hlt2, e, by rw [hcast]; exact hp,
    s1, Or.inr ⟨hres, by rw [hcast]; exact hs1⟩, ?_⟩⟩
  rw [hcast]
  exact recordAccess_ok.mpr ⟨e1, he1, hfr.symm, rfl⟩

theorem erase_middle (xs rest : List Nat) (p : Nat) (h : p ∉ xs) :
    (xs ++ p :: rest).erase p = xs ++ rest := by
  rw [List.erase_append_right _ h, List.erase_cons_head]

/-- The queue after a hit under LRU, in a well-formed state: the page is moved to the end. -/
theorem WF_hit_lru {s s' : State} {q : List Nat} {pno : Int} {mode : Char} {time r : Int}
    (hwf : WF s q) (hpol : s.replacePolicy = REPL_LRU)
    (hreq : requestPage s pno mode time = Except.ok (s', r))
    (hres : resident s pno.toNat = true) :
    WF s' (q.erase pno.toNat ++ [pno.toNat]) ∧
    (q.getLast? = some pno.toNat →
      q.erase pno.toNat ++ [pno.toNat] = q ∧ s'.fifoQueue = s.fifoQueue ∧
      s'.fifoLast = s.fifoLast ∧
      s'.PageTable.map (fun e => (e.prev, e.next)) =
        s.PageTable.map (fun e => (e.prev, e.next))) := by
  obtain ⟨_, _, p, hp, hc⟩ := requestPage_cases hreq
  have hm : p.status = IN_MEMORY := (resident_eq_true hp).mp hres
  have hne : ¬ (p.status = NOT_USED ∨ p.status = ON_DISK) := by
    rw [hm]
    decide
  have hiq : pno.toNat ∈ q := (hwf.mem _ p hp).mp hm
  rcases hc with ⟨_, hplain, _, rfl⟩ | ⟨_, _, n, hn, _, _, _, _, _, rfl⟩ | ⟨hf, _⟩ | ⟨hf, _⟩
  · have hn : p.next = none := by
      rcases hplain with h1 | h1
      · exact absurd hpol h1
      · exact h1
    obtain ⟨xs, tl, hq⟩ := List.append_of_mem hiq
    subst hq
    have htl := Seg_next_none hwf.seg hp hn
    subst htl
    have hix : pno.toNat ∉ xs := fun hcx =>
      (List.nodup_append.mp hwf.nodup).2.2 hcx (by simp)
    have herase : (xs ++ [pno.toNat]).erase pno.toNat ++ [pno.toNat] = xs ++ [pno.toNat] := by
      rw [erase_middle xs [] _ hix]
      simp
    rw [herase]
    refine ⟨WF_recorded (WF_countPageHit hwf) _ _ _, fun _ => ⟨rfl, rfl, rfl, ?_⟩⟩
    refine upd_map (fun e : PTE => (e.prev, e.next)) (fun e => ?_) _ _
    simp only [accessed, setAccessTime]
    split
    · rfl
    · split <;> rfl
  · obtain ⟨xs, ys, hq, hwf2⟩ := WF_moved (WF_countPageHit hwf) hp hm hn
    subst hq
    have hix : pno.toNat ∉ xs := fun hcx =>
      (List.nodup_append.mp hwf.nodup).2.2 hcx (by simp)
    rw [erase_middle xs (n :: ys) _ hix]
    refine ⟨WF_recorded hwf2 _ _ _, ?_⟩
    intro hlast
    exfalso
    have hnd := hwf.nodup
    have hlast2 : (xs ++ pno.toNat :: n :: ys).getLast? = (n :: ys).getLast? := by
      cases hg : (n :: ys).getLast? with
      | none => simp at hg
      | some l => simp [List.getLast?_append, List.getLast?_cons_cons, hg]
    rw [hlast2] at hlast
    have hmem : pno.toNat ∈ n :: ys := List.mem_of_getLast?_eq_some hlast
    exact (List.nodup_cons.mp (List.nodup_append.mp hnd).2.1).1 hmem
  · exact absurd hf hne
  · exact absurd hf hne

/-- C14: a hit under LRU in a state whose queue is the well-formed list `q` of the resident
pages (and whose pointers are safe). The request on the resident page `p` returns; afterwards
the queue is the well-formed list `q` without `p`, followed by `p`: the order of the other pages
is kept and `p` is the tail. `WF` says that the head pointer is the first page of this list,
`fifoLast` its last page, and that the `prev` links mirror the `next` links. When `p` already is
the tail, the list is `q` itself and `fifoQueue`, `fifoLast` and all the links are as before. -/
theorem lru_hit_moves_to_tail {s : State} {q : List Nat} (hwf : WF s q) (hsafe : Safe s)
    (hpol : s.replacePolicy = REPL_LRU) (p : Nat) (e : PTE)
    (hp : s.PageTable[p]? = some e) (hres : e.status = IN_MEMORY) (mode : Char) (time : Int) :
    ∃ s', requestPage s p mode time = Except.ok (s', e.frame) ∧
      WF s' (q.erase p ++ [p]) ∧ queue s' = q.erase p ++ [p] ∧
      s'.fifoQueue = (q.erase p ++ [p]).head? ∧ s'.fifoLast = (p : Int) ∧
      (q.getLast? = some p →
        q.erase p ++ [p] = q ∧ s'.fifoQueue = s.fifoQueue ∧ s'.fifoLast = s.fifoLast ∧
        s'.PageTable.map (fun e => (e.prev, e.next)) =
          s.PageTable.map (fun e => (e.prev, e.next))) := by
  obtain ⟨s', hreq⟩ := hit_returns hsafe hp hres mode time
  have hcast : ((p : Nat) : Int).toNat = p := Int.toNat_natCast p
  have hr : resident s ((p : Nat) : Int).toNat = true := by
    rw [hcast]
    exact (resident_eq_true hp).mpr hres
  obtain ⟨hwf2, hlast⟩ := WF_hit_lru hwf hpol hreq hr
  rw [hcast] at hwf2 hlast
  refine ⟨s', hreq, hwf2, WF_queue hwf2, WF_head hwf2, ?_, hlast⟩
  rw [hwf2.last, tailIndex_concat]

/-- A state reached from `initPageTable` whose head is not `NULL` has a well-formed queue. -/
theorem WF_of_reachable_head {policy np : Int} {memory : List Int} {effects : List Effect}
    {pre : List Req} {s : State}
    (hrun : runRequests (initPageTable policy np memory effects) pre = Except.ok s)
    (hq : s.fifoQueue ≠ none) : WF s (queue s) := by
  rcases Inv_reachable hrun with hbr | ⟨q, hwf, _, _⟩
  · exact absurd hbr.1 hq
  · rw [WF_queue hwf]
    exact hwf

theorem lruAfter4_WF : WF (lruAfter 4) [2, 0] :=
  WF_of_reachable_head (s := lruAfter 4)
    (show runRequests (initPageTable REPL_LRU 4 (initMemory 2) []) fifoTrace =
      Except.ok (lruAfter 4) from rfl) (by decide)

theorem lruAfter4_Safe : Safe (lruAfter 4) :=
  Safe_runRequests fifoTrace (initPageTable REPL_LRU 4 (initMemory 2) []) (lruAfter 4)
    (Safe_init REPL_LRU 4 (initMemory 2) []) rfl

/-- Witness of C14: after `fifoTrace` under LRU the queue is page 2, page 0; page 2 is hit. -/
theorem lru_hit_moves_to_tail_witness :
    WF (lruAfter 4) [2, 0] ∧ Safe (lruAfter 4) ∧ (lruAfter 4).replacePolicy = REPL_LRU ∧
    (lruAfter 4).PageTable[2]? = some afterTracePage2 ∧ afterTracePage2.status = IN_MEMORY ∧
    ∃ s', requestPage (lruAfter 4) ((2 : Nat) : Int) 'r' 5 =
        Except.ok (s', afterTracePage2.frame) ∧
      WF s' (([2, 0] : List Nat).erase 2 ++ [2]) ∧
      queue s' = ([2, 0] : List Nat).erase 2 ++ [2] ∧
      s'.fifoQueue = (([2, 0] : List Nat).erase 2 ++ [2]).head? ∧ s'.fifoLast = ((2 : Nat) : Int) ∧
      (([2, 0] : List Nat).getLast? = some 2 →
        ([2, 0] : List Nat).erase 2 ++ [2] = [2, 0] ∧ s'.fifoQueue = (lruAfter 4).fifoQueue ∧
        s'.fifoLast = (lruAfter 4).fifoLast ∧
        s'.PageTable.map (fun e => (e.prev, e.next)) =
          (lruAfter 4).PageTable.map (fun e => (e.prev, e.next))) :=
  ⟨lruAfter4_WF, lruAfter4_Safe, rfl, rfl, rfl,
    lru_hit_moves_to_tail lruAfter4_WF lruAfter4_Safe rfl 2 afterTracePage2 rfl rfl 'r' 5⟩

/-! ## The dirty bit -/

theorem accessed_status (mode : Char) (time : Int) (x : PTE) :
    (accessed mode time x).status = x.status := by
  simp only [accessed, setAccessTime]
  split
  · rfl
  · split <;> rfl

theorem accessed_modified (mode : Char) (time : Int) (x : PTE) :
    (accessed mode time x).modified = if mode = 'w' then 1 else x.modified := by
  simp only [accessed, setAccessTime]
  by_cases hr : mode = 'r'
  · subst hr
    simp [countPeek]
  · by_cases hw : mode = 'w'
    · subst hw
      simp [countPoke]
    · simp [hr, hw]

theorem loadStamp_concat (h : List (Nat × Bool)) (i : Nat) (f : Bool) (u : Nat) :
    loadStamp (h ++ [(i, f)]) u = if u = i ∧ f = true then h.length + 1 else loadStamp h u := by
  unfold loadStamp
  rw [lastPos_concat]
  by_cases hu : i = u
  · cases f <;> simp [hu]
  · have : ¬ u = i := fun hc => hu hc.symm
    simp [hu, this]

theorem writeStamp_concat (reqs : List Req) (r : Req) (u : Nat) :
    writeStamp (reqs ++ [r]) u =
      if r.pno = (u : Int) ∧ r.mode = 'w' then reqs.length + 1 else writeStamp reqs u := by
  unfold writeStamp
  rw [lastPos_concat]
  by_cases h1 : r.pno = (u : Int) <;> by_cases h2 : r.mode = 'w' <;> simp [h1, h2]

theorem loadStamp_le (h : List (Nat × Bool)) (u : Nat) : loadStamp h u ≤ h.length :=
  lastPos_le _ _

theorem writeStamp_le (reqs : List Req) (u : Nat) : writeStamp reqs u ≤ reqs.length :=
  lastPos_le _ _

/-- The dirty-bit invariant is kept by every request that returns. -/
theorem Dirty_requestPage {s s' : State} {h : List (Nat × Bool)} {reqs : List Req} {rq : Req}
    {r : Int} (hlen : h.length = reqs.length) (hd : Dirty s h reqs)
    (hreq : requestPage s rq.pno rq.mode rq.time = Except.ok (s', r)) :
    Dirty s' (h ++ [(rq.pno.toNat, !resident s rq.pno.toNat)]) (reqs ++ [rq]) := by
  obtain ⟨h0, _, _⟩ := requestPage_cases hreq
  obtain ⟨p, hp, ⟨e1, he1, hself⟩, hother, hvict⟩ := requestPage_data hreq
  have hpno : ∀ u : Nat, rq.pno = (u : Int) ↔ u = rq.pno.toNat := by
    intro u
    omega
  have hcast : (rq.pno = ((rq.pno.toNat : Nat) : Int)) = True := eq_true ((hpno _).mpr rfl)
  intro u e he
  by_cases hu : u = rq.pno.toNat
  · -- the page requested
    subst hu
    have hee : e = e1 := by
      have : some e = some e1 := he.symm.trans he1
      simpa using this
    subst hee
    rcases hself with ⟨hm, hdat⟩ | ⟨hm, hdat⟩
    · have hres : resident s rq.pno.toNat = true := (resident_eq_true hp).mpr hm
      obtain ⟨hst, hmo, _⟩ := data_fields hdat
      rw [accessed_status] at hst
      rw [accessed_modified] at hmo
      obtain ⟨hpos, hiff⟩ := (hd _ p hp).1 hm
      have hne : e.status = IN_MEMORY := hst.trans hm
      refine ⟨fun _ => ?_, fun hc => absurd hne hc⟩
      rw [hres, loadStamp_concat, writeStamp_concat]
      simp only [Bool.not_true, Bool.false_eq_true, and_false, if_false, hcast,
        true_and]
      refine ⟨hpos, ?_⟩
      by_cases hw : rq.mode = 'w'
      · simp only [hw, if_true] at hmo ⊢
        have := loadStamp_le h rq.pno.toNat
        constructor
        · intro _
          omega
        · intro _
          exact hmo
      · simp only [hw, if_false] at hmo ⊢
        rw [hmo]
        exact hiff
    · have hres : resident s rq.pno.toNat = false := (resident_eq_false hp).mpr hm
      obtain ⟨hst, hmo, _⟩ := data_fields hdat
      rw [accessed_status] at hst
      rw [accessed_modified] at hmo
      have hne : e.status = IN_MEMORY := hst
      refine ⟨fun _ => ?_, fun hc => absurd hne hc⟩
      rw [hres, loadStamp_concat, writeStamp_concat]
      simp only [Bool.not_false, and_self, if_true, hcast, true_and]
      refine ⟨by omega, ?_⟩
      by_cases hw : rq.mode = 'w'
      · simp only [hw, if_true] at hmo ⊢
        constructor
        · intro _
          omega
        · intro _
          exact hmo
      · simp only [hw, if_false] at hmo ⊢
        have hz : e.modified = 0 := hmo
        have := writeStamp_le reqs rq.pno.toNat
        constructor
        · intro h1
          rw [hz] at h1
          cases h1
        · intro h2
          omega
  · -- another page
    have hl : loadStamp (h ++ [(rq.pno.toNat, !resident s rq.pno.toNat)]) u = loadStamp h u := by
      rw [loadStamp_concat]
      simp [hu]
    have hw : writeStamp (reqs ++ [rq]) u = writeStamp reqs u := by
      rw [writeStamp_concat]
      have : ¬ rq.pno = (u : Int) := fun hc => hu ((hpno u).mp hc)
      simp [this]
    rw [hl, hw]
    by_cases hev : resident s rq.pno.toNat = false ∧ memoryFull s = true ∧ s.fifoQueue = some u
    · obtain ⟨v, ve, hv, hve, hreset⟩ := hvict hev.1 hev.2.1
      have hvu : v = u := by
        have : some v = some u := hv.symm.trans hev.2.2
        simpa using this
      subst hvu
      obtain ⟨e2, he2, hdat⟩ := hreset hu
      have hee : e = e2 := by
        have : some e = some e2 := he.symm.trans he2
        simpa using this
      subst hee
      obtain ⟨hst, hmo, _⟩ := data_fields hdat
      have hnot : e.status ≠ IN_MEMORY := by
        rw [hst]
        simp only [resetVictim]
        decide
      exact ⟨fun hc => absurd hc hnot, fun _ => hmo⟩
    · have hsame := hother u hu (fun h1 h2 h3 => hev ⟨h1, h2, h3⟩)
      rw [he] at hsame
      cases hx : s.PageTable[u]? with
      | none => rw [hx] at hsame; simp at hsame
      | some e0 =>
        rw [hx] at hsame
        simp only [Option.map_some', Option.some.injEq] at hsame
        obtain ⟨hst, hmo, _⟩ := data_fields hsame
        rw [hst, hmo]
        exact hd u e0 hx

theorem history_length (reqs : List Req) :
    ∀ (s s' : State), runRequests s reqs = Except.ok s' →
      (history s reqs).length = reqs.length := by
  induction reqs with
  | nil => intro s s' _; rfl
  | cons r rest ih =>
    intro s s' hrun
    obtain ⟨s1, f, hreq, hrest⟩ := runRequests_cons_ok.mp hrun
    simp only [history, hreq, List.length_cons, ih s1 s' hrest]

theorem Dirty_runRequests (reqs : List Req) :
    ∀ (s s' : State) (h : List (Nat × Bool)) (pre : List Req), h.length = pre.length →
      Dirty s h pre → runRequests s reqs = Except.ok s' →
      Dirty s' (h ++ history s reqs) (pre ++ reqs) := by
  induction reqs with
  | nil =>
    intro s s' h pre _ hd hrun
    simp only [runRequests, Except.ok.injEq] at hrun
    subst hrun
    simpa [history] using hd
  | cons r rest ih =>
    intro s s' h pre hlen hd hrun
    obtain ⟨s1, f, hreq, hrest⟩ := runRequests_cons_ok.mp hrun
    have h1 := Dirty_requestPage hlen hd hreq
    have h2 := ih s1 s' _ _ (by simp [hlen]) h1 hrest
    simp only [history, hreq]
    simpa using h2

/-- C16: the dirty-bit invariant. In a state reached from `initPageTable` by the requests `reqs`,
all of which returned, a resident page has been loaded and its `modified` flag is 1 exactly when
the most recent `'w'` request on it is at or after its most recent load (the request that loads
it counts), so that a flag of 1 means there is such a `'w'` request; an entry that is not
resident has `modified = 0`. -/
theorem dirty_bit_invariant (policy np : Int) (memory : List Int) (effects : List Effect)
    (reqs : List Req) (s : State)
    (hrun : runRequests (initPageTable policy np memory effects) reqs = Except.ok s)
    (u : Nat) (e : PTE) (he : s.PageTable[u]? = some e) :
    (e.status = IN_MEMORY →
      0 < loadStamp (history (initPageTable policy np memory effects) reqs) u ∧
      (e.modified = 1 → 0 < writeStamp reqs u) ∧
      (e.modified = 1 ↔
        loadStamp (history (initPageTable policy np memory effects) reqs) u ≤
          writeStamp reqs u)) ∧
    (e.status ≠ IN_MEMORY → e.modified = 0) := by
  have hinit : Dirty (initPageTable policy np memory effects) [] [] := by
    intro j ej hej
    have hj : ej = initPTE j := by
      simp only [initPageTable, List.getElem?_map] at hej
      cases h : (List.range np.toNat)[j]? with
      | none => rw [h] at hej; simp at hej
      | some k =>
        rw [h] at hej
        have hk := (List.getElem?_eq_some_iff.mp h).2
        simp only [List.getElem_range] at hk
        simp only [Option.map_some', Option.some.injEq] at hej
        rw [← hej, hk]
    subst hj
    refine ⟨fun hc => ?_, fun _ => rfl⟩
    simp only [initPTE] at hc
    exact absurd hc (by decide)
  have hd := Dirty_runRequests reqs _ s [] [] rfl hinit hrun
  simp only [List.nil_append] at hd
  obtain ⟨h1, h2⟩ := hd u e he
  refine ⟨fun hm => ?_, h2⟩
  obtain ⟨hpos, hiff⟩ := h1 hm
  refine ⟨hpos, ?_, hiff⟩
  intro hmod
  have := hiff.mp hmod
  omega

/-- Witness of C16: after a write of page 0 and a read of page 1 with two frames, page 0 is
resident and modified, and its write is at its load. -/
theorem dirty_bit_invariant_witness :
    runRequests (initPageTable REPL_LRU 3 (initMemory 2) []) [⟨0, 'w', 1⟩, ⟨1, 'r', 2⟩] =
        Except.ok lruTwoLoaded ∧
      lruTwoLoaded.PageTable[0]? = some lruTwoLoaded0 ∧
      lruTwoLoaded0.status = IN_MEMORY ∧ lruTwoLoaded0.modified = 1 ∧
      ((lruTwoLoaded0.status = IN_MEMORY →
        0 < loadStamp (history (initPageTable REPL_LRU 3 (initMemory 2) [])
          [⟨0, 'w', 1⟩, ⟨1, 'r', 2⟩]) 0 ∧
        (lruTwoLoaded0.modified = 1 → 0 < writeStamp [⟨0, 'w', 1⟩, ⟨1, 'r', 2⟩] 0) ∧
        (lruTwoLoaded0.modified = 1 ↔
          loadStamp (history (initPageTable REPL_LRU 3 (initMemory 2) [])
            [⟨0, 'w', 1⟩, ⟨1, 'r', 2⟩]) 0 ≤ writeStamp [⟨0, 'w', 1⟩, ⟨1, 'r', 2⟩] 0)) ∧
      (lruTwoLoaded0.status ≠ IN_MEMORY → lruTwoLoaded0.modified = 0)) :=
  ⟨rfl, rfl, rfl, rfl,
    dirty_bit_invariant REPL_LRU 3 (initMemory 2) [] [⟨0, 'w', 1⟩, ⟨1, 'r', 2⟩] lruTwoLoaded rfl
      0 lruTwoLoaded0 rfl⟩

/-! ## Timestamps -/

theorem accessed_accessTime (mode : Char) (time : Int) (x : PTE) :
    (accessed mode time x).accessTime = time := by
  simp only [accessed, setAccessTime]

theorem accessed_loadTime (mode : Char) (time : Int) (x : PTE) :
    (accessed mode time x).loadTime = x.loadTime := by
  simp only [accessed, setAccessTime]
  split
  · rfl
  · split <;> rfl

/-- One request on the timestamps of an entry `u`: an entry that becomes resident is the page
requested and gets the time of the request as `loadTime` and `accessTime`; an entry that stops
being resident gets `NONE` in both; an entry that is resident afterwards has the time of the
request as `accessTime` or was resident with the same `accessTime`. -/
theorem timestamps_step {s s' : State} {pno : Int} {mode : Char} {time r : Int}
    (hreq : requestPage s pno mode time = Except.ok (s', r))
    {u : Nat} {e e' : PTE} (he : s.PageTable[u]? = some e) (he' : s'.PageTable[u]? = some e') :
    (e.status ≠ IN_MEMORY → e'.status = IN_MEMORY →
      (u : Int) = pno ∧ e'.loadTime = time ∧ e'.accessTime = time) ∧
    (e.status = IN_MEMORY → e'.status ≠ IN_MEMORY →
      e'.accessTime = NONE ∧ e'.loadTime = NONE) ∧
    (e'.status = IN_MEMORY →
      ((u : Int) = pno ∧ e'.accessTime = time) ∨
      (e.status = IN_MEMORY ∧ e'.accessTime = e.accessTime)) := by
  obtain ⟨h0, _, _⟩ := requestPage_cases hreq
  obtain ⟨p, hp, ⟨e1, he1, hself⟩, hother, hvict⟩ := requestPage_data hreq
  by_cases hu : u = pno.toNat
  · have hcast : (u : Int) = pno := by omega
    subst hu
    have hee : e' = e1 := by
      have : some e' = some e1 := he'.symm.trans he1
      simpa using this
    have hpe : e = p := by
      have : some e = some p := he.symm.trans hp
      simpa using this
    subst hee hpe
    rcases hself with ⟨hm, hdat⟩ | ⟨hm, hdat⟩
    · obtain ⟨hst, _, _, hat, _⟩ := data_fields hdat
      rw [accessed_status] at hst
      rw [accessed_accessTime] at hat
      exact ⟨fun hc => absurd hm hc, fun _ hc => absurd (hst.trans hm) hc,
        fun _ => Or.inl ⟨hcast, hat⟩⟩
    · obtain ⟨hst, _, _, hat, hlt, _⟩ := data_fields hdat
      rw [accessed_status] at hst
      rw [accessed_accessTime] at hat
      rw [accessed_loadTime] at hlt
      have hin : e'.status = IN_MEMORY := hst
      have hl : e'.loadTime = time := hlt
      exact ⟨fun _ _ => ⟨hcast, hl, hat⟩, fun hc => absurd hc hm,
        fun _ => Or.inl ⟨hcast, hat⟩⟩
  · by_cases hev : resident s pno.toNat = false ∧ memoryFull s = true ∧ s.fifoQueue = some u
    · obtain ⟨v, ve, hv, hve, hreset⟩ := hvict hev.1 hev.2.1
      have hvu : v = u := by
        have : some v = some u := hv.symm.trans hev.2.2
        simpa using this
      subst hvu
      obtain ⟨e2, he2, hdat⟩ := hreset hu
      have hee : e' = e2 := by
        have : some e' = some e2 := he'.symm.trans he2
        simpa using this
      subst hee
      obtain ⟨hst, _, _, hat, hlt, _⟩ := data_fields hdat
      have hnot : e'.status ≠ IN_MEMORY := by
        rw [hst]
        simp only [resetVictim]
        decide
      exact ⟨fun _ hc => absurd hc hnot, fun _ _ => ⟨hat, hlt⟩, fun hc => absurd hc hnot⟩
    · have hsame := hother u hu (fun h1 h2 h3 => hev ⟨h1, h2, h3⟩)
      rw [he, he'] at hsame
      simp only [Option.map_some', Option.some.injEq] at hsame
      obtain ⟨hst, _, _, hat, _⟩ := data_fields hsame
      exact ⟨fun h1 h2 => absurd (hst.symm.trans h2) h1, fun h1 h2 => absurd (hst.trans h1) h2,
        fun h1 => Or.inr ⟨hst.symm.trans h1, hat⟩⟩

theorem runRequests_length (reqs : List Req) :
    ∀ (s s' : State), runRequests s reqs = Except.ok s' →
      s'.PageTable.length = s.PageTable.length := by
  induction reqs with
  | nil =>
    intro s s' hrun
    simp only [runRequests, Except.ok.injEq] at hrun
    rw [hrun]
  | cons r rest ih =>
    intro s s' hrun
    obtain ⟨s1, f, hreq, hrest⟩ := runRequests_cons_ok.mp hrun
    rw [ih s1 s' hrest, requestPage_length hreq]

/-- Over a run, the `accessTime` of an entry that is resident at the end is the time of one of the
requests of the run or the `accessTime` the entry had, resident, at the start. -/
theorem accessTime_run (reqs : List Req) :
    ∀ (s s' : State), runRequests s reqs = Except.ok s' →
      ∀ (u : Nat) (e' : PTE), s'.PageTable[u]? = some e' → e'.status = IN_MEMORY →
        (∃ r ∈ reqs, e'.accessTime = r.time) ∨
        (∃ e, s.PageTable[u]? = some e ∧ e.status = IN_MEMORY ∧ e'.accessTime = e.accessTime) := by
  induction reqs with
  | nil =>
    intro s s' hrun u e' he' hin
    simp only [runRequests, Except.ok.injEq] at hrun
    subst hrun
    exact Or.inr ⟨e', he', hin, rfl⟩
  | cons r rest ih =>
    intro s s' hrun u e' he' hin
    obtain ⟨s1, f, hreq, hrest⟩ := runRequests_cons_ok.mp hrun
    rcases ih s1 s' hrest u e' he' hin with ⟨r1, hr1, h1⟩ | ⟨e1, he1, hin1, h1⟩
    · exact Or.inl ⟨r1, List.mem_cons_of_mem _ hr1, h1⟩
    · have hlen := requestPage_length hreq
      have hlt : u < s.PageTable.length := by
        rw [← hlen]
        exact (List.getElem?_eq_some_iff.mp he1).1
      obtain ⟨e, he⟩ : ∃ e, s.PageTable[u]? = some e :=
        ⟨s.PageTable[u], List.getElem?_eq_getElem hlt⟩
      rcases (timestamps_step hreq he he1).2.2 hin1 with ⟨_, h2⟩ | ⟨h2, h3⟩
      · exact Or.inl ⟨r, List.mem_cons_self _ _, h1.trans h2⟩
      · exact Or.inr ⟨e, he, h2, h1.trans h3⟩

/-- C18, as the code has it: over requests that return and whose times do not decrease, the
`accessTime` of an entry does not decrease between any two states of the run in which the entry
is resident, in the same resident episode or in two of them (`si` is the state after the
requests `pre`, `sj` the state after the further requests `mid`). A request that evicts the
entry sets its `accessTime` and `loadTime` to `NONE = -1`, which is less than the `accessTime`
it had when that was not negative. Each time an entry goes from NOT_USED or ON_DISK (any status
other than IN_MEMORY) to IN_MEMORY it is the page requested and its `loadTime` and `accessTime`
are set to the time of that request. -/
theorem accessTime_monotone_while_resident (policy np : Int) (memory : List Int)
    (effects : List Effect) (pre mid : List Req) (si sj : State)
    (hpre : runRequests (initPageTable policy np memory effects) pre = Except.ok si)
    (hmid : runRequests si mid = Except.ok sj)
    (htime : ((pre ++ mid).map Req.time).Pairwise (fun a b => a ≤ b)) :
    (∀ (u : Nat) (ei ej : PTE), si.PageTable[u]? = some ei → ei.status = IN_MEMORY →
      sj.PageTable[u]? = some ej → ej.status = IN_MEMORY → ei.accessTime ≤ ej.accessTime) ∧
    (∀ (rq : Req) (s' : State) (r : Int),
      requestPage sj rq.pno rq.mode rq.time = Except.ok (s', r) →
      ∀ (u : Nat) (e e' : PTE), sj.PageTable[u]? = some e → s'.PageTable[u]? = some e' →
        (e.status ≠ IN_MEMORY → e'.status = IN_MEMORY →
          (u : Int) = rq.pno ∧ e'.loadTime = rq.time ∧ e'.accessTime = rq.time) ∧
        (e.status = IN_MEMORY → e'.status ≠ IN_MEMORY →
          e'.accessTime = NONE ∧ e'.loadTime = NONE ∧ NONE = -1 ∧
          (0 ≤ e.accessTime → e'.accessTime < e.accessTime))) := by
  refine ⟨?_, ?_⟩
  · intro u ei ej hei hini hej hinj
    have hfirst : ∃ r ∈ pre, ei.accessTime = r.time := by
      rcases accessTime_run pre _ si hpre u ei hei hini with h | ⟨e0, he0, hin0, _⟩
      · exact h
      · exfalso
        have hj : e0 = initPTE u := by
          simp only [initPageTable, List.getElem?_map] at he0
          cases h : (List.range np.toNat)[u]? with
          | none => rw [h] at he0; simp at he0
          | some k =>
            rw [h] at he0
            have hk := (List.getElem?_eq_some_iff.mp h).2
            simp only [List.getElem_range] at hk
            simp only [Option.map_some', Option.some.injEq] at he0
            rw [← he0, hk]
        subst hj
        simp only [initPTE] at hin0
        exact absurd hin0 (by decide)
    obtain ⟨r1, hr1, ha1⟩ := hfirst
    rcases accessTime_run mid si sj hmid u ej hej hinj with ⟨r2, hr2, ha2⟩ | ⟨e, he, _, ha2⟩
    · rw [ha1, ha2]
      rw [List.map_append, List.pairwise_append] at htime
      exact htime.2.2 _ (List.mem_map_of_mem _ hr1) _ (List.mem_map_of_mem _ hr2)
    · have hee : e = ei := by
        have : some e = some ei := he.symm.trans hei
        simpa using this
      subst hee
      rw [ha2]
  · intro rq s' r hreq u e e' he he'
    have h := timestamps_step hreq he he'
    refine ⟨h.1, fun h1 h2 => ?_⟩
    obtain ⟨ha, hl⟩ := h.2.1 h1 h2
    refine ⟨ha, hl, rfl, fun h0 => ?_⟩
    rw [ha]
    have : NONE = -1 := rfl
    omega

/-- Witness of C18 (as the code has it): in the FIFO scenario page 0 is resident after the second
request and again after the fourth, having been evicted by the third; its `accessTime` is 1 and
then 4. -/
theorem accessTime_monotone_while_resident_witness :
    runRequests (initPageTable REPL_FIFO 4 (initMemory 2) []) (fifoTrace.take 2) =
        Except.ok (fifoAfter 2) ∧
      runRequests (fifoAfter 2) (fifoTrace.drop 2) = Except.ok (fifoAfter 4) ∧
      ((fifoTrace.take 2 ++ fifoTrace.drop 2).map Req.time).Pairwise (fun a b => a ≤ b) ∧
      ((fifoAfter 2).PageTable[0]?).map PTE.accessTime = some 1 ∧
      ((fifoAfter 3).PageTable[0]?).map PTE.status = some ON_DISK ∧
      ((fifoAfter 4).PageTable[0]?).map PTE.accessTime = some 4 ∧
      ∀ ei ej : PTE, (fifoAfter 2).PageTable[0]? = some ei → ei.status = IN_MEMORY →
        (fifoAfter 4).PageTable[0]? = some ej → ej.status = IN_MEMORY →
        ei.accessTime ≤ ej.accessTime :=
  ⟨rfl, rfl, by decide, rfl, rfl, rfl,
    (accessTime_monotone_while_resident REPL_FIFO 4 (initMemory 2) [] (fifoTrace.take 2)
      (fifoTrace.drop 2) (fifoAfter 2) (fifoAfter 4) rfl rfl (by decide)).1 0⟩

/-! ## Frames -/

theorem accessed_frame (mode : Char) (time : Int) (x : PTE) :
    (accessed mode time x).frame = x.frame := by
  simp only [accessed, setAccessTime]
  split
  · rfl
  · split <;> rfl

/-- A frame returned by the scan is a frame of the memory that holds no page. -/
theorem findFreeFrameFrom_spec (m : List Int) :
    ∀ (i : Nat), findFreeFrameFrom m i ≠ NONE →
      ∃ k : Nat, findFreeFrameFrom m i = ((i + k : Nat) : Int) ∧ m[k]? = some NONE := by
  induction m with
  | nil => intro i h; exact absurd rfl h
  | cons w rest ih =>
    intro i h
    by_cases hw : w = NONE
    · refine ⟨0, ?_, ?_⟩
      · simp [findFreeFrameFrom, hw]
      · simp [hw]
    · simp only [findFreeFrameFrom, hw, if_false] at h ⊢
      obtain ⟨k, hk, hm⟩ := ih (i + 1) h
      refine ⟨k + 1, ?_, ?_⟩
      · rw [hk]
        congr 1
        omega
      · simpa using hm

/-- The scan returns `NONE` only when every frame holds a page. -/
theorem findFreeFrameFrom_none (m : List Int) :
    ∀ (i : Nat), findFreeFrameFrom m i = NONE → ∀ w ∈ m, w ≠ NONE := by
  induction m with
  | nil => intro i _ w hw; cases hw
  | cons x rest ih =>
    intro i h w hw
    by_cases hx : x = NONE
    · simp only [findFreeFrameFrom, hx, if_true] at h
      have : (i : Int) = -1 := h
      omega
    · simp only [findFreeFrameFrom, hx, if_false] at h
      rcases List.mem_cons.mp hw with rfl | hmem
      · exact hx
      · exact ih (i + 1) h w hmem

/-- The memory after a request that returns: unchanged by a hit; after a fault the frame
returned, which is the free frame found or else the frame of the queue head, holds the page. -/
theorem requestPage_memory {s s' : State} {pno : Int} {mode : Char} {time r : Int}
    (hreq : requestPage s pno mode time = Except.ok (s', r)) :
    ∃ p, s.PageTable[pno.toNat]? = some p ∧
      ((p.status = IN_MEMORY ∧ s'.memory = s.memory) ∨
       (p.status ≠ IN_MEMORY ∧
        s'.memory = (if 0 ≤ r then s.memory.set r.toNat ((pno.toNat : Nat) : Int)
          else s.memory) ∧
        ((findFreeFrameFrom s.memory 0 ≠ NONE ∧ r = findFreeFrameFrom s.memory 0) ∨
         (findFreeFrameFrom s.memory 0 = NONE ∧
           ∃ v ve, s.fifoQueue = some v ∧ s.PageTable[v]? = some ve ∧ r = ve.frame)))) := by
  obtain ⟨_, _, p, hp, hc⟩ := requestPage_cases hreq
  refine ⟨p, hp, ?_⟩
  rcases hc with ⟨hm, _, _, rfl⟩ | ⟨hm, _, n, _, _, _, _, _, _, rfl⟩ | ⟨hf, hfree, _, rfl, rfl⟩ |
    ⟨hf, hfull, v, ve, hv, hve, _, _, rfl, rfl⟩
  · exact Or.inl ⟨hm, rfl⟩
  · exact Or.inl ⟨hm, rfl⟩
  · exact Or.inr ⟨not_IN_MEMORY hf, rfl, Or.inl ⟨hfree, rfl⟩⟩
  · exact Or.inr ⟨not_IN_MEMORY hf, rfl, Or.inr ⟨hfull, v, ve, hv, hve, rfl⟩⟩

/-- In a state of the invariant the queue head is resident. -/
theorem Inv_head_resident {s : State} {h : List (Nat × Bool)} (hinv : Inv s h) {v : Nat}
    {ve : PTE} (hv : s.fifoQueue = some v) (hve : s.PageTable[v]? = some ve) :
    ve.status = IN_MEMORY := by
  rcases hinv with hbr | ⟨q, hwf, _, _⟩
  · rw [hbr.1] at hv
    cases hv
  · have hh := WF_head hwf
    rw [hv] at hh
    cases q with
    | nil => cases hh
    | cons a rest =>
      simp only [List.head?_cons, Option.some.injEq] at hh
      subst hh
      exact (hwf.mem v ve hve).mpr (List.mem_cons_self _ _)

/-- What a fault needs of the frame it is given: it is a frame of the memory, and no page
resident before holds it, the victim apart. -/
theorem fault_frame {s s' : State} {h : List (Nat × Bool)} {pno : Int} {mode : Char}
    {time r : Int} (hinv : Inv s h) (hm : MemOK s)
    (hreq : requestPage s pno mode time = Except.ok (s', r))
    (hfault : resident s pno.toNat = false) :
    0 ≤ r ∧ r.toNat < s.memory.length ∧
    s'.memory = s.memory.set r.toNat ((pno.toNat : Nat) : Int) ∧
    ∀ (j : Nat) (e : PTE), s.PageTable[j]? = some e → e.status = IN_MEMORY →
      (memoryFull s = true → s.fifoQueue ≠ some j) → e.frame.toNat ≠ r.toNat := by
  obtain ⟨p, hp, hc⟩ := requestPage_memory hreq
  have hnot : p.status ≠ IN_MEMORY := (resident_eq_false hp).mp hfault
  rcases hc with ⟨hin, _⟩ | ⟨_, hmem, hc⟩
  · exact absurd hin hnot
  rcases hc with ⟨hfree, hr⟩ | ⟨hfull, v, ve, hv, hve, hr⟩
  · obtain ⟨k, hk, hmk⟩ := findFreeFrameFrom_spec s.memory 0 hfree
    have hr0 : r = (k : Int) := by
      rw [hr, hk]
      simp
    have hpos : 0 ≤ r := by omega
    have hrk : r.toNat = k := by omega
    refine ⟨hpos, ?_, ?_, ?_⟩
    · rw [hrk]
      exact (List.getElem?_eq_some_iff.mp hmk).1
    · rw [hmem, if_pos hpos]
    · intro j e he hin _ hc
      obtain ⟨_, hj⟩ := hm j e he hin
      rw [hc, hrk, hmk] at hj
      have : NONE = (j : Int) := by simpa using hj
      simp only [NONE] at this
      omega
  · have hvin := Inv_head_resident hinv hv hve
    obtain ⟨hpos, hmv⟩ := hm v ve hve hvin
    rw [← hr] at hpos hmv
    have hNONE : memoryFull s = true := by simp [memoryFull, findFreeFrame, hfull]
    refine ⟨hpos, (List.getElem?_eq_some_iff.mp hmv).1, ?_, ?_⟩
    · rw [hmem, if_pos hpos]
    · intro j e he hin hjv hc
      obtain ⟨_, hj⟩ := hm j e he hin
      rw [hc, hmv] at hj
      have : (v : Int) = (j : Int) := by simpa using hj
      have hvj : v = j := by omega
      exact hjv hNONE (hvj ▸ hv)

/-- The entry of a page other than the requested one, after a request that returns: reset when
the page is the victim of the request, with the same data otherwise. -/
theorem other_entry {s s' : State} {pno : Int} {mode : Char} {time r : Int}
    (hreq : requestPage s pno mode time = Except.ok (s', r))
    {j : Nat} (hj : j ≠ pno.toNat) {e' : PTE} (he' : s'.PageTable[j]? = some e') :
    (resident s pno.toNat = false ∧ memoryFull s = true ∧ s.fifoQueue = some j ∧
      e'.status ≠ IN_MEMORY) ∨
    (¬ (resident s pno.toNat = false ∧ memoryFull s = true ∧ s.fifoQueue = some j) ∧
      ∃ e, s.PageTable[j]? = some e ∧ data e' = data e) := by
  obtain ⟨p, hp, _, hother, hvict⟩ := requestPage_data hreq
  by_cases hev : resident s pno.toNat = false ∧ memoryFull s = true ∧ s.fifoQueue = some j
  · left
    obtain ⟨v, ve, hv, hve, hreset⟩ := hvict hev.1 hev.2.1
    have hvu : v = j := by
      have : some v = some j := hv.symm.trans hev.2.2
      simpa using this
    subst hvu
    obtain ⟨e2, he2, hdat⟩ := hreset hj
    have hee : e' = e2 := by
      have : some e' = some e2 := he'.symm.trans he2
      simpa using this
    subst hee
    obtain ⟨hst, _⟩ := data_fields hdat
    refine ⟨hev.1, hev.2.1, hev.2.2, ?_⟩
    rw [hst]
    simp only [resetVictim]
    decide
  · right
    refine ⟨hev, ?_⟩
    have hsame := hother j hj (fun h1 h2 h3 => hev ⟨h1, h2, h3⟩)
    rw [he'] at hsame
    cases hx : s.PageTable[j]? with
    | none => rw [hx] at hsame; simp at hsame
    | some e0 =>
      rw [hx] at hsame
      simp only [Option.map_some', Option.some.injEq] at hsame
      exact ⟨e0, rfl, hsame⟩

/-- The invariant `MemOK` is kept by every request that returns from a state of `Inv`. -/
theorem MemOK_requestPage {s s' : State} {h : List (Nat × Bool)} {pno : Int} {mode : Char}
    {time r : Int} (hinv : Inv s h) (hm : MemOK s)
    (hreq : requestPage s pno mode time = Except.ok (s', r)) : MemOK s' := by
  obtain ⟨h0, _, _⟩ := requestPage_cases hreq
  obtain ⟨p, hp, ⟨e1, he1, hself⟩, _, _⟩ := requestPage_data hreq
  obtain ⟨p2, hp2, hmem⟩ := requestPage_memory hreq
  have hpp : p2 = p := by
    have : some p2 = some p := hp2.symm.trans hp
    simpa using this
  subst hpp
  intro i e' he' hin'
  by_cases hi : i = pno.toNat
  · subst hi
    have hee : e' = e1 := by
      have : some e' = some e1 := he'.symm.trans he1
      simpa using this
    subst hee
    rcases hself with ⟨hin, hdat⟩ | ⟨hnot, hdat⟩
    · obtain ⟨_, _, hfr, _⟩ := data_fields hdat
      rw [accessed_frame] at hfr
      rcases hmem with ⟨_, hmm⟩ | ⟨hc, _⟩
      · rw [hfr, hmm]
        exact hm _ p2 hp hin
      · exact absurd hin hc
    · obtain ⟨_, _, hfr, _⟩ := data_fields hdat
      rw [accessed_frame] at hfr
      have hfr2 : e'.frame = r := hfr
      obtain ⟨hpos, hlt, hmm, _⟩ :=
        fault_frame hinv hm hreq ((resident_eq_false hp).mpr hnot)
      rw [hfr2, hmm]
      exact ⟨hpos, by simp [List.getElem?_set, hlt]⟩
  · rcases other_entry hreq hi he' with ⟨_, _, _, hc⟩ | ⟨hev, e, he, hdat⟩
    · exact absurd hin' hc
    · obtain ⟨hst, _, hfr, _⟩ := data_fields hdat
      have hin : e.status = IN_MEMORY := hst.symm.trans hin'
      obtain ⟨hpos, hj⟩ := hm i e he hin
      rw [hfr]
      refine ⟨hpos, ?_⟩
      rcases hmem with ⟨_, hmm⟩ | ⟨hnot, _⟩
      · rw [hmm]
        exact hj
      · have hres : resident s pno.toNat = false := (resident_eq_false hp).mpr hnot
        obtain ⟨_, _, hmm, hne⟩ := fault_frame hinv hm hreq hres
        have := hne i e he hin (fun h2 h3 => hev ⟨hres, h2, h3⟩)
        rw [hmm, List.getElem?_set_ne (Ne.symm this)]
        exact hj

theorem MemOK_runRequests (reqs : List Req) :
    ∀ (s s' : State) (h : List (Nat × Bool)), Inv s h → MemOK s →
      runRequests s reqs = Except.ok s' → MemOK s' := by
  induction reqs with
  | nil =>
    intro s s' h _ hm hrun
    simp only [runRequests, Except.ok.injEq] at hrun
    exact hrun ▸ hm
  | cons r rest ih =>
    intro s s' h hinv hm hrun
    obtain ⟨s1, f, hreq, hrest⟩ := runRequests_cons_ok.mp hrun
    exact ih s1 s' _ (Inv_requestPage hinv hreq) (MemOK_requestPage hinv hm hreq) hrest

theorem init_entry {policy np : Int} {memory : List Int} {effects : List Effect} {i : Nat}
    {e : PTE} (he : (initPageTable policy np memory effects).PageTable[i]? = some e) :
    e = initPTE i := by
  simp only [initPageTable, List.getElem?_map] at he
  cases h : (List.range np.toNat)[i]? with
  | none => rw [h] at he; simp at he
  | some j =>
    rw [h] at he
    have hj := (List.getElem?_eq_some_iff.mp h).2
    simp only [List.getElem_range] at hj
    simp only [Option.map_some', Option.some.injEq] at he
    rw [← he, hj]

theorem MemOK_init (policy np : Int) (memory : List Int) (effects : List Effect) :
    MemOK (initPageTable policy np memory effects) := by
  intro i e he hin
  rw [init_entry he] at hin
  simp only [initPTE] at hin
  exact absurd hin (by decide)

/-- C12: frame uniqueness. In a state reached from `initPageTable` by requests that returned,
over any memory, two entries of status IN_MEMORY with the same `frame` are the same entry, and
the `frame` of an entry of status IN_MEMORY is not `NONE`: it is a frame of the memory, which
holds this page. -/
theorem frame_uniqueness (policy np : Int) (memory : List Int) (effects : List Effect)
    (reqs : List Req) (s : State)
    (hrun : runRequests (initPageTable policy np memory effects) reqs = Except.ok s) :
    (∀ (i j : Nat) (ei ej : PTE), s.PageTable[i]? = some ei → s.PageTable[j]? = some ej →
      ei.status = IN_MEMORY → ej.status = IN_MEMORY → ei.frame = ej.frame → i = j) ∧
    (∀ (i : Nat) (e : PTE), s.PageTable[i]? = some e → e.status = IN_MEMORY →
      e.frame ≠ NONE ∧ 0 ≤ e.frame ∧ s.memory[e.frame.toNat]? = some (i : Int)) := by
  have hm : MemOK s :=
    MemOK_runRequests reqs _ s [] (Inv_init policy np memory effects)
      (MemOK_init policy np memory effects) hrun
  refine ⟨?_, ?_⟩
  · intro i j ei ej hi hj hini hinj hfr
    obtain ⟨_, h1⟩ := hm i ei hi hini
    obtain ⟨_, h2⟩ := hm j ej hj hinj
    rw [hfr, h2] at h1
    have : (j : Int) = (i : Int) := by simpa using h1
    omega
  · intro i e he hin
    obtain ⟨hpos, hmem⟩ := hm i e he hin
    refine ⟨?_, hpos, hmem⟩
    intro hc
    rw [hc] at hpos
    exact absurd hpos (by decide)

/-- Witness of C12: the state after the FIFO scenario, in which pages 2 and 0 are resident, in
the frames 0 and 1. -/
theorem frame_uniqueness_witness :
    runRequests (initPageTable REPL_FIFO 4 (initMemory 2) []) fifoTrace =
        Except.ok (fifoAfter 4) ∧
      (fifoAfter 4).PageTable.map (fun e => (e.status, e.frame)) =
        [(IN_MEMORY, 1), (ON_DISK, NONE), (IN_MEMORY, 0), (NOT_USED, NONE)] ∧
      (∀ (i j : Nat) (ei ej : PTE), (fifoAfter 4).PageTable[i]? = some ei →
        (fifoAfter 4).PageTable[j]? = some ej →
        ei.status = IN_MEMORY → ej.status = IN_MEMORY → ei.frame = ej.frame → i = j) ∧
      (∀ (i : Nat) (e : PTE), (fifoAfter 4).PageTable[i]? = some e → e.status = IN_MEMORY →
        e.frame ≠ NONE ∧ 0 ≤ e.frame ∧ (fifoAfter 4).memory[e.frame.toNat]? = some (i : Int)) :=
  ⟨rfl, rfl, frame_uniqueness REPL_FIFO 4 (initMemory 2) [] fifoTrace (fifoAfter 4) rfl⟩

/-! ## The queue with two frames or more -/

/-- The invariant `Occ` is kept by every request that returns from a state of `Inv` and
`MemOK`. -/
theorem Occ_requestPage {s s' : State} {h : List (Nat × Bool)} {pno : Int} {mode : Char}
    {time r : Int} (hinv : Inv s h) (hm : MemOK s) (ho : Occ s)
    (hreq : requestPage s pno mode time = Except.ok (s', r)) : Occ s' := by
  obtain ⟨h0, _, _⟩ := requestPage_cases hreq
  obtain ⟨p, hp, ⟨e1, he1, hself⟩, _, _⟩ := requestPage_data hreq
  obtain ⟨p2, hp2, hmem⟩ := requestPage_memory hreq
  have hlen := requestPage_length hreq
  have hpp : p2 = p := by
    have : some p2 = some p := hp2.symm.trans hp
    simpa using this
  subst hpp
  -- an entry resident before, other than the victim, is resident after, in the same frame
  have hkeep : ∀ (i : Nat) (e : PTE), s.PageTable[i]? = some e → e.status = IN_MEMORY →
      ¬ (resident s pno.toNat = false ∧ memoryFull s = true ∧ s.fifoQueue = some i) →
      ∃ e', s'.PageTable[i]? = some e' ∧ e'.status = IN_MEMORY ∧ e'.frame = e.frame := by
    intro i e he hin hnv
    by_cases hi : i = pno.toNat
    · subst hi
      have hee : e = p2 := by
        have : some e = some p2 := he.symm.trans hp
        simpa using this
      subst hee
      rcases hself with ⟨_, hdat⟩ | ⟨hnot, _⟩
      · obtain ⟨hst, _, hfr, _⟩ := data_fields hdat
        rw [accessed_status] at hst
        rw [accessed_frame] at hfr
        exact ⟨e1, he1, hst.trans hin, hfr⟩
      · exact absurd hin hnot
    · have hlt : i < s'.PageTable.length := by
        rw [hlen]
        exact (List.getElem?_eq_some_iff.mp he).1
      have he' : s'.PageTable[i]? = some s'.PageTable[i] := List.getElem?_eq_getElem hlt
      rcases other_entry hreq hi he' with ⟨h1, h2, h3, _⟩ | ⟨_, e0, he0, hdat⟩
      · exact absurd ⟨h1, h2, h3⟩ hnv
      · have hee : e0 = e := by
          have : some e0 = some e := he0.symm.trans he
          simpa using this
        subst hee
        obtain ⟨hst, _, hfr, _⟩ := data_fields hdat
        exact ⟨_, he', hst.trans hin, hfr⟩
  intro k w hk hw
  rcases hmem with ⟨hin, hmm⟩ | ⟨hnot, _, hwhich⟩
  · rw [hmm] at hk
    obtain ⟨i, e, hwi, he, hine, hfr⟩ := ho k w hk hw
    have hres : resident s pno.toNat = true := (resident_eq_true hp).mpr hin
    obtain ⟨e', he', hin', hfr'⟩ := hkeep i e he hine (by rw [hres]; simp)
    exact ⟨i, e', hwi, he', hin', hfr'.trans hfr⟩
  · have hres : resident s pno.toNat = false := (resident_eq_false hp).mpr hnot
    obtain ⟨hpos, hlt, hmm, _⟩ := fault_frame hinv hm hreq hres
    rw [hmm] at hk
    by_cases hkr : r.toNat = k
    · subst hkr
      have hwp : w = ((pno.toNat : Nat) : Int) := by
        simp only [List.getElem?_set, if_true, if_pos hlt, Option.some.injEq] at hk
        exact hk.symm
      rcases hself with ⟨hin, _⟩ | ⟨_, hdat⟩
      · exact absurd hin hnot
      · obtain ⟨hst, _, hfr, _⟩ := data_fields hdat
        rw [accessed_status] at hst
        rw [accessed_frame] at hfr
        have hfr2 : e1.frame = r := hfr
        refine ⟨pno.toNat, e1, hwp, he1, hst, ?_⟩
        rw [hfr2]
        omega
    · rw [List.getElem?_set_ne hkr] at hk
      obtain ⟨i, e, hwi, he, hine, hfr⟩ := ho k w hk hw
      have hnv : ¬ (resident s pno.toNat = false ∧ memoryFull s = true ∧
          s.fifoQueue = some i) := by
        rintro ⟨_, hfull, hq⟩
        rcases hwhich with ⟨hfree, _⟩ | ⟨_, v, ve, hv, hve, hr⟩
        · simp [memoryFull, findFreeFrame] at hfull
          exact hfree hfull
        · have hvi : v = i := by
            have : some v = some i := hv.symm.trans hq
            simpa using this
          subst hvi
          have hee : ve = e := by
            have : some ve = some e := hve.symm.trans he
            simpa using this
          subst hee
          rw [hr, hfr] at hkr
          simp at hkr
      obtain ⟨e', he', hin', hfr'⟩ := hkeep i e he hine hnv
      exact ⟨i, e', hwi, he', hin', hfr'.trans hfr⟩

/-- When every frame holds a page and there are two frames at least, two pages are resident. -/
theorem two_resident {s : State} (ho : Occ s) (hfull : memoryFull s = true)
    (h2 : 2 ≤ s.memory.length) :
    ∃ (i j : Nat) (ei ej : PTE), i ≠ j ∧ s.PageTable[i]? = some ei ∧ ei.status = IN_MEMORY ∧
      s.PageTable[j]? = some ej ∧ ej.status = IN_MEMORY := by
  have hnone : findFreeFrameFrom s.memory 0 = NONE := by
    simpa [memoryFull, findFreeFrame] using hfull
  have hall := findFreeFrameFrom_none s.memory 0 hnone
  have h0 : (0 : Nat) < s.memory.length := by omega
  have h1 : (1 : Nat) < s.memory.length := by omega
  obtain ⟨i, ei, _, hi, hini, hfi⟩ := ho 0 _ (List.getElem?_eq_getElem h0)
    (hall _ (List.getElem_mem h0))
  obtain ⟨j, ej, _, hj, hinj, hfj⟩ := ho 1 _ (List.getElem?_eq_getElem h1)
    (hall _ (List.getElem_mem h1))
  refine ⟨i, j, ei, ej, ?_, hi, hini, hj, hinj⟩
  intro hij
  subst hij
  have hee : ei = ej := by
    have : some ei = some ej := hi.symm.trans hj
    simpa using this
  subst hee
  rw [hfi] at hfj
  simp at hfj

theorem length_of_two_mem {q : List Nat} {i j : Nat} (hij : i ≠ j) (hi : i ∈ q) (hj : j ∈ q) :
    2 ≤ q.length := by
  cases q with
  | nil => cases hi
  | cons a rest =>
    cases rest with
    | nil =>
      simp only [List.mem_singleton] at hi hj
      exact absurd (hi.trans hj.symm) hij
    | cons b rest => simp

/-- With two frames or more, a request that returns from a state with a well-formed queue does
not leave the state in which the head is `NULL` and `fifoLast` names an entry. -/
theorem not_Broken_requestPage {s s' : State} {q : List Nat} {pno : Int} {mode : Char}
    {time r : Int} (hwf : WF s q) (ho : Occ s) (h2 : 2 ≤ s.memory.length)
    (hreq : requestPage s pno mode time = Except.ok (s', r)) : ¬ Broken s' := by
  obtain ⟨h0, _, p, hp, hc⟩ := requestPage_cases hreq
  have hhead := WF_head hwf
  have hqne : 0 ≤ s.fifoLast → s.fifoQueue ≠ none := by
    intro hl hq
    rw [hhead] at hq
    cases q with
    | nil =>
      have := hwf.last
      simp only [tailIndex, List.getLast?_nil] at this
      omega
    | cons a rest => simp at hq
  rcases hc with ⟨_, _, _, rfl⟩ | ⟨hin, _, n, _, _, _, _, _, _, rfl⟩ | ⟨_, _, _, _, rfl⟩ |
    ⟨hf, hfull, v, ve, hv, hve, _, _, _, rfl⟩
  · intro hb
    exact hqne hb.2 hb.1
  · intro hb
    have hq : (if s.fifoQueue = some pno.toNat then
        (if s.fifoLast.toNat = pno.toNat then some pno.toNat else some n)
        else s.fifoQueue) = none := hb.1
    have hmem : pno.toNat ∈ q := (hwf.mem _ p hp).mp hin
    split at hq
    · split at hq <;> cases hq
    · rw [hhead] at hq
      cases q with
      | nil => cases hmem
      | cons a rest => simp at hq
  · intro hb
    have hq : (if 0 ≤ s.fifoLast then s.fifoQueue else some pno.toNat) = none := hb.1
    split at hq
    · rename_i hl
      exact hqne hl hq
    · cases hq
  · intro hb
    have hq : (if 0 ≤ s.fifoLast then ve.next else some pno.toNat) = none := hb.1
    have hfull2 : memoryFull s = true := by simp [memoryFull, hfull]
    obtain ⟨i, j, ei, ej, hij, hi, hini, hj, hinj⟩ := two_resident ho hfull2 h2
    have hlen := length_of_two_mem hij ((hwf.mem i ei hi).mp hini) ((hwf.mem j ej hj).mp hinj)
    split at hq
    · cases q with
      | nil => simp at hlen
      | cons a rest =>
        cases rest with
        | nil => simp at hlen
        | cons b rest =>
          obtain ⟨ha, e, he, _, hseg⟩ := hwf.seg
          have hav : a = v := by
            have : some v = some a := hv.symm.trans ha
            simpa using this.symm
          subst hav
          have hee : e = ve := by
            have : some e = some ve := he.symm.trans hve
            simpa using this
          subst hee
          have hnext : e.next = some b := hseg.1
          rw [hnext] at hq
          cases hq
    · cases hq

/-- The invariant of the runs over two frames or more. -/
theorem frames_runRequests (reqs : List Req) :
    ∀ (s s' : State) (h : List (Nat × Bool)), Inv s h → ¬ Broken s → MemOK s → Occ s →
      2 ≤ s.memory.length → runRequests s reqs = Except.ok s' →
      (∃ q, WF s' q) ∧ Occ s' ∧ 2 ≤ s'.memory.length := by
  induction reqs with
  | nil =>
    intro s s' h hinv hnb _ ho h2 hrun
    simp only [runRequests, Except.ok.injEq] at hrun
    subst hrun
    rcases hinv with hb | ⟨q, hwf, _⟩
    · exact absurd hb hnb
    · exact ⟨⟨q, hwf⟩, ho, h2⟩
  | cons r rest ih =>
    intro s s' h hinv hnb hm ho h2 hrun
    obtain ⟨s1, f, hreq, hrest⟩ := runRequests_cons_ok.mp hrun
    have hwf : ∃ q, WF s q := by
      rcases hinv with hb | ⟨q, hwf, _⟩
      · exact absurd hb hnb
      · exact ⟨q, hwf⟩
    obtain ⟨q, hwf⟩ := hwf
    have hlen : 2 ≤ s1.memory.length := by
      obtain ⟨_, _, hmem⟩ := requestPage_memory hreq
      rcases hmem with ⟨_, hmm⟩ | ⟨_, hmm, _⟩
      · rw [hmm]
        exact h2
      · rw [hmm]
        split <;> simp [h2]
    exact ih s1 s' _ (Inv_requestPage hinv hreq) (not_Broken_requestPage hwf ho h2 hreq)
      (MemOK_requestPage hinv hm hreq) (Occ_requestPage hinv hm ho hreq) hlen hrest

/-- The links of a segment: the first entry is the one pointed to and has the given `prev`, two
neighbours point to each other, and the last entry has the given `next`. -/
theorem Seg_links {t : List PTE} {q : List Nat} :
    ∀ {b c d : Option Nat}, Seg t b c q d →
      (∀ a, q.head? = some a → c = some a ∧ ∃ e, t[a]? = some e ∧ e.prev = b) ∧
      (∀ (k x y : Nat), q[k]? = some x → q[k + 1]? = some y →
        ∃ ex ey, t[x]? = some ex ∧ t[y]? = some ey ∧ ex.next = some y ∧ ey.prev = some x) ∧
      (∀ l, q.getLast? = some l → ∃ e, t[l]? = some e ∧ e.next = d) := by
  induction q with
  | nil =>
    intro b c d _
    refine ⟨?_, ?_, ?_⟩
    · intro a ha; cases ha
    · intro k x y hx; simp at hx
    · intro l hl; cases hl
  | cons a q ih =>
    intro b c d hs
    obtain ⟨hc, e, he, hprev, hrest⟩ := hs
    obtain ⟨ih1, ih2, ih3⟩ := ih hrest
    refine ⟨?_, ?_, ?_⟩
    · intro a1 ha1
      simp only [List.head?_cons, Option.some.injEq] at ha1
      subst ha1
      exact ⟨hc, e, he, hprev⟩
    · intro k x y hx hy
      cases k with
      | zero =>
        simp only [List.getElem?_cons_zero, Option.some.injEq] at hx
        subst hx
        simp only [zero_add, List.getElem?_cons_succ] at hy
        have hh : q.head? = some y := by
          cases q with
          | nil => simp at hy
          | cons z q => simpa using hy
        obtain ⟨hn, ey, hey, hp⟩ := ih1 y hh
        exact ⟨e, ey, he, hey, hn, hp⟩
      | succ k =>
        simp only [List.getElem?_cons_succ] at hx hy
        exact ih2 k x y hx hy
    · intro l hl
      cases q with
      | nil =>
        simp only [List.getLast?_singleton, Option.some.injEq] at hl
        subst hl
        exact ⟨e, he, hrest⟩
      | cons z q =>
        rw [List.getLast?_cons_cons] at hl
        exact ih3 l hl

theorem Occ_init (policy np : Int) (F : Nat) (effects : List Effect) :
    Occ (initPageTable policy np (initMemory F) effects) := by
  intro k w hk hw
  obtain ⟨hlt, hget⟩ := List.getElem?_eq_some_iff.mp hk
  have hmem : w ∈ List.replicate F NONE := hget ▸ List.getElem_mem hlt
  exact absurd (List.eq_of_mem_replicate hmem) hw

/-- C19: the queue with two frames or more. In a state reached from `initPageTable`, over a
memory of `F ≥ 2` frames that hold no page at first, by requests that returned, under any
policy: the entries met from `fifoQueue` by following `next` (the list `queue s`) are the
entries of status IN_MEMORY, each once; the walk ends at `PageTable[fifoLast]`, whose `next` is
NULL (`fifoLast` is `-1` when the queue is empty); the `prev` of the head is NULL and the `prev`
of every other entry of the queue is the entry before it; and when every frame holds a page
`fifoQueue` is not NULL, the queue having two entries at least. -/
theorem queue_well_formed_two_frames (policy np : Int) (F : Nat) (hF : 2 ≤ F)
    (effects : List Effect) (reqs : List Req) (s : State)
    (hrun : runRequests (initPageTable policy np (initMemory F) effects) reqs = Except.ok s) :
    WF s (queue s) ∧ (queue s).Nodup ∧
    (∀ (i : Nat) (e : PTE), s.PageTable[i]? = some e → (e.status = IN_MEMORY ↔ i ∈ queue s)) ∧
    s.fifoQueue = (queue s).head? ∧ s.fifoLast = tailIndex (queue s) ∧
    (∀ l, (queue s).getLast? = some l →
      s.fifoLast = (l : Int) ∧ ∃ e, s.PageTable[l]? = some e ∧ e.next = none) ∧
    (∀ a, (queue s).head? = some a → ∃ e, s.PageTable[a]? = some e ∧ e.prev = none) ∧
    (∀ (k x y : Nat), (queue s)[k]? = some x → (queue s)[k + 1]? = some y →
      ∃ ex ey, s.PageTable[x]? = some ex ∧ s.PageTable[y]? = some ey ∧
        ex.next = some y ∧ ey.prev = some x) ∧
    (memoryFull s = true → s.fifoQueue ≠ none ∧ 2 ≤ (queue s).length) := by
  have hnb : ¬ Broken (initPageTable policy np (initMemory F) effects) := by
    intro hb
    have : (0 : Int) ≤ -1 := hb.2
    omega
  have hlen : 2 ≤ (initPageTable policy np (initMemory F) effects).memory.length := by
    show 2 ≤ (initMemory F).length
    simp [initMemory, hF]
  obtain ⟨⟨q, hwf⟩, ho, h2⟩ := frames_runRequests reqs _ s [] (Inv_init _ _ _ _) hnb
    (MemOK_init _ _ _ _) (Occ_init policy np F effects) hlen hrun
  have hq := WF_queue hwf
  rw [hq]
  obtain ⟨l1, l2, l3⟩ := Seg_links hwf.seg
  refine ⟨hwf, hwf.nodup, hwf.mem, WF_head hwf, hwf.last, ?_, ?_, l2, ?_⟩
  · intro l hl
    refine ⟨?_, l3 l hl⟩
    rw [hwf.last]
    simp only [tailIndex, hl]
  · intro a ha
    exact (l1 a ha).2
  · intro hfull
    obtain ⟨i, j, ei, ej, hij, hi, hini, hj, hinj⟩ := two_resident ho hfull h2
    have hlen2 := length_of_two_mem hij ((hwf.mem i ei hi).mp hini) ((hwf.mem j ej hj).mp hinj)
    refine ⟨?_, hlen2⟩
    rw [WF_head hwf]
    cases q with
    | nil => simp at hlen2
    | cons a rest => simp

/-- Witness of C19: the state after the scenario under LRU with two frames; the queue is
`[2, 0]`, every frame holds a page and the head is not NULL. -/
theorem queue_well_formed_two_frames_witness :
    2 ≤ 2 ∧
      runRequests (initPageTable REPL_LRU 4 (initMemory 2) []) fifoTrace =
        Except.ok (lruAfter 4) ∧
      queue (lruAfter 4) = [2, 0] ∧ memoryFull (lruAfter 4) = true ∧
      WF (lruAfter 4) (queue (lruAfter 4)) ∧
      (lruAfter 4).fifoLast = tailIndex (queue (lruAfter 4)) ∧
      (lruAfter 4).fifoQueue ≠ none ∧ 2 ≤ (queue (lruAfter 4)).length :=
  have h := queue_well_formed_two_frames REPL_LRU 4 2 (by decide) [] fifoTrace (lruAfter 4) rfl
  ⟨by decide, rfl, rfl, rfl, h.1, h.2.2.2.2.1, h.2.2.2.2.2.2.2.2 rfl⟩

/-! ## The two policies on traces whose hits are on the tail -/

theorem accessed_next (mode : Char) (time : Int) (x : PTE) :
    (accessed mode time x).next = x.next := by
  simp only [accessed, setAccessTime]
  split
  · rfl
  · split <;> rfl

/-- The next link and the status of an entry are those before `recordAccess`. -/
theorem recorded_entry {x : State} {j : Nat} {e : PTE} (pno : Nat) (mode : Char) (time : Int)
    (he : x.PageTable[j]? = some e) :
    ∃ e1, (recorded x pno mode time).PageTable[j]? = some e1 ∧ e1.next = e.next ∧
      e1.status = e.status := by
  simp only [recorded, upd_get, he]
  by_cases hj : j = pno
  · simp only [hj, if_true, Option.map_some']
    exact ⟨_, rfl, accessed_next _ _ _, accessed_status _ _ _⟩
  · simp only [hj, if_false]
    exact ⟨e, rfl, rfl, rfl⟩

/-- The invariant `TailOK` is kept by every request that returns. -/
theorem TailOK_requestPage {s s' : State} {pno : Int} {mode : Char} {time r : Int}
    (ht : TailOK s) (hreq : requestPage s pno mode time = Except.ok (s', r)) : TailOK s' := by
  obtain ⟨h0, _, p, hp, hc⟩ := requestPage_cases hreq
  have hlt : pno.toNat < s.PageTable.length := (List.getElem?_eq_some_iff.mp hp).1
  have hcast : (((pno.toNat : Nat) : Int)).toNat = pno.toNat := Int.toNat_natCast _
  have hne : ¬ p.status = IN_MEMORY → 0 ≤ s.fifoLast → s.fifoLast.toNat ≠ pno.toNat := by
    intro hnot hl hc
    obtain ⟨e, he, _, hin⟩ := ht hl
    rw [hc, hp] at he
    have : p = e := by simpa using he
    exact hnot (this ▸ hin)
  have hnew : ∀ (x : State) (fno : Int), x.PageTable.length = s.PageTable.length →
      x.fifoLast = s.fifoLast → ¬ p.status = IN_MEMORY →
      TailOK (recorded (loaded x pno.toNat fno time) pno.toNat mode time) := by
    intro x fno hxl hxf hnot _
    have hx : pno.toNat < x.PageTable.length := by rw [hxl]; exact hlt
    have hget := loaded_get_new (s := x) fno time (List.getElem?_eq_getElem hx)
      (by rw [hxf]; exact hne hnot)
    obtain ⟨e1, he1, hn1, hs1⟩ := recorded_entry pno.toNat mode time hget
    refine ⟨e1, ?_, ?_, ?_⟩
    · show (recorded (loaded x pno.toNat fno time) pno.toNat mode time).PageTable[
        (((pno.toNat : Nat) : Int)).toNat]? = some e1
      rw [hcast]
      exact he1
    · rw [hn1]
      split <;> rfl
    · rw [hs1]
      split <;> rfl
  rcases hc with ⟨_, _, _, rfl⟩ | ⟨hin, _, n, _, _, _, _, _, _, rfl⟩ | ⟨hf, _, _, _, rfl⟩ |
    ⟨hf, _, v, ve, _, _, _, _, _, rfl⟩
  · intro hl
    obtain ⟨e, he, hn, hst⟩ := ht hl
    obtain ⟨e1, he1, hn1, hs1⟩ := recorded_entry (x := countPageHit s) pno.toNat mode time he
    exact ⟨e1, he1, hn1.trans hn, hs1.trans hst⟩
  · intro _
    have hstat := get_of_map PTE.status
      (moved_map PTE.status (fun _ _ => rfl) (fun _ _ => rfl) (countPageHit s) pno.toNat p n)
      pno.toNat
    have hlen : pno.toNat < (moved (countPageHit s) pno.toNat p n).PageTable.length := by
      rw [moved_length]
      exact hlt
    have hnext : ∃ e, (moved (countPageHit s) pno.toNat p n).PageTable[pno.toNat]? = some e ∧
        e.next = none := by
      simp only [moved]
      rw [upd_get]
      simp only [if_true]
      have hl2 : pno.toNat < (upd (upd (upd (updOpt (countPageHit s).PageTable p.prev
          (setNext (some n))) n (setPrev p.prev)) (countPageHit s).fifoLast.toNat
          (setNext (some pno.toNat))) pno.toNat
          (setPrev (some (countPageHit s).fifoLast.toNat))).length := by
        simp only [upd_length]
        simpa [moved, upd_length] using hlen
      rw [List.getElem?_eq_getElem hl2]
      exact ⟨_, rfl, rfl⟩
    obtain ⟨e, he, hn⟩ := hnext
    have hst : e.status = IN_MEMORY := by
      rw [he] at hstat
      have hp2 : (countPageHit s).PageTable[pno.toNat]? = some p := hp
      rw [hp2] at hstat
      have : e.status = p.status := by simpa using hstat
      rw [this, hin]
    obtain ⟨e1, he1, hn1, hs1⟩ := recorded_entry pno.toNat mode time he
    refine ⟨e1, ?_, hn1.trans hn, hs1.trans hst⟩
    show (recorded (moved (countPageHit s) pno.toNat p n) pno.toNat mode time).PageTable[
      (((pno.toNat : Nat) : Int)).toNat]? = some e1
    rw [hcast]
    exact he1
  · exact hnew (probed s) _ rfl rfl (not_IN_MEMORY hf)
  · exact hnew (evicted (probed s) v ve) _ (evicted_length _ _ _) rfl (not_IN_MEMORY hf)

theorem TailOK_init (policy np : Int) (memory : List Int) (effects : List Effect) :
    TailOK (initPageTable policy np memory effects) := by
  intro h
  have : (0 : Int) ≤ -1 := h
  omega

theorem withPolicy_withPolicy (a b : Int) (s : State) :
    withPolicy a (withPolicy b s) = withPolicy a s := rfl

theorem withPolicy_self {s : State} {a : Int} (h : s.replacePolicy = a) : withPolicy a s = s := by
  cases s
  simp only [withPolicy] at h ⊢
  rw [h]

theorem queue_withPolicy (a : Int) (s : State) : queue (withPolicy a s) = queue s := rfl

/-- A request that returns and is not a hit on a page that has a successor returns in the same
way under any policy. -/
theorem requestPage_withPolicy {s s' : State} {pno : Int} {mode : Char} {time r : Int}
    (pol : Int)
    (hnext : ∀ p, s.PageTable[pno.toNat]? = some p → p.status = IN_MEMORY → p.next = none)
    (hreq : requestPage s pno mode time = Except.ok (s', r)) :
    requestPage (withPolicy pol s) pno mode time = Except.ok (withPolicy pol s', r) := by
  obtain ⟨h0, h1, p, hp, s1, hs1, hrec⟩ := requestPage_ok.mp hreq
  refine requestPage_ok.mpr ⟨h0, h1, p, hp, withPolicy pol s1, ?_, ?_⟩
  · rcases hs1 with ⟨hf, ⟨hfree, hload⟩ | ⟨hfull, s0, fno, hev, hload⟩⟩ | ⟨hm, ht⟩
    · left
      refine ⟨hf, Or.inl ⟨hfree, ?_⟩⟩
      obtain ⟨a, b, rfl⟩ := loadPage_ok.mp hload
      exact loadPage_ok.mpr ⟨a, b, rfl⟩
    · left
      refine ⟨hf, Or.inr ⟨hfull, withPolicy pol s0, fno, ?_, ?_⟩⟩
      · obtain ⟨v, ve, hv, hve, hn, hfno, rfl⟩ := evictVictim_ok.mp hev
        exact evictVictim_ok.mpr ⟨v, ve, hv, hve, hn, hfno, rfl⟩
      · obtain ⟨a, b, rfl⟩ := loadPage_ok.mp hload
        exact loadPage_ok.mpr ⟨a, b, rfl⟩
    · right
      refine ⟨hm, ?_⟩
      obtain ⟨p1, hp1, hc⟩ := touchPage_ok.mp ht
      have hpp : p1 = p := by
        have : some p1 = some p := hp1.symm.trans hp
        simpa using this
      subst hpp
      have hnone : p1.next = none := hnext p1 hp hm
      have hs1 : s1 = countPageHit s := by
        rcases hc with ⟨_, h⟩ | ⟨_, _, h⟩ | ⟨_, n, hn, _⟩
        · exact h
        · exact h
        · rw [hnone] at hn
          cases hn
      subst hs1
      refine touchPage_ok.mpr ⟨p1, hp1, ?_⟩
      by_cases hpol : pol = REPL_LRU
      · exact Or.inr (Or.inl ⟨hpol, hnone, rfl⟩)
      · exact Or.inl ⟨hpol, rfl⟩
  · obtain ⟨p1, hp1, hr, rfl⟩ := recordAccess_ok.mp hrec
    exact recordAccess_ok.mpr ⟨p1, hp1, hr, rfl⟩

/-- In a reachable state a resident page that is the tail of the queue has no successor. -/
theorem tail_next_none {s : State} {h : List (Nat × Bool)} (hinv : Inv s h) (ht : TailOK s)
    {pno : Int} (h0 : 0 ≤ pno)
    (htail : s.fifoLast = pno ∨ (queue s).getLast? = some pno.toNat)
    {p : PTE} (hp : s.PageTable[pno.toNat]? = some p) : p.next = none := by
  have hlast : s.fifoLast = pno := by
    rcases htail with h1 | h1
    · exact h1
    · rcases hinv with hb | ⟨q, hwf, _, _⟩
      · rw [queue_of_head_none hb.1] at h1
        cases h1
      · rw [WF_queue hwf] at h1
        rw [hwf.last]
        simp only [tailIndex, h1]
        omega
  obtain ⟨e, he, hn, _⟩ := ht (by omega)
  rw [hlast, hp] at he
  have : p = e := by simpa using he
  rw [this]
  exact hn

/-- Over a trace whose hits are on the tail of the queue, the run from a reachable state and the
run from the same state under another policy return together, in the same states up to the
policy, with the same frames. -/
theorem withPolicy_runRequests (pol : Int) (reqs : List Req) :
    ∀ (s : State) (h : List (Nat × Bool)), Inv s h → TailOK s → tailHits s reqs = true →
      (∀ s', runRequests s reqs = Except.ok s' →
        runRequests (withPolicy pol s) reqs = Except.ok (withPolicy pol s')) ∧
      (∀ s2, runRequests (withPolicy pol s) reqs = Except.ok s2 →
        ∃ s', runRequests s reqs = Except.ok s' ∧ s2 = withPolicy pol s') ∧
      results (withPolicy pol s) reqs = results s reqs := by
  induction reqs with
  | nil =>
    intro s h _ _ _
    refine ⟨?_, ?_, rfl⟩
    · intro s' hrun
      simp only [runRequests, Except.ok.injEq] at hrun ⊢
      rw [hrun]
    · intro s2 hrun
      simp only [runRequests, Except.ok.injEq] at hrun
      exact ⟨s, rfl, hrun.symm⟩
  | cons r rest ih =>
    intro s h hinv ht htail
    simp only [tailHits, Bool.and_eq_true, Bool.or_eq_true, Bool.not_eq_true',
      decide_eq_true_eq] at htail
    obtain ⟨hhit, hrest⟩ := htail
    -- a hit of this request is on a page without successor
    have hnext : 0 ≤ r.pno → ∀ p, s.PageTable[r.pno.toNat]? = some p → p.status = IN_MEMORY →
        p.next = none := by
      intro h0 p hp hin
      have hres : resident s r.pno.toNat = true := (resident_eq_true hp).mpr hin
      rcases hhit with (hc | hc) | hc
      · rw [hres] at hc
        cases hc
      · exact tail_next_none hinv ht h0 (Or.inl hc) hp
      · exact tail_next_none hinv ht h0 (Or.inr hc) hp
    -- the two first requests return together
    have hfwd : ∀ s1 f, requestPage s r.pno r.mode r.time = Except.ok (s1, f) →
        requestPage (withPolicy pol s) r.pno r.mode r.time = Except.ok (withPolicy pol s1, f) := by
      intro s1 f hreq
      exact requestPage_withPolicy pol (hnext (requestPage_cases hreq).1) hreq
    have hbwd : ∀ s2 f, requestPage (withPolicy pol s) r.pno r.mode r.time = Except.ok (s2, f) →
        ∃ s1, requestPage s r.pno r.mode r.time = Except.ok (s1, f) ∧ s2 = withPolicy pol s1 := by
      intro s2 f hreq
      have h1 := requestPage_withPolicy s.replacePolicy
        (s := withPolicy pol s) (hnext (requestPage_cases hreq).1) hreq
      rw [withPolicy_withPolicy, withPolicy_self rfl] at h1
      refine ⟨_, h1, ?_⟩
      rw [withPolicy_withPolicy]
      exact (withPolicy_self (requestPage_policy hreq)).symm
    cases hreq : requestPage s r.pno r.mode r.time with
    | error e =>
      have herr : ∀ s2, runRequests (withPolicy pol s) (r :: rest) ≠ Except.ok s2 := by
        intro s2 hrun
        obtain ⟨s3, f, h3, _⟩ := runRequests_cons_ok.mp hrun
        obtain ⟨s1, h4, _⟩ := hbwd s3 f h3
        rw [hreq] at h4
        cases h4
      refine ⟨?_, ?_, ?_⟩
      · intro s' hrun
        obtain ⟨s1, f, h1, _⟩ := runRequests_cons_ok.mp hrun
        rw [hreq] at h1
        cases h1
      · intro s2 hrun
        exact absurd hrun (herr s2)
      · simp only [results, hreq]
        cases h2 : requestPage (withPolicy pol s) r.pno r.mode r.time with
        | error e2 => rfl
        | ok x =>
          obtain ⟨s3, f⟩ := x
          obtain ⟨s1, h4, _⟩ := hbwd s3 f h2
          rw [hreq] at h4
          cases h4
    | ok x =>
      obtain ⟨s1, f⟩ := x
      rw [hreq] at hrest
      have hrest1 : tailHits s1 rest = true := hrest
      obtain ⟨i1, i2, i3⟩ := ih s1 _ (Inv_requestPage hinv hreq) (TailOK_requestPage ht hreq)
        hrest1
      have h2 := hfwd s1 f hreq
      refine ⟨?_, ?_, ?_⟩
      · intro s' hrun
        obtain ⟨s1a, fa, h1, hr1⟩ := runRequests_cons_ok.mp hrun
        rw [hreq] at h1
        simp only [Except.ok.injEq, Prod.mk.injEq] at h1
        obtain ⟨rfl, rfl⟩ := h1
        exact runRequests_cons_ok.mpr ⟨_, _, h2, i1 s' hr1⟩
      · intro s2 hrun
        obtain ⟨s3, f3, h3, hr3⟩ := runRequests_cons_ok.mp hrun
        rw [h2] at h3
        simp only [Except.ok.injEq, Prod.mk.injEq] at h3
        obtain ⟨rfl, rfl⟩ := h3
        obtain ⟨s', hs', he⟩ := i2 s2 hr3
        exact ⟨s', runRequests_cons_ok.mpr ⟨_, _, hreq, hs'⟩, he⟩
      · simp only [results, hreq, h2, i3]

theorem tailHits_prefix (pre post : List Req) :
    ∀ (s : State), tailHits s (pre ++ post) = true → tailHits s pre = true := by
  induction pre with
  | nil => intro s _; rfl
  | cons r rest ih =>
    intro s h
    simp only [List.cons_append, tailHits, Bool.and_eq_true] at h ⊢
    refine ⟨h.1, ?_⟩
    cases hreq : requestPage s r.pno r.mode r.time with
    | error e => rfl
    | ok x =>
      obtain ⟨s1, f⟩ := x
      have h2 := h.2
      rw [hreq] at h2
      exact ih s1 h2

/-- C17: FIFO and LRU on a trace in which every hit is on the tail of the queue (the page named
by `fifoLast`, or the last page met from `fifoQueue`; in particular on a trace without hits).
For every prefix `pre` of such a trace, the run from `initPageTable(REPL_FIFO, np)` and the run
from `initPageTable(REPL_LRU, np)` over the same memory return together; the frames returned are
the same; and the states reached have the same entries, queue head, `fifoLast`, queue, memory and
collaborator calls, differing in `replacePolicy` only. -/
theorem fifo_lru_agree_on_tail_hits (np : Int) (memory : List Int) (effects : List Effect)
    (pre post : List Req)
    (htail : tailHits (initPageTable REPL_FIFO np memory effects) (pre ++ post) = true) :
    results (initPageTable REPL_LRU np memory effects) pre =
      results (initPageTable REPL_FIFO np memory effects) pre ∧
    (∀ sF, runRequests (initPageTable REPL_FIFO np memory effects) pre = Except.ok sF →
      ∃ sL, runRequests (initPageTable REPL_LRU np memory effects) pre = Except.ok sL ∧
        sL = withPolicy REPL_LRU sF ∧ sL.PageTable = sF.PageTable ∧
        sL.fifoQueue = sF.fifoQueue ∧ sL.fifoLast = sF.fifoLast ∧ queue sL = queue sF ∧
        sL.memory = sF.memory ∧ sL.effects = sF.effects) ∧
    (∀ sL, runRequests (initPageTable REPL_LRU np memory effects) pre = Except.ok sL →
      ∃ sF, runRequests (initPageTable REPL_FIFO np memory effects) pre = Except.ok sF ∧
        sL = withPolicy REPL_LRU sF) := by
  have hpre := tailHits_prefix pre post _ htail
  obtain ⟨h1, h2, h3⟩ := withPolicy_runRequests REPL_LRU pre
    (initPageTable REPL_FIFO np memory effects) [] (Inv_init _ _ _ _) (TailOK_init _ _ _ _) hpre
  refine ⟨h3, ?_, h2⟩
  intro sF hF
  exact ⟨withPolicy REPL_LRU sF, h1 sF hF, rfl, rfl, rfl, rfl, rfl, rfl, rfl⟩

/-- Witness of C17: the trace `0r, 1w, 1r, 2r` with two frames, whose only hit is on page 1, the
tail of the queue; both policies return the frames `0, 1, 1, 0`. -/
theorem fifo_lru_agree_on_tail_hits_witness :
    tailHits (initPageTable REPL_FIFO 4 (initMemory 2) []) (tailHitTrace ++ []) = true ∧
      results (initPageTable REPL_FIFO 4 (initMemory 2) []) tailHitTrace = [0, 1, 1, 0] ∧
      results (initPageTable REPL_LRU 4 (initMemory 2) []) tailHitTrace =
        results (initPageTable REPL_FIFO 4 (initMemory 2) []) tailHitTrace :=
  ⟨rfl, rfl,
    (fifo_lru_agree_on_tail_hits 4 (initMemory 2) [] tailHitTrace [] rfl).1⟩

/-! ## The counters as values of type `int` -/

/-- In a state reached from `initPageTable` the counters of an entry are values of type `int`. -/
theorem counters_range {policy np : Int} {memory : List Int} {effects : List Effect}
    {reqs : List Req} {s : State}
    (hrun : runRequests (initPageTable policy np memory effects) reqs = Except.ok s)
    {p : Nat} {e : PTE} (hp : s.PageTable[p]? = some e) :
    (-2147483648 ≤ e.nPeeks ∧ e.nPeeks ≤ 2147483647) ∧
    (-2147483648 ≤ e.nPokes ∧ e.nPokes ≤ 2147483647) := by
  have hlen := runRequests_length reqs _ s hrun
  have hlt : p < s.PageTable.length := (List.getElem?_eq_some_iff.mp hp).1
  have hi : (p : Int) < np := by
    rw [hlen] at hlt
    simp only [initPageTable, List.length_map, List.length_range] at hlt
    omega
  obtain ⟨e1, he1, h1, h2⟩ := init_counters hrun p hi
  have hee : e1 = e := by
    have : some e1 = some e := he1.symm.trans hp
    simpa using this
  subst hee
  rw [h1, h2]
  exact ⟨wrapInt_range _, wrapInt_range _⟩

/-- C6, as the code has it: in a state reached from `initPageTable` by requests that returned,
`k >= 1` consecutive read requests on a resident page `p`, at the times `ts ++ [t]`, all
return, all are hits, and leave `frame`, `loadTime` and `modified` of `p` as they were before
the first of them; they set `accessTime` to the last time `t` and leave `nPokes` alone; `nPeeks`
is incremented `k` times as an `int`: it becomes `nPeeks + k` wrapped to 32 bits, which is
`nPeeks + k` itself as long as this is at most `INT_MAX = 2147483647`. The policy is arbitrary
(FIFO and LRU alike). -/
theorem repeated_read_hits (policy np : Int) (memory : List Int) (effects : List Effect)
    (pre : List Req) (s : State)
    (hrun : runRequests (initPageTable policy np memory effects) pre = Except.ok s)
    (p : Nat) (e : PTE) (hp : s.PageTable[p]? = some e) (hres : e.status = IN_MEMORY)
    (ts : List Int) (t : Int) :
    ∃ s' e', runRequests s ((ts ++ [t]).map (fun x => (⟨p, 'r', x⟩ : Req))) = Except.ok s' ∧
      history s ((ts ++ [t]).map (fun x => (⟨p, 'r', x⟩ : Req))) =
        List.replicate (ts.length + 1) (p, false) ∧
      s'.PageTable[p]? = some e' ∧ e'.status = IN_MEMORY ∧ e'.frame = e.frame ∧
      e'.loadTime = e.loadTime ∧ e'.modified = e.modified ∧ e'.accessTime = t ∧
      e'.nPeeks = wrapInt (e.nPeeks + ((ts.length + 1 : Nat) : Int)) ∧
      (e.nPeeks + ((ts.length + 1 : Nat) : Int) ≤ 2147483647 →
        e'.nPeeks = e.nPeeks + ((ts.length + 1 : Nat) : Int)) ∧
      e'.nPokes = e.nPokes := by
  have hsafe : Safe s := Safe_runRequests pre _ s (Safe_init policy np memory effects) hrun
  obtain ⟨s', e', h1, h2, h3, h4, h5, h6, h7, h8, h9, h10⟩ := read_hits_run hsafe hp hres ts t
  refine ⟨s', e', h1, h2, h3, h4, h5, h6, h7, h8, h9, ?_, h10⟩
  intro hle
  rw [h9]
  have hr := (counters_range hrun hp).1
  exact wrapInt_of_range (by omega) hle

/-- Witness of C6: under LRU, with two pages loaded, three reads of page 0 (which is not the last
of the queue). -/
theorem repeated_read_hits_witness :
    runRequests (initPageTable REPL_LRU 3 (initMemory 2) []) [⟨0, 'w', 1⟩, ⟨1, 'r', 2⟩] =
      Except.ok lruTwoLoaded ∧
    lruTwoLoaded.PageTable[0]? = some lruTwoLoaded0 ∧
    lruTwoLoaded0.status = IN_MEMORY ∧
    ∃ s' e', runRequests lruTwoLoaded
        (([3, 4] ++ [5]).map (fun x => (⟨((0 : Nat) : Int), 'r', x⟩ : Req))) = Except.ok s' ∧
      history lruTwoLoaded (([3, 4] ++ [5]).map (fun x => (⟨((0 : Nat) : Int), 'r', x⟩ : Req))) =
        List.replicate (([3, 4] : List Int).length + 1) (0, false) ∧
      s'.PageTable[0]? = some e' ∧ e'.status = IN_MEMORY ∧ e'.frame = lruTwoLoaded0.frame ∧
      e'.loadTime = lruTwoLoaded0.loadTime ∧ e'.modified = lruTwoLoaded0.modified ∧
      e'.accessTime = 5 ∧
      e'.nPeeks =
        wrapInt (lruTwoLoaded0.nPeeks + ((([3, 4] : List Int).length + 1 : Nat) : Int)) ∧
      (lruTwoLoaded0.nPeeks + ((([3, 4] : List Int).length + 1 : Nat) : Int) ≤ 2147483647 →
        e'.nPeeks = lruTwoLoaded0.nPeeks + ((([3, 4] : List Int).length + 1 : Nat) : Int)) ∧
      e'.nPokes = lruTwoLoaded0.nPokes :=
  ⟨rfl, rfl, rfl,
    repeated_read_hits REPL_LRU 3 (initMemory 2) [] [⟨0, 'w', 1⟩, ⟨1, 'r', 2⟩] lruTwoLoaded rfl
      0 lruTwoLoaded0 rfl rfl [3, 4] 5⟩

/-- The requests `n + 1` times `(p, 'r', t)` are the read requests on `p` at the times
`t, ..., t`. -/
theorem replicate_reads (p t : Int) (n : Nat) :
    List.replicate (n + 1) (⟨p, 'r', t⟩ : Req) =
      (List.replicate n t ++ [t]).map (fun x => (⟨p, 'r', x⟩ : Req)) := by
  induction n with
  | zero => rfl
  | succ n ih =>
    rw [List.replicate_succ, ih]
    rfl

theorem countP_replicate_reads (t : Int) (n : Nat) :
    (List.replicate n (⟨0, 'r', t⟩ : Req)).countP
      (fun r => decide (r.pno = ((0 : Nat) : Int)) && decide (r.mode = 'r')) = n := by
  induction n with
  | zero => rfl
  | succ n ih =>
    rw [List.replicate_succ, List.countP_cons, ih]
    simp

/-- The state `oneRead`: page 0 is resident and has been read once. -/
theorem oneRead_spec :
    runRequests (initPageTable REPL_FIFO 1 (initMemory 1) []) [⟨0, 'r', 1⟩] =
      Except.ok oneRead ∧
    ∃ e, oneRead.PageTable[0]? = some e ∧ e.status = IN_MEMORY ∧ e.nPeeks = 1 :=
  ⟨rfl, _, rfl, rfl, rfl⟩

/-- From `oneRead`, `n + 1` further reads of page 0 at time `t` return and leave the counter at
`1 + (n + 1)` wrapped to 32 bits. -/
theorem oneRead_reads (t : Int) (n : Nat) :
    ∃ s' e', runRequests oneRead (List.replicate (n + 1) ⟨0, 'r', t⟩) = Except.ok s' ∧
      s'.PageTable[0]? = some e' ∧ e'.nPeeks = wrapInt (1 + ((n + 1 : Nat) : Int)) := by
  obtain ⟨hrun, e, he, hin, hpk⟩ := oneRead_spec
  have hsafe : Safe oneRead := Safe_runRequests _ _ _ (Safe_init _ _ _ _) hrun
  obtain ⟨s', e', h1, _, h3, _, _, _, _, _, h9, _⟩ :=
    read_hits_run hsafe he hin (List.replicate n t) t
  refine ⟨s', e', ?_, h3, ?_⟩
  · rw [replicate_reads]
    exact h1
  · rw [h9, hpk, List.length_replicate]

/-- C1 fails on the code as stated: `2147483648` reads of page 0 of a one-page table all return
(the first is a fault, the others are hits), and `nPeeks`, an `int`, is then `-2147483648`, not
the number of the `'r'` requests. -/
theorem nPeeks_wraps_past_INT_MAX :
    ∃ s e, runRequests (initPageTable REPL_FIFO 1 (initMemory 1) [])
        (List.replicate 2147483648 ⟨0, 'r', 1⟩) = Except.ok s ∧
      s.PageTable[0]? = some e ∧
      (List.replicate 2147483648 (⟨0, 'r', 1⟩ : Req)).countP
        (fun r => decide (r.pno = ((0 : Nat) : Int)) && decide (r.mode = 'r')) = 2147483648 ∧
      e.nPeeks = -2147483648 ∧
      e.nPeeks ≠ ((2147483648 : Nat) : Int) := by
  obtain ⟨s', e', h1, h2, h3⟩ := oneRead_reads 1 2147483646
  have hw : wrapInt (1 + ((2147483646 + 1 : Nat) : Int)) = -2147483648 := by decide
  rw [hw] at h3
  refine ⟨s', e', ?_, h2, countP_replicate_reads 1 2147483648, h3, ?_⟩
  · have hfirst := oneRead_spec.1
    have hcons : List.replicate 2147483648 (⟨0, 'r', 1⟩ : Req) =
        ⟨0, 'r', 1⟩ :: List.replicate (2147483646 + 1) ⟨0, 'r', 1⟩ :=
      List.replicate_succ (⟨0, 'r', 1⟩ : Req) 2147483647
    rw [hcons]
    obtain ⟨s1, f, hreq, hrest⟩ := runRequests_cons_ok.mp hfirst
    simp only [runRequests, Except.ok.injEq] at hrest
    subst hrest
    exact runRequests_cons_ok.mpr ⟨_, f, hreq, h1⟩
  · rw [h3]
    decide

/-- C6 fails on the code as stated: in the state `oneRead`, reached by one read of page 0, page 0
is resident with `nPeeks = 1`; `k = 2147483647` further reads of it all return, and `nPeeks`, an
`int`, is then `-2147483648`, not `1 + k`. -/
theorem nPeeks_wraps_on_read_hits :
    runRequests (initPageTable REPL_FIFO 1 (initMemory 1) []) [⟨0, 'r', 1⟩] =
      Except.ok oneRead ∧
    (∃ e, oneRead.PageTable[0]? = some e ∧ e.status = IN_MEMORY ∧ e.nPeeks = 1) ∧
    ∃ s' e', runRequests oneRead (List.replicate 2147483647 ⟨0, 'r', 2⟩) = Except.ok s' ∧
      s'.PageTable[0]? = some e' ∧ e'.nPeeks = -2147483648 ∧
      e'.nPeeks ≠ 1 + ((2147483647 : Nat) : Int) := by
  obtain ⟨s', e', h1, h2, h3⟩ := oneRead_reads 2 2147483646
  have hw : wrapInt (1 + ((2147483646 + 1 : Nat) : Int)) = -2147483648 := by decide
  rw [hw] at h3
  refine ⟨oneRead_spec.1, oneRead_spec.2, s', e', h1, h2, h3, ?_⟩
  rw [h3]
  decide

end VMSim
